import Mathlib

/-!
Verification of pongo2: whitespace trimming, HTML escaping, and the dynamic `Value` wrapper.

A shallow embedding of parts of the pongo2 template engine (`helpers.go`,
`secape.go`, `value.go`, `template.go`) together with theorems about them.

Conventions of the embedding:

* `stripWhitespace` iterates over its input with `for _, r := range s` and
  appends to its buffer with `WriteRune`; it is embedded at that level: a text is
  the sequence of runes the `range` loop yields (`List Char`), the buffer is the
  sequence of runes written. `stripWhitespaceBytes` is the function on Go strings:
  it decodes the bytes as `range` does and encodes the buffer as `WriteRune` does.
* `HTMLEscape` and `HTMLEscapeString` work on bytes; a byte string is a list of
  byte values (`List Nat`).
-/

namespace Pongo2

/-! ## Whitespace trimming (`helpers.go`) -/

/-- The rune `0`, used by `stripWhitespace` for "not inside a quote" and
"no character recorded yet". -/
def NUL : Char := Char.ofNat 0

/-- The double quote character. -/
def dquote : Char := Char.ofNat 34

/-- The single quote character (apostrophe). -/
def squote : Char := Char.ofNat 39

/-- Go's `unicode.IsSpace`: the Latin-1 switch on tab, newline, vertical tab, form feed,
carriage return, space, U+0085 and U+00A0, and beyond Latin-1 the remaining entries of the
`White_Space` range table. -/
def isSpace (r : Char) : Bool :=
  if r.toNat ≤ 0xFF then
    r.toNat = 9 || r.toNat = 10 || r.toNat = 11 || r.toNat = 12 || r.toNat = 13
      || r.toNat = 32 || r.toNat = 0x85 || r.toNat = 0xA0
  else
    r.toNat = 0x1680 || (0x2000 ≤ r.toNat && r.toNat ≤ 0x200a) || r.toNat = 0x2028
      || r.toNat = 0x2029 || r.toNat = 0x202f || r.toNat = 0x205f || r.toNat = 0x3000

/-- The variables of `stripWhitespace` that live across loop iterations. -/
structure StripState where
  buf : List Char
  inQuote : Char
  lastChar : Char
  pendingSpace : Bool
deriving DecidableEq, Repr

/-- The `shouldWrite` computation of the loop body (lines 55-67): a pending space before the
non-space, non-quote rune `r` is written unless one of the four guards clears it. -/
def shouldWrite (lastChar r : Char) : Bool :=
  let sw := true
  let sw := if lastChar = '>' ∧ r = '<' then false else sw
  let sw := if lastChar = '=' ∨ r = '=' then false else sw
  let sw := if (lastChar = dquote ∨ lastChar = squote) ∧ r = '>' then false else sw
  let sw := if lastChar = NUL then false else sw
  sw

/-- One iteration of the `for _, r := range s` loop of `stripWhitespace`. -/
def stripStep (st : StripState) (r : Char) : StripState :=
  if st.inQuote ≠ NUL then
    { buf := st.buf ++ [r],
      inQuote := if r = st.inQuote then NUL else st.inQuote,
      lastChar := r,
      pendingSpace := st.pendingSpace }
  else if r = dquote ∨ r = squote then
    { buf := (if st.pendingSpace then
                (if st.lastChar ≠ '=' then st.buf ++ [' '] else st.buf)
              else st.buf) ++ [r],
      inQuote := r,
      lastChar := r,
      pendingSpace := false }
  else if isSpace r then
    { st with pendingSpace := true }
  else
    { buf := (if st.pendingSpace then
                (if shouldWrite st.lastChar r then st.buf ++ [' '] else st.buf)
              else st.buf) ++ [r],
      inQuote := st.inQuote,
      lastChar := r,
      pendingSpace := false }

/-- The whole loop: the state after all runes of `s` have been processed. -/
def stripLoop (st : StripState) (s : List Char) : StripState :=
  s.foldl stripStep st

/-- The code after the loop (lines 79-87): a still pending space is written unless the last
character is `>`, `=` or not recorded. -/
def stripFinish (st : StripState) : List Char :=
  if st.pendingSpace then
    (if st.lastChar = '>' ∨ st.lastChar = '=' ∨ st.lastChar = NUL then st.buf
     else st.buf ++ [' '])
  else st.buf

/-- The function `stripWhitespace(s, inQuote, lastChar)`; returns the trimmed text and the
quote and last-character state to carry to the next literal-text token. -/
def stripWhitespace (s : List Char) (inQuote lastChar : Char) : List Char × Char × Char :=
  let st := stripLoop { buf := [], inQuote := inQuote, lastChar := lastChar,
                        pendingSpace := false } s
  (stripFinish st, st.inQuote, st.lastChar)

/-- The last rune of `c :: body`: the value of `lastChar` after a run of assignments
`lastChar = r` for the runes `r` of `body`, starting from `c`. -/
def lastRune (c : Char) : List Char → Char
  | [] => c
  | r :: rs => lastRune r rs

/-- The text `out` contains a `>` followed by a non-empty run of whitespace followed by
a `<`. -/
def TagGap (out : List Char) : Prop :=
  ∃ pre w post, out = pre ++ '>' :: (w ++ '<' :: post) ∧ w ≠ [] ∧ ∀ x ∈ w, isSpace x = true

/-- The text `l` starts with a non-empty run of whitespace followed by a `<`. -/
def StartsGap (l : List Char) : Prop :=
  ∃ w post, l = w ++ '<' :: post ∧ w ≠ [] ∧ ∀ x ∈ w, isSpace x = true

/-! ### Auxiliary view: the text emitted for the remaining input -/

/-- The text that the loop and the final flush append to the buffer when the remaining input
is `s` and the loop variables are `q` (inQuote), `c` (lastChar) and `p` (pendingSpace). -/
def emit : List Char → Char → Char → Bool → List Char
  | [], _, c, p =>
      if p then (if c = '>' ∨ c = '=' ∨ c = NUL then [] else [' ']) else []
  | r :: rs, q, c, p =>
      if q ≠ NUL then r :: emit rs (if r = q then NUL else q) r p
      else if r = dquote ∨ r = squote then
        (if p then (if c ≠ '=' then [' '] else []) else []) ++ r :: emit rs r r false
      else if isSpace r then emit rs q c true
      else (if p then (if shouldWrite c r then [' '] else []) else []) ++ r :: emit rs q r false

/-! ## HTML escaping (`secape.go`) -/

/-- The bytes of the UTF-8 encoding of a text, as byte values. -/
def bytesOf (s : String) : List Nat :=
  s.toList.flatMap (fun c => (String.utf8EncodeChar c).map UInt8.toNat)

def htmlQuot : List Nat := bytesOf "&quot;"
def htmlApos : List Nat := bytesOf "&apos;"
def htmlAmp : List Nat := bytesOf "&amp;"
def htmlLt : List Nat := bytesOf "&lt;"
def htmlGt : List Nat := bytesOf "&gt;"
def htmlNull : List Nat := [0xEF, 0xBF, 0xBD]

/-- The `switch c` of both escaping loops: the replacement for byte `c`, or `none` for the
`default: continue` branch. -/
def htmlSwitch (c : Nat) : Option (List Nat) :=
  if c = 0 then some htmlNull
  else if c = 34 then some htmlQuot
  else if c = 39 then some htmlApos
  else if c = 38 then some htmlAmp
  else if c = 60 then some htmlLt
  else if c = 62 then some htmlGt
  else none

/-- The Go slice expression `b[i:j]`. -/
def sliceBytes (b : List Nat) (i j : Nat) : List Nat := (b.drop i).take (j - i)

/-- One iteration of either escaping loop at index `i` with byte `c`; the state is the text
written to `w` so far and the variable `last`. -/
def escapeStep (b : List Nat) (st : List Nat × Nat) (i c : Nat) : List Nat × Nat :=
  match htmlSwitch c with
  | none => st
  | some html => (st.1 ++ sliceBytes b st.2 i ++ html, i + 1)

/-- The function `HTMLEscape(w, b)`: `for i, c := range b`, then the final `w.Write(b[last:])`.
The writer is the text written so far; the result is the text after the call. -/
def HTMLEscape (w : List Nat) (b : List Nat) : List Nat :=
  let st := b.enum.foldl (fun st ic => escapeStep b st ic.1 ic.2) (w, 0)
  st.1 ++ b.drop st.2

/-- The function `HTMLEscapeString(w, s)`: `for i := 0; i < len(s); i++` with `c := s[i]`, then
the final `PrintString(w, s[last:])`. -/
def HTMLEscapeString (w : List Nat) (s : List Nat) : List Nat :=
  let st := (List.range s.length).foldl (fun st i => escapeStep s st i (s.getD i 0)) (w, 0)
  st.1 ++ s.drop st.2

/-- The per-byte image that the escaping contract assigns to byte `c`. -/
def escapeByte (c : Nat) : List Nat :=
  if c = 38 then bytesOf "&amp;"
  else if c = 60 then bytesOf "&lt;"
  else if c = 62 then bytesOf "&gt;"
  else if c = 34 then bytesOf "&quot;"
  else if c = 39 then bytesOf "&apos;"
  else if c = 0 then [0xEF, 0xBF, 0xBD]
  else [c]

/-! ## The dynamic value wrapper (`value.go`) and the writer (`template.go`) -/

/-- The ten integer types of the type switches. -/
inductive IntKind
  | int | int8 | int16 | int32 | int64 | uint | uint8 | uint16 | uint32 | uint64
deriving DecidableEq, Repr

/-- The value range of each integer type (`int` and `uint` are 64 bits wide). -/
def IntKind.inRange : IntKind → Int → Bool
  | .int, n => -2^63 ≤ n && n < 2^63
  | .int8, n => -2^7 ≤ n && n < 2^7
  | .int16, n => -2^15 ≤ n && n < 2^15
  | .int32, n => -2^31 ≤ n && n < 2^31
  | .int64, n => -2^63 ≤ n && n < 2^63
  | .uint, n => 0 ≤ n && n < 2^64
  | .uint8, n => 0 ≤ n && n < 2^8
  | .uint16, n => 0 ≤ n && n < 2^16
  | .uint32, n => 0 ≤ n && n < 2^32
  | .uint64, n => 0 ≤ n && n < 2^64

/-- Pointee types: the fifteen types named in the type switch of `getResolvedValue`, and any
other type. -/
inductive GoType
  | string | int (k : IntKind) | float32 | float64 | bool | time
  | other (name : String)
deriving DecidableEq, Repr

/-- A `time.Time` datum. -/
structure GoTime where
  unixNano : Int
  loc : String
deriving DecidableEq, Repr

/-- A Go byte string. -/
abbrev GoString := List Nat

/-- The datum held in the `val any` field of a `Value`, with its dynamic type.
Floats are their IEEE-754 bit patterns. `named` is a datum of a type that is not one of the
predeclared types of the type switches (a defined type such as `type Level int` or
`type User struct`); `str` is the result of its `String()` method when it has one. `misc` is
a datum of any remaining kind (function, complex number, `uintptr`, unsafe pointer). -/
inductive GoVal
  | nil
  | str (s : GoString)
  | int (k : IntKind) (n : Int)
  | float32 (bits : Nat)
  | float64 (bits : Nat)
  | bool (b : Bool)
  | time (t : GoTime)
  | nilPtr (elem : GoType)
  | ptr (elem : GoType) (addr : Nat) (target : GoVal)
  | array (elems : List GoVal)
  | slice (elems : List GoVal)
  | map (entries : List (GoVal × GoVal))
  | chan (len : Nat)
  | struct (fields : List (String × GoVal))
  | named (tname : String) (str : Option GoString) (v : GoVal)
  | misc (id : Nat)
deriving Repr

/-- The type `Value`. -/
structure Value where
  val : GoVal
  safe : Bool
deriving Repr

/-- The constructor `AsValue`. -/
def AsValue (i : GoVal) : Value := { val := i, safe := false }

/-- The constructor `AsSafeValue`. -/
def AsSafeValue (i : GoVal) : Value := { val := i, safe := true }

/-- The kinds of `reflect.Kind` that the code tells apart. -/
inductive Kind
  | invalid | bool | int | float | string | pointer | array | slice | map | chan | struct | other
deriving DecidableEq, Repr

/-- The result of `reflect.ValueOf(val).Kind()`; a defined type has the kind of its
underlying type. -/
def GoVal.kind : GoVal → Kind
  | .nil => .invalid
  | .str _ => .string
  | .int _ _ => .int
  | .float32 _ => .float
  | .float64 _ => .float
  | .bool _ => .bool
  | .time _ => .struct
  | .nilPtr _ => .pointer
  | .ptr _ _ _ => .pointer
  | .array _ => .array
  | .slice _ => .slice
  | .map _ => .map
  | .chan _ => .chan
  | .struct _ => .struct
  | .named _ _ v => v.kind
  | .misc _ => .other

/-- The result of `reflect.ValueOf(val).Len()` for the kinds array, chan, map and slice. -/
def GoVal.reflectLen : GoVal → Nat
  | .array es => es.length
  | .slice es => es.length
  | .map es => es.length
  | .chan n => n
  | .named _ _ v => v.reflectLen
  | _ => 0

/-- The reflection branch of `getResolvedValue` for a datum of pointer kind: `nil` for a nil
pointer, else `rv.Elem().Interface()`. -/
def GoVal.reflectDeref : GoVal → GoVal
  | .nilPtr _ => .nil
  | .ptr _ _ t => t
  | .named _ _ v => v.reflectDeref
  | _ => .nil

/-- Whether a pointee type is one of the fifteen types of the type switch in
`getResolvedValue`. -/
def GoType.isCommon : GoType → Bool
  | .other _ => false
  | _ => true

/-- The method `getResolvedValue`. The result `none` stands for a run-time panic (the
dereference `*val` of a nil pointer in the type switch). -/
def Value.getResolvedValue (v : Value) : Option GoVal :=
  match v.val with
  | .nil => some .nil
  | .nilPtr elem => if elem.isCommon then none else some .nil
  | .ptr _ _ t => some t
  | .str s => some (.str s)
  | .int k n => some (.int k n)
  | .float32 b => some (.float32 b)
  | .float64 b => some (.float64 b)
  | .bool b => some (.bool b)
  | .time t => some (.time t)
  | val => if val.kind = .pointer then some val.reflectDeref else some val

/-- The method `IsNil`: `v.val == nil`. -/
def Value.IsNil (v : Value) : Bool :=
  match v.val with
  | .nil => true
  | _ => false

/-- The type assertion `val.(fmt.Stringer)`: the text of `val.String()` when the datum has
that method. The result of `time.Time.String()` is taken from the library. -/
def GoVal.stringer (timeString : GoTime → GoString) : GoVal → Option GoString
  | .time t => some (timeString t)
  | .named _ s _ => s
  | _ => none

/-- The functions of the Go standard library and of `fastprinter` on floats, times and
arbitrary datums that the embedding does not interpret. -/
structure ExtLib where
  /-- The text of `fmt.Sprintf("%f", val)` for a `float64` bit pattern (a `float32` is
  converted first). -/
  sprintfF : Nat → GoString
  /-- The text of `fmt.Sprintf("%v", val)`. -/
  sprintV : GoVal → GoString
  /-- The bytes written by `fastprinter.PrintFloatPrecision(w, f, 6)`. -/
  printFloat6 : Nat → GoString
  /-- The text of `time.Time.String()`. -/
  timeString : GoTime → GoString
  /-- The result of `strconv.ParseFloat(s, 64)`, `none` for an error. -/
  parseFloat : GoString → Option Nat
  /-- The conversion `int(f)` of a `float64` bit pattern. -/
  floatToInt : Nat → Int
  /-- The conversion `float64(n)` of an integer, as a bit pattern. -/
  intToFloat : Int → Nat

/-- The decimal digits of a natural number, as ASCII bytes. -/
def natDigits (n : Nat) : GoString := (Nat.toDigits 10 n).map Char.toNat

/-- Modelled from the spec: `strconv.Itoa`, `strconv.FormatInt(n, 10)`,
`strconv.FormatUint(n, 10)`, `fastprinter.PrintInt` and `fastprinter.PrintUint` are library
functions outside the repository; by the spec numbers print as locale-independent decimal:
a minus sign for a negative number, then the digits without leading zeros. -/
def formatDecimal (n : Int) : GoString :=
  if n < 0 then 45 :: natDigits n.natAbs else natDigits n.toNat

/-- The conversions `int(x)` and `int64(x)` of an integer (`int` is 64 bits wide). -/
def toInt64 (n : Int) : Int := (n + 2^63) % 2^64 - 2^63

/-- The conversion `uint64(x)` of an integer. -/
def toUint64 (n : Int) : Int := n % 2^64

/-- Position of the highest set bit of `m`, for `m < 2 ^ fuel`. -/
def highBit : Nat → Nat → Nat
  | 0, _ => 0
  | f + 1, m => if m < 2 then 0 else 1 + highBit f (m / 2)

/-- The conversion `float64(x)` of a `float32`, on IEEE-754 bit patterns. -/
def float32To64 (b : Nat) : Nat :=
  let sign := b / 2^31 % 2
  let e := b / 2^23 % 256
  let m := b % 2^23
  if e = 255 then sign * 2^63 + 2047 * 2^52 + m * 2^29
  else if e = 0 then
    (if m = 0 then sign * 2^63
     else sign * 2^63 + (highBit 23 m + 874) * 2^52 + (m - 2^(highBit 23 m)) * 2^(52 - highBit 23 m))
  else sign * 2^63 + (e + 896) * 2^52 + m * 2^29

/-- The comparison `val != 0` for a `float32` bit pattern: false exactly for `+0` and `-0`. -/
def float32Nonzero (b : Nat) : Bool := b % 2^31 ≠ 0

/-- The comparison `val != 0` for a `float64` bit pattern: false exactly for `+0` and `-0`. -/
def float64Nonzero (b : Nat) : Bool := b % 2^63 ≠ 0

/-- The method `String`. Calls to `logf` are not modelled. -/
def Value.String (L : ExtLib) (v : Value) : Option GoString :=
  if v.IsNil then some []
  else
    match v.getResolvedValue with
    | none => none
    | some val =>
      match val.stringer L.timeString with
      | some t => some t
      | none =>
        match val with
        | .str s => some s
        | .int .int n => some (formatDecimal n)
        | .int .int8 n => some (formatDecimal (toInt64 n))
        | .int .int16 n => some (formatDecimal (toInt64 n))
        | .int .int32 n => some (formatDecimal (toInt64 n))
        | .int .int64 n => some (formatDecimal n)
        | .int .uint n => some (formatDecimal (toUint64 n))
        | .int .uint8 n => some (formatDecimal (toUint64 n))
        | .int .uint16 n => some (formatDecimal (toUint64 n))
        | .int .uint32 n => some (formatDecimal (toUint64 n))
        | .int .uint64 n => some (formatDecimal n)
        | .float32 b => some (L.sprintfF (float32To64 b))
        | .float64 b => some (L.sprintfF b)
        | .bool b => if b then some (bytesOf "True") else some (bytesOf "False")
        | val => some (L.sprintV val)

/-- The method `Integer`. -/
def Value.Integer (L : ExtLib) (v : Value) : Option Int :=
  match v.getResolvedValue with
  | none => none
  | some val =>
    match val with
    | .int .int n => some n
    | .int _ n => some (toInt64 n)
    | .float32 b => some (L.floatToInt (float32To64 b))
    | .float64 b => some (L.floatToInt b)
    | .str s =>
      match L.parseFloat s with
      | none => some 0
      | some f => some (L.floatToInt f)
    | _ => some 0

/-- The method `Float`; the result is a `float64` bit pattern. -/
def Value.Float (L : ExtLib) (v : Value) : Option Nat :=
  match v.getResolvedValue with
  | none => none
  | some val =>
    match val with
    | .float32 b => some (float32To64 b)
    | .float64 b => some b
    | .int _ n => some (L.intToFloat n)
    | .str s =>
      match L.parseFloat s with
      | none => some 0
      | some f => some f
    | _ => some 0

/-- The method `IsTrue`. -/
def Value.IsTrue (v : Value) : Option Bool :=
  match v.getResolvedValue with
  | none => none
  | some val =>
    match val with
    | .nil => some false
    | .int _ n => some (n != 0)
    | .float32 b => some (float32Nonzero b)
    | .float64 b => some (float64Nonzero b)
    | .bool b => some b
    | .str s => some (s.length > 0)
    | val =>
      match val.kind with
      | .array | .chan | .map | .slice => some (val.reflectLen > 0)
      | .struct => some true
      | _ => some false

/-- The `float64` constant `1.1`. -/
def float64_1_1 : Nat := 0x3FF199999999999A

/-- The method `Negate`. -/
def Value.Negate (L : ExtLib) (v : Value) : Option Value :=
  match v.getResolvedValue with
  | none => none
  | some val =>
    match val with
    | .nil => some (AsValue (.bool true))
    | .int _ _ =>
      match v.Integer L with
      | none => none
      | some n => if n ≠ 0 then some (AsValue (.int .int 0)) else some (AsValue (.int .int 1))
    | .float32 _ | .float64 _ =>
      match v.Float L with
      | none => none
      | some f =>
        if float64Nonzero f then some (AsValue (.float64 0))
        else some (AsValue (.float64 float64_1_1))
    | .bool b => some (AsValue (.bool (!b)))
    | .str s => some (AsValue (.bool (s.length == 0)))
    | val =>
      match val.kind with
      | .array | .chan | .map | .slice => some (AsValue (.bool (val.reflectLen == 0)))
      | .struct => some (AsValue (.bool false))
      | _ => some (AsValue (.bool true))

/-- The method `templateWriter.WriteAny`. The writer `w` is the text written so far; the
result is the text after the call, `none` for a run-time panic. -/
def WriteAny (L : ExtLib) (w : GoString) (v : Value) : Option GoString :=
  if v.IsNil then some w
  else
    match v.getResolvedValue with
    | none => none
    | some val =>
      match val with
      | .str s => some (w ++ s)
      | .int .int n => some (w ++ formatDecimal (toInt64 n))
      | .int .int8 n => some (w ++ formatDecimal (toInt64 n))
      | .int .int16 n => some (w ++ formatDecimal (toInt64 n))
      | .int .int32 n => some (w ++ formatDecimal (toInt64 n))
      | .int .int64 n => some (w ++ formatDecimal n)
      | .int .uint n => some (w ++ formatDecimal (toUint64 n))
      | .int .uint8 n => some (w ++ formatDecimal (toUint64 n))
      | .int .uint16 n => some (w ++ formatDecimal (toUint64 n))
      | .int .uint32 n => some (w ++ formatDecimal (toUint64 n))
      | .int .uint64 n => some (w ++ formatDecimal n)
      | .float32 b => some (w ++ L.printFloat6 (float32To64 b))
      | .float64 b => some (w ++ L.printFloat6 b)
      | .bool b => if b then some (w ++ bytesOf "True") else some (w ++ bytesOf "False")
      | val =>
        match val.stringer L.timeString with
        | some t => some (w ++ t)
        | none =>
          match v.String L with
          | none => none
          | some t => some (w ++ t)

/-- An integer datum lies in the value range of its type; other datums satisfy this
vacuously. -/
def GoVal.intInRange : GoVal → Bool
  | .int k n => k.inRange n
  | _ => true

/-- An instance of the library interface, for evaluating the definitions on concrete inputs
that do not reach the library. -/
def ExtLib.trivial : ExtLib where
  sprintfF := fun _ => []
  sprintV := fun _ => []
  printFloat6 := fun _ => []
  timeString := fun _ => []
  parseFloat := fun _ => none
  floatToInt := fun _ => 0
  intToFloat := fun _ => 0

/-- The text `out` contains two adjacent whitespace characters. -/
def AdjSpace (out : List Char) : Prop :=
  ∃ pre a b post, out = pre ++ a :: b :: post ∧ isSpace a = true ∧ isSpace b = true

/-! ## Templates (`template.go`) -/

/-- Modelled from the spec: the kinds of a token. The type `Token` and its kinds are declared
in the lexer, outside the sources at hand; the code here reads and writes only the fields
`Typ` and `Val` and compares `Typ` with `TokenHTML`. -/
inductive TokenType
  | TokenError | TokenEOF | TokenHTML | TokenKeyword | TokenIdentifier | TokenString
  | TokenNumber | TokenSymbol
deriving DecidableEq, Repr

/-- A token with the two fields the code uses. -/
structure Token where
  Typ : TokenType
  Val : GoString
deriving DecidableEq, Repr

/-- The options read by the code. -/
structure Options where
  TrimWhitespace : Bool
  TrimBlocks : Bool
  LStripBlocks : Bool
deriving DecidableEq, Repr

/-- The library function `strings.TrimRight(s, "\t ")`: trailing tabs and spaces removed. -/
def trimRightTabSpace (s : GoString) : GoString :=
  (s.reverse.dropWhile (fun c => c == 9 || c == 32)).reverse

/-- The body of the loop `for _, t := range tpl.tokens` in `newContextForExecution`, run over
the remaining tokens; `prev` is the token the variable `prev` points to. The result lists
`prev` and the remaining tokens as the loop leaves them. -/
def tokenLoop (o : Options) : Token → List Token → List Token
  | prev, [] => [prev]
  | prev, t :: ts =>
    let prev1 :=
      if o.LStripBlocks then
        (if prev.Typ = .TokenHTML ∧ t.Typ ≠ .TokenHTML ∧ t.Val = bytesOf "\x7b%" then
          { prev with Val := trimRightTabSpace prev.Val }
         else prev)
      else prev
    let t1 :=
      if o.TrimBlocks then
        (if prev1.Typ ≠ .TokenHTML ∧ t.Typ = .TokenHTML ∧ prev1.Val = bytesOf "%\x7d" then
          (if t.Val.length > 0 ∧ t.Val.head? = some 10 then { t with Val := t.Val.drop 1 }
           else t)
         else t)
      else t
    prev1 :: tokenLoop o t1 ts

/-- The trim-blocks / lstrip-blocks pass at the head of `newContextForExecution`
(lines 219-245): the tokens of the template after the pass. The loop starts with a local
token of kind HTML and text `"\n"` as `prev`. -/
def trimBlocksPass (o : Options) (tokens : List Token) : List Token :=
  if o.TrimBlocks ∨ o.LStripBlocks then
    (tokenLoop o { Typ := .TokenHTML, Val := [10] } tokens).tail
  else tokens

/-- The type `Context`, a map from names to values, in some enumeration order of its keys. -/
abbrev Context := List (String × GoVal)

/-- The fields of `Template` that the code reads. Templates, block bodies and the document
root are referred to by pointers, modelled as numbers. `Globals` is `tpl.set.Globals`. -/
structure Template where
  name : String
  tokens : List Token
  parent : Option Nat
  blocks : List (String × Nat)
  exportedMacros : List (String × Nat)
  root : Nat
  Options : Options
  Globals : Context

/-- The templates in memory, by pointer. -/
abbrev Store := Nat → Template

/-- An assignment through a template pointer. -/
def Store.set (st : Store) (i : Nat) (t : Template) : Store :=
  fun j => if j = i then t else st j

/-- Modelled from the spec: the execution context built by `newExecutionContext(parent,
newContext)` (declared outside the sources at hand): the template to run and the public
scope. -/
structure ExecutionContext where
  template : Nat
  Public : Context

/-- The errors of a render call. -/
inductive ExecError
  | invalidIdentifier (key : String)
  | macroClash (key : String)
  | node (msg : String)
deriving DecidableEq, Repr

/-- The assignment `c[k] = v` on a map. -/
def Context.put (c : Context) (k : String) (v : GoVal) : Context :=
  if c.any (fun kv => kv.1 == k) then c.map (fun kv => if kv.1 = k then (k, v) else kv)
  else c ++ [(k, v)]

/-- Modelled from the spec: the method `Context.Update` (declared outside the sources at
hand) merges the other context in: `c[k] = v` for every entry of `other`. -/
def Context.Update (c other : Context) : Context :=
  other.foldl (fun acc kv => acc.put kv.1 kv.2) c

/-- Modelled from the spec: the method `checkForValidIdentifiers` (declared outside the
sources at hand) fails when a key is not identifier-shaped; the test on a key is the
parameter `validIdent`. -/
def checkForValidIdentifiers (validIdent : String → Bool) (c : Context) : Option ExecError :=
  match c.find? (fun kv => !validIdent kv.1) with
  | some kv => some (.invalidIdentifier kv.1)
  | none => none

/-- The loop `for parent.parent != nil` of `newContextForExecution`, started at `parent`;
`none` when the loop has not ended within `fuel` iterations. -/
def parentLoop (st : Store) : Nat → Nat → Option Nat
  | 0, _ => none
  | fuel + 1, parent =>
    match (st parent).parent with
    | none => some parent
    | some q => parentLoop st fuel q

/-- The method `newContextForExecution`: the store after the token pass, the template to
run, and the execution context or the error. The result is `none` when the parent loop has
not ended within `fuel` iterations. -/
def newContextForExecution (validIdent : String → Bool) (fuel : Nat) (st : Store) (tpl : Nat)
    (context : Option Context) : Option (Store × Nat × Option ExecutionContext × Option ExecError) :=
  let st1 := st.set tpl { st tpl with tokens := trimBlocksPass (st tpl).Options (st tpl).tokens }
  match parentLoop st1 fuel tpl with
  | none => none
  | some parent =>
    let newContext := Context.Update [] (st1 tpl).Globals
    match context with
    | none => some (st1, parent, some { template := parent, Public := newContext }, none)
    | some ctx =>
      let newContext := newContext.Update ctx
      if newContext.length > 0 then
        match checkForValidIdentifiers validIdent newContext with
        | some err => some (st1, parent, none, some err)
        | none =>
          match newContext.find? (fun kv => ((st1 tpl).exportedMacros.lookup kv.1).isSome) with
          | some kv => some (st1, parent, none, some (.macroClash kv.1))
          | none => some (st1, parent, some { template := parent, Public := newContext }, none)
      else some (st1, parent, some { template := parent, Public := newContext }, none)

/-- The execution of a node (the document root or a block body) against a context, declared
outside the sources at hand: the text it writes to its writer and the error it returns. -/
abbrev NodeExec := Store → Nat → ExecutionContext → GoString × Option ExecError

/-- The method `execute`; `w` is the text in the writer before the call. -/
def execute (exec : NodeExec) (validIdent : String → Bool) (fuel : Nat) (st : Store)
    (tpl : Nat) (context : Option Context) (w : GoString) :
    Option (Store × GoString × Option ExecError) :=
  match newContextForExecution validIdent fuel st tpl context with
  | none => none
  | some (st1, _, _, some err) => some (st1, w, some err)
  | some (st1, _, none, none) => some (st1, w, none)
  | some (st1, parent, some ctx, none) =>
    some (st1, w ++ (exec st1 (st1 parent).root ctx).1, (exec st1 (st1 parent).root ctx).2)

/-- The two `sync.Pool`s of buffers: the contents of the pooled buffers. -/
structure Pools where
  bufferPool : List GoString
  bufferedTemplateWriterPool : List GoString
deriving DecidableEq, Repr

/-- The function `getBuffer`: a pooled buffer, or a new empty one. -/
def getBuffer (p : Pools) : GoString × Pools :=
  match p.bufferPool with
  | [] => ([], p)
  | b :: rest => (b, { p with bufferPool := rest })

/-- The function `putBuffer`: the buffer is reset and pooled. -/
def putBuffer (p : Pools) (_buf : GoString) : Pools :=
  { p with bufferPool := [] :: p.bufferPool }

/-- The function `getBufferedTemplateWriter`: the buffer of a pooled writer, or of a new
one. -/
def getBufferedTemplateWriter (p : Pools) : GoString × Pools :=
  match p.bufferedTemplateWriterPool with
  | [] => ([], p)
  | b :: rest => (b, { p with bufferedTemplateWriterPool := rest })

/-- The function `putBufferedTemplateWriter`: the buffer is reset and the writer pooled. -/
def putBufferedTemplateWriter (p : Pools) (_buf : GoString) : Pools :=
  { p with bufferedTemplateWriterPool := [] :: p.bufferedTemplateWriterPool }

/-- Every pooled buffer is empty. -/
def Pools.Clean (p : Pools) : Prop :=
  (∀ b ∈ p.bufferPool, b = []) ∧ (∀ b ∈ p.bufferedTemplateWriterPool, b = [])

/-- The method `newBufferAndExecute`: the buffer returned (`none` for nil) and the error. -/
def newBufferAndExecute (exec : NodeExec) (validIdent : String → Bool) (fuel : Nat)
    (st : Store) (pools : Pools) (tpl : Nat) (context : Option Context) :
    Option (Store × Pools × Option GoString × Option ExecError) :=
  match execute exec validIdent fuel st tpl context (getBufferedTemplateWriter pools).1 with
  | none => none
  | some (st1, buf, some err) =>
    some (st1, putBufferedTemplateWriter (getBufferedTemplateWriter pools).2 buf, none, some err)
  | some (st1, buf, none) =>
    let r := getBuffer (getBufferedTemplateWriter pools).2
    some (st1, putBufferedTemplateWriter r.2 buf, some (r.1 ++ buf), none)

/-- The method `ExecuteWriter`; `writer` is the text the caller's writer holds before the
call, the result has the text it holds after the call. -/
def ExecuteWriter (exec : NodeExec) (validIdent : String → Bool) (fuel : Nat)
    (st : Store) (pools : Pools) (tpl : Nat) (context : Option Context) (writer : GoString) :
    Option (Store × Pools × GoString × Option ExecError) :=
  match newBufferAndExecute exec validIdent fuel st pools tpl context with
  | none => none
  | some (st1, p1, _, some err) => some (st1, p1, writer, some err)
  | some (st1, p1, none, none) => some (st1, p1, writer, none)
  | some (st1, p1, some buf, none) => some (st1, putBuffer p1 buf, writer ++ buf, none)

/-- The method `ExecuteBytes`: the byte slice returned (`none` for nil) and the error. -/
def ExecuteBytes (exec : NodeExec) (validIdent : String → Bool) (fuel : Nat)
    (st : Store) (pools : Pools) (tpl : Nat) (context : Option Context) :
    Option (Store × Pools × Option GoString × Option ExecError) :=
  match newBufferAndExecute exec validIdent fuel st pools tpl context with
  | none => none
  | some (st1, p1, _, some err) => some (st1, p1, none, some err)
  | some (st1, p1, none, none) => some (st1, p1, none, none)
  | some (st1, p1, some buffer, none) => some (st1, putBuffer p1 buffer, some buffer, none)

/-- The method `Execute`: the string returned and the error. -/
def Execute (exec : NodeExec) (validIdent : String → Bool) (fuel : Nat)
    (st : Store) (pools : Pools) (tpl : Nat) (context : Option Context) :
    Option (Store × Pools × GoString × Option ExecError) :=
  match newBufferAndExecute exec validIdent fuel st pools tpl context with
  | none => none
  | some (st1, p1, _, some err) => some (st1, p1, [], some err)
  | some (st1, p1, none, none) => some (st1, p1, [], none)
  | some (st1, p1, some buffer, none) => some (st1, putBuffer p1 buffer, buffer, none)
/-- The first loop of `ExecuteBlocks` (lines 374-384), started with the variable `parent` at
`cur`: the list `parents`. Its test reads `tpl.blocks`, the blocks of the template the method
was called on. The result is `none` when the loop has not ended within `fuel` iterations. -/
def collectParents (st : Store) (tpl : Nat) (blocks : List String) :
    Nat → Option Nat → Option (List Nat)
  | _, none => some []
  | 0, some _ => none
  | fuel + 1, some parent =>
    match collectParents st tpl blocks fuel (st parent).parent with
    | none => none
    | some rest =>
      some (if blocks.any (fun block => ((st tpl).blocks.lookup block).isSome)
            then parent :: rest else rest)

/-- The variables of the second loop of `ExecuteBlocks`: the store, the pools, the buffered
writer `btw` (`none` for nil, else the text in its buffer), the context `ctx` and the map
`result`. -/
structure BlockState where
  st : Store
  pools : Pools
  btw : Option GoString
  ctx : Option ExecutionContext
  result : List (String × GoString)

/-- The statement `if btw == nil` of the inner loop: a buffered writer is taken from the
pool when none is assigned yet. -/
def ensureWriter (s : BlockState) : BlockState :=
  match s.btw with
  | some _ => s
  | none =>
    { s with btw := some (getBufferedTemplateWriter s.pools).1,
             pools := (getBufferedTemplateWriter s.pools).2 }

/-- The statement `if ctx == nil` of the inner loop: the context is created with
`t.newContextForExecution(context)` when none is assigned yet; the second component is the
error with which the method returns. -/
def ensureContext (validIdent : String → Bool) (fuel : Nat) (context : Option Context)
    (t : Nat) (s : BlockState) : Option (BlockState × Option ExecError) :=
  match s.ctx with
  | some _ => some (s, none)
  | none =>
    match newContextForExecution validIdent fuel s.st t context with
    | none => none
    | some (st1, _, ctx, err) => some ({ s with st := st1, ctx := ctx }, err)

/-- The last four statements of the inner loop: the block body is executed into the
buffered writer; on success the text of the buffer is recorded under the block name and the
buffer is reset. -/
def executeBlock (exec : NodeExec) (blockName : String) (blockWrapper : Nat)
    (s : BlockState) : BlockState × Option ExecError :=
  match s.ctx, s.btw with
  | some ctx, some buf =>
    match (exec s.st blockWrapper ctx).2 with
    | some bErr => ({ s with btw := some (buf ++ (exec s.st blockWrapper ctx).1) }, some bErr)
    | none =>
      ({ s with result := s.result ++ [(blockName, buf ++ (exec s.st blockWrapper ctx).1)],
                btw := some [] }, none)
  | _, _ => (s, none)

/-- The inner loop `for _, blockName := range blocks` of `ExecuteBlocks` for the template
`t`, over the remaining names: the state it leaves and the error it returns with, if any.
The result is `none` when a parent loop has not ended within `fuel` iterations. -/
def blocksInner (exec : NodeExec) (validIdent : String → Bool) (fuel : Nat)
    (context : Option Context) (t : Nat) :
    List String → BlockState → Option (BlockState × Option ExecError)
  | [], s => some (s, none)
  | blockName :: rest, s =>
    if (s.result.lookup blockName).isSome then
      blocksInner exec validIdent fuel context t rest s
    else
      match (s.st t).blocks.lookup blockName with
      | none => blocksInner exec validIdent fuel context t rest s
      | some blockWrapper =>
        match ensureContext validIdent fuel context t (ensureWriter s) with
        | none => none
        | some (s2, some err) => some (s2, some err)
        | some (s2, none) =>
          match executeBlock exec blockName blockWrapper s2 with
          | (s3, some bErr) => some (s3, some bErr)
          | (s3, none) => blocksInner exec validIdent fuel context t rest s3

/-- The outer loop `for _, t := range parents` of `ExecuteBlocks`, over the remaining
templates: the store, the pools and the map `result` it leaves, and the error it returns
with, if any. -/
def blocksOuter (exec : NodeExec) (validIdent : String → Bool) (fuel : Nat)
    (context : Option Context) (blocks : List String) :
    List Nat → Store → Pools → List (String × GoString) →
      Option (Store × Pools × List (String × GoString) × Option ExecError)
  | [], st, pools, result => some (st, pools, result, none)
  | t :: ts, st, pools, result =>
    match blocksInner exec validIdent fuel context t blocks
        { st := st, pools := pools, btw := none, ctx := none, result := result } with
    | none => none
    | some (s, some err) => some (s.st, s.pools, s.result, some err)
    | some (s, none) =>
      let pools1 :=
        match s.btw with
        | some buf => putBufferedTemplateWriter s.pools buf
        | none => s.pools
      if blocks.length = s.result.length then some (s.st, pools1, s.result, none)
      else blocksOuter exec validIdent fuel context blocks ts s.st pools1 s.result

/-- The method `ExecuteBlocks`: the store and the pools after the call, the map returned
(`none` for nil) and the error. -/
def ExecuteBlocks (exec : NodeExec) (validIdent : String → Bool) (fuel : Nat)
    (st : Store) (pools : Pools) (tpl : Nat) (context : Option Context)
    (blocks : List String) :
    Option (Store × Pools × Option (List (String × GoString)) × Option ExecError) :=
  match collectParents st tpl blocks fuel (some tpl) with
  | none => none
  | some parents =>
    match blocksOuter exec validIdent fuel context blocks parents st pools [] with
    | none => none
    | some (st1, p1, _, some err) => some (st1, p1, none, some err)
    | some (st1, p1, result, none) => some (st1, p1, some result, none)

/-- The template reached from `t` by following `n` parent links, if there are that many. -/
def reach (st : Store) : Nat → Nat → Option Nat
  | t, 0 => some t
  | t, n + 1 =>
    match (st t).parent with
    | none => none
    | some q => reach st q n

/-- A store of two templates: the child `0` defines no block and extends the template `1`,
which defines the block `b` with body `7`. -/
def twoLevelStore : Store := fun i =>
  if i = 0 then
    { name := "child", tokens := [], parent := some 1, blocks := [], exportedMacros := [],
      root := 10, Options := ⟨false, false, false⟩, Globals := [] }
  else
    { name := "base", tokens := [], parent := none, blocks := [("b", 7)], exportedMacros := [],
      root := 11, Options := ⟨false, false, false⟩, Globals := [] }

/-- A store of two templates that both define the block `b`: the child `0` with body `5`,
its parent `1` with body `7`. -/
def overrideStore : Store := fun i =>
  if i = 0 then
    { name := "child", tokens := [], parent := some 1, blocks := [("b", 5)],
      exportedMacros := [], root := 10, Options := ⟨false, false, false⟩, Globals := [] }
  else
    { name := "base", tokens := [], parent := none, blocks := [("b", 7)], exportedMacros := [],
      root := 11, Options := ⟨false, false, false⟩, Globals := [] }

/-- A store whose templates all export the macro `m` and belong to a set with the global
`m`. -/
def macroStore : Store := fun _ =>
  { name := "page", tokens := [], parent := none, blocks := [], exportedMacros := [("m", 3)],
    root := 10, Options := ⟨false, false, false⟩, Globals := [("m", .int .int 1)] }

/-- A node execution for evaluating the definitions on concrete inputs: every node writes
its own number and succeeds. -/
def numberExec : NodeExec := fun _ node _ => (natDigits node, none)

/-! ## Iteration and ordering (`value.go`) -/

/-- The result of decoding the first rune of a non-empty byte string, as `for range` and the
conversion `[]rune(s)` do (`utf8.DecodeRuneInString`): the rune and the number of bytes it
takes. An invalid or incomplete encoding gives U+FFFD and one byte. -/
def decodeRune (s0 : Nat) (rest : List Nat) : Nat × Nat :=
  let cont (b : Nat) : Bool := 0x80 ≤ b && b ≤ 0xBF
  if s0 < 0x80 then (s0, 1)
  else if s0 < 0xC2 then (0xFFFD, 1)
  else if s0 < 0xE0 then
    match rest with
    | s1 :: _ => if cont s1 then ((s0 % 32) * 64 + s1 % 64, 2) else (0xFFFD, 1)
    | _ => (0xFFFD, 1)
  else if s0 < 0xF0 then
    match rest with
    | s1 :: s2 :: _ =>
      let lo := if s0 = 0xE0 then 0xA0 else 0x80
      let hi := if s0 = 0xED then 0x9F else 0xBF
      if lo ≤ s1 && s1 ≤ hi && cont s2 then
        ((s0 % 16) * 4096 + (s1 % 64) * 64 + s2 % 64, 3)
      else (0xFFFD, 1)
    | _ => (0xFFFD, 1)
  else if s0 < 0xF5 then
    match rest with
    | s1 :: s2 :: s3 :: _ =>
      let lo := if s0 = 0xF0 then 0x90 else 0x80
      let hi := if s0 = 0xF4 then 0x8F else 0xBF
      if lo ≤ s1 && s1 ≤ hi && cont s2 && cont s3 then
        ((s0 % 8) * 262144 + (s1 % 64) * 4096 + (s2 % 64) * 64 + s3 % 64, 4)
      else (0xFFFD, 1)
    | _ => (0xFFFD, 1)
  else (0xFFFD, 1)

/-- The conversion `[]rune(s)`, for a string of at most `fuel` bytes. -/
def decodeRunesAux : Nat → List Nat → List Nat
  | 0, _ => []
  | _, [] => []
  | fuel + 1, s0 :: rest =>
    (decodeRune s0 rest).1 :: decodeRunesAux fuel (rest.drop ((decodeRune s0 rest).2 - 1))

/-- The conversion `[]rune(s)`. -/
def decodeRunes (s : GoString) : List Nat := decodeRunesAux s.length s

/-- The conversion `string(r)` of a rune: its UTF-8 encoding, and the encoding of U+FFFD for a
surrogate or a value above U+10FFFF. -/
def encodeRune (r : Nat) : GoString :=
  if r < 0x80 then [r]
  else if r < 0x800 then [0xC0 + r / 64, 0x80 + r % 64]
  else if (0xD800 ≤ r ∧ r ≤ 0xDFFF) ∨ 0x10FFFF < r then [0xEF, 0xBF, 0xBD]
  else if r < 0x10000 then [0xE0 + r / 4096, 0x80 + r / 64 % 64, 0x80 + r % 64]
  else [0xF0 + r / 262144, 0x80 + r / 4096 % 64, 0x80 + r / 64 % 64, 0x80 + r % 64]

/-- The comparison `a < b` of two Go strings: bytewise lexicographic. -/
def bytesLt : GoString → GoString → Bool
  | _, [] => false
  | [], _ :: _ => true
  | a :: as, b :: bs => a < b || (a == b && bytesLt as bs)

/-- The comparison `a < b` of two `float64` bit patterns: false when either is a NaN, and
the two zeros are equal. -/
def float64Lt (a b : Nat) : Bool :=
  let isNaN (x : Nat) : Bool := 0x7FF0000000000000 < x % 2^63
  let key (x : Nat) : Int := if 2^63 ≤ x then -((x % 2^63 : Nat) : Int) else (x : Int)
  !isNaN a && !isNaN b && key a < key b

/-- The method `IsInteger`. -/
def Value.IsInteger (v : Value) : Option Bool :=
  match v.getResolvedValue with
  | none => none
  | some (.int _ _) => some true
  | some _ => some false

/-- The method `IsFloat`. -/
def Value.IsFloat (v : Value) : Option Bool :=
  match v.getResolvedValue with
  | none => none
  | some (.float32 _) => some true
  | some (.float64 _) => some true
  | some _ => some false

/-- The `switch` shared by `valuesList.Less` and `sortedKeys.Less`, with the short-circuit
evaluation of `&&`: both integers, both floats, else the comparison of the two `String()`
texts. The result is `none` for a run-time panic. -/
def lessSwitch (L : ExtLib) (vi vj : Value) : Option Bool :=
  let strings : Option Bool :=
    match vi.String L with
    | none => none
    | some si =>
      match vj.String L with
      | none => none
      | some sj => some (bytesLt si sj)
  let floats : Option Bool :=
    match vi.IsFloat with
    | none => none
    | some false => strings
    | some true =>
      match vj.IsFloat with
      | none => none
      | some false => strings
      | some true =>
        match vi.Float L, vj.Float L with
        | some a, some b => some (float64Lt a b)
        | _, _ => none
  match vi.IsInteger with
  | none => none
  | some false => floats
  | some true =>
    match vj.IsInteger with
    | none => none
    | some false => floats
    | some true =>
      match vi.Integer L, vj.Integer L with
      | some a, some b => some (decide (a < b))
      | _, _ => none

/-- The method `valuesList.Less` on the two elements `vl[i]` and `vl[j]`. -/
def valuesListLess (L : ExtLib) (vi vj : Value) : Option Bool := lessSwitch L vi vj

/-- The functions of the Go run time that the iteration uses and the embedding does not
interpret: the rearrangement that `sort.Sort` makes of a slice with a given `Less`, and the
text `Type().String()` of the type of a datum. -/
structure Runtime where
  /-- The slice after `sort.Sort`, for the comparison `less` between two elements. -/
  sort : {α : Type} → (α → α → Bool) → List α → List α
  /-- The text of `reflect.TypeOf(val).String()`. -/
  typeString : GoVal → GoString

/-- The text of a string datum, through defined types; `none` for a datum of another kind. -/
def GoVal.stringContent : GoVal → Option GoString
  | .str s => some s
  | .named _ _ v => v.stringContent
  | _ => none

/-- The elements of a datum of kind array or slice, as `rv.Index(i).Interface()` gives them. -/
def GoVal.elems : GoVal → List GoVal
  | .array es => es
  | .slice es => es
  | .named _ _ v => v.elems
  | _ => []

/-- The entries of a datum of kind map, in the order in which `rv.MapKeys()` lists the keys;
each key comes with the value `rv.MapIndex(key)` stored under it. -/
def GoVal.entries : GoVal → List (GoVal × GoVal)
  | .map es => es
  | .named _ _ v => v.entries
  | _ => []

/-- The method `reflect.Value.String()` of the `reflect.Value` of a map key: the string itself
for a key of kind string, else the text `<T Value>` for the type `T` of the key. -/
def reflectValueString (R : Runtime) (key : GoVal) : GoString :=
  match key.stringContent with
  | some s => s
  | none => bytesOf "<" ++ R.typeString key ++ bytesOf " Value>"

/-- The datum that `sortedKeys.Less` wraps in `&Value{val: sk[i]}`: the `reflect.Value` of a
key, a struct with a `String()` method. -/
def reflectValueDatum (R : Runtime) (key : GoVal) : GoVal :=
  .named "reflect.Value" (some (reflectValueString R key)) (.struct [])

/-- The method `sortedKeys.Less` on the two keys `sk[i]` and `sk[j]`. -/
def sortedKeysLess (L : ExtLib) (R : Runtime) (ki kj : GoVal) : Option Bool :=
  lessSwitch L { val := reflectValueDatum R ki, safe := false }
    { val := reflectValueDatum R kj, safe := false }

/-- The exchange `l[i], l[j] = l[j], l[i]`. -/
def swapAt {α : Type} (l : List α) (i j : Nat) : List α :=
  match l.get? i, l.get? j with
  | some a, some b => (l.set i b).set j a
  | _, _ => l

/-- The loop `for i, j := 0, charCount-1; i < j; i, j = i+1, j-1` that reverses the runes in
place, from the indices `i` and `j`, for at most `fuel` iterations. -/
def reverseRunesLoop : Nat → List Nat → Nat → Nat → List Nat
  | 0, rs, _, _ => rs
  | fuel + 1, rs, i, j =>
    if i < j then reverseRunesLoop fuel (swapAt rs i j) (i + 1) (j - 1) else rs

/-- The loop `for i := 0; i < itemCount/2; i++` that reverses the items in place. -/
def reverseItemsLoop (items : List Value) (itemCount : Nat) : List Value :=
  (List.range (itemCount / 2)).foldl (fun l i => swapAt l i (itemCount - 1 - i)) items

/-- The call `sort.SliceStable(rs, func(i, j) bool { return rs[i] < rs[j] })`: the runes in
ascending order. -/
def sortRunes (rs : List Nat) : List Nat := rs.insertionSort (· ≤ ·)

/-- The calls `fn(idx, count, key, value)` for the remaining items, from index `idx` on, as
the three `for` loops of `IterateOrder` make them: the loop returns after the first call that
gives `false`. The callback threads its own state. -/
def itemLoop {σ : Type} (fn : σ → Nat → Nat → Value → Option Value → Bool × σ) (count : Nat) :
    Nat → List (Value × Option Value) → σ → σ
  | _, [], s => s
  | idx, (key, value) :: rest, s =>
    if (fn s idx count key value).1 then itemLoop fn count (idx + 1) rest (fn s idx count key value).2
    else (fn s idx count key value).2

/-- The slice after `sort.Sort(items)` or `sort.Sort(sort.Reverse(items))` with the method
`Less` given by `less`, which may panic. Every sort of two or more elements compares each
element at least once, and a comparison panics exactly when one of its two elements fails to
resolve; the result is then `none`. -/
def sortWith {α : Type} (R : Runtime) (less : α → α → Option Bool) (reverse : Bool)
    (items : List α) : Option (List α) :=
  if 2 ≤ items.length ∧ items.any (fun a => items.any (fun b => (less a b).isNone)) then none
  else
    some (R.sort (fun a b => if reverse then (less b a).getD false else (less a b).getD false)
      items)

/-- The method `IterateOrder`. The callbacks `fn` and `empty` thread a state of their own;
the result is the state after the call, `none` for a run-time panic. -/
def Value.IterateOrder {σ : Type} (L : ExtLib) (R : Runtime) (v : Value)
    (fn : σ → Nat → Nat → Value → Option Value → Bool × σ) (empty : σ → σ)
    (reverse sorted : Bool) (s : σ) : Option σ :=
  match v.getResolvedValue with
  | none => none
  | some .nil => some (empty s)
  | some (.str str) =>
    let rs := decodeRunes str
    let charCount := rs.length
    if charCount > 0 then
      let rs1 := if sorted then sortRunes rs else rs
      let rs2 := if reverse then reverseRunesLoop charCount rs1 0 (charCount - 1) else rs1
      some (itemLoop fn charCount 0
        (rs2.map (fun r => ({ val := .str (encodeRune r), safe := false }, none))) s)
    else some (empty s)
  | some val =>
    match val.kind with
    | .map =>
      let keys := val.entries
      let sortedKeys : Option (List (GoVal × GoVal)) :=
        if sorted then sortWith R (fun a b => sortedKeysLess L R a.1 b.1) reverse keys
        else some keys
      match sortedKeys with
      | none => none
      | some keys1 =>
        let keyLen := keys1.length
        let items : List (Value × Option Value) :=
          keys1.map (fun kv => ({ val := kv.1, safe := false },
                                some { val := kv.2, safe := false }))
        -- the loop returns from the method when a call gives false; `empty` is called
        -- after the loop when there are no keys
        if keyLen = 0 then some (empty (itemLoop fn keyLen 0 items s))
        else some (itemLoop fn keyLen 0 items s)
    | .array | .slice =>
      let items : List Value := val.elems.map (fun e => { val := e, safe := false })
      let itemCount := items.length
      let items1 : Option (List Value) :=
        if sorted then sortWith R (valuesListLess L) reverse items
        else if reverse then some (reverseItemsLoop items itemCount)
        else some items
      match items1 with
      | none => none
      | some items2 =>
        if items2.length > 0 then
          some (itemLoop fn itemCount 0 (items2.map (fun it => (it, none))) s)
        else some (empty s)
    | _ => some (empty s)
/-- The quotient `n / d` rounded to the nearest integer, a tie to the even one. -/
def roundHalfEven (n d : Nat) : Nat :=
  if 2 * (n % d) < d then n / d
  else if d < 2 * (n % d) then n / d + 1
  else if n / d % 2 = 0 then n / d
  else n / d + 1

/-- The six digits after the decimal point, with leading zeros. -/
def padSix (n : Nat) : GoString :=
  List.replicate (6 - (natDigits n).length) 48 ++ natDigits n

/-- The text of `fmt.Sprintf("%f", f)` for a `float64` bit pattern, from the documentation of
the library: the exact value rounded to six decimals (a tie to even), a minus sign for a set
sign bit, and `+Inf`, `-Inf` and `NaN` for the special values. -/
def sprintfF64 (b : Nat) : GoString :=
  let sign := b / 2^63 % 2
  let e := b / 2^52 % 2048
  let m := b % 2^52
  if e = 2047 then
    (if m = 0 then (if sign = 1 then bytesOf "-Inf" else bytesOf "+Inf") else bytesOf "NaN")
  else
    let mant := if e = 0 then m else m + 2^52
    let ex := if e = 0 then 1 else e
    let q :=
      if 1075 ≤ ex then mant * 10^6 * 2^(ex - 1075)
      else roundHalfEven (mant * 10^6) (2^(1075 - ex))
    (if sign = 1 then [45] else []) ++ natDigits (q / 10^6) ++ [46] ++ padSix (q % 10^6)

/-- The conversion `float64(n)` of a natural number below `2^64`, as a bit pattern: exact up
to 53 significant bits, else rounded to nearest, a tie to even. -/
def float64OfNat (n : Nat) : Nat :=
  if n = 0 then 0
  else if highBit 64 n ≤ 52 then
    (1023 + highBit 64 n) * 2^52 + (n - 2^(highBit 64 n)) * 2^(52 - highBit 64 n)
  else
    (1023 + highBit 64 n) * 2^52 + (roundHalfEven n (2^(highBit 64 n - 52)) - 2^52)

/-- The conversion `float64(n)` of an integer, as a bit pattern. -/
def float64OfInt (n : Int) : Nat :=
  if n < 0 then 2^63 + float64OfNat n.natAbs else float64OfNat n.toNat

/-- An instance of the library interface with the float formatting and the integer
conversion of Go; the remaining functions are those of `ExtLib.trivial`. -/
def ExtLib.numeric : ExtLib :=
  { ExtLib.trivial with sprintfF := sprintfF64, intToFloat := float64OfInt }

/-- One step of the insertion sort of Go's `sort` package: the new element `x` moves left
while `less x y` holds for its left neighbour `y`; the sorted prefix is kept in reverse. -/
def bubbleLeft {α : Type} (less : α → α → Bool) (x : α) : List α → List α
  | [] => [x]
  | y :: rest => if less x y then y :: bubbleLeft less x rest else x :: y :: rest

/-- The function `insertionSort` of Go's `sort` package, which `sort.Sort` runs on a slice of
at most 12 elements. -/
def goInsertionSort {α : Type} (less : α → α → Bool) (l : List α) : List α :=
  (l.foldl (fun rp x => bubbleLeft less x rp) []).reverse

/-- The type names of the scalar types. -/
def scalarTypeString : GoVal → GoString
  | .str _ => bytesOf "string"
  | .int .int _ => bytesOf "int"
  | .int .int8 _ => bytesOf "int8"
  | .int .int16 _ => bytesOf "int16"
  | .int .int32 _ => bytesOf "int32"
  | .int .int64 _ => bytesOf "int64"
  | .int .uint _ => bytesOf "uint"
  | .int .uint8 _ => bytesOf "uint8"
  | .int .uint16 _ => bytesOf "uint16"
  | .int .uint32 _ => bytesOf "uint32"
  | .int .uint64 _ => bytesOf "uint64"
  | .float32 _ => bytesOf "float32"
  | .float64 _ => bytesOf "float64"
  | .bool _ => bytesOf "bool"
  | .time _ => bytesOf "time.Time"
  | .named t _ _ => bytesOf t
  | _ => []

/-- An instance of the run-time interface, for evaluating the definitions on slices and maps
of at most 12 scalar elements: insertion sort and the type names of the scalar types. -/
def Runtime.small : Runtime where
  sort := goInsertionSort
  typeString := scalarTypeString

/-- The number of elements of a string (its runes), a sequence or a mapping. -/
def elementCount : GoVal → Nat
  | .str s => (decodeRunes s).length
  | d => if d.kind = .map then d.entries.length else d.elems.length

/-- The iteration protocol in the words of the spec: `onEmpty` is called once, and `onItem`
never, when there are no items; otherwise `onEmpty` is not called and `onItem` is called with
the indices 0, 1, 2, ... and the count of the items, once per item in order, until a call has
returned `false`. The flag of the fold is true while no call has returned `false`. -/
def iterationProtocol {σ : Type} (fn : σ → Nat → Nat → Value → Option Value → Bool × σ)
    (empty : σ → σ) (items : List (Value × Option Value)) (s : σ) : σ :=
  if items.length = 0 then empty s
  else
    (items.enum.foldl
      (fun (acc : Bool × σ) (x : Nat × Value × Option Value) =>
        if acc.1 then fn acc.2 x.1 items.length x.2.1 x.2.2 else acc)
      (true, s)).2

/-- A callback for evaluating an iteration: it records the text of every key it is called
with and never stops the iteration. -/
def recordKeys (L : ExtLib) (log : List (Option GoString)) (_idx _count : Nat) (key : Value)
    (_value : Option Value) : Bool × List (Option GoString) :=
  (true, log ++ [key.String L])

/-! ## Length, indexing, membership and equality (`value.go`) -/

/-- The method `IsTime`: the type assertion `v.val.(time.Time)` on the datum itself, without
resolving a pointer. -/
def Value.IsTime (v : Value) : Bool :=
  match v.val with
  | .time _ => true
  | _ => false

/-- The zero value `time.Time{}`: January 1 of the year 1, 00:00:00 UTC. -/
def zeroTime : GoTime := { unixNano := -62135596800000000000, loc := "UTC" }

/-- The method `Time`. -/
def Value.Time (v : Value) : GoTime :=
  match v.val with
  | .time t => t
  | _ => zeroTime

/-- The method `Len`. The call to `logf` is not modelled. -/
def Value.Len (v : Value) : Option Nat :=
  match v.getResolvedValue with
  | none => none
  | some .nil => some 0
  | some (.str s) => some (decodeRunes s).length
  | some val =>
    match val.kind with
    | .array | .chan | .map | .slice => some val.reflectLen
    | _ => some 0

/-- The conversion `string(runes)` of a slice of runes. -/
def encodeRunes (rs : List Nat) : GoString := (rs.map encodeRune).flatten

/-- The method `Index`. The result `none` stands for a run-time panic: the index expression
`runes[i]` and the call `rv.Index(i)` panic for a negative `i`. -/
def Value.Index (v : Value) (i : Int) : Option Value :=
  match v.getResolvedValue with
  | none => none
  | some .nil => some (AsValue .nil)
  | some (.str s) =>
    if i < (decodeRunes s).length then
      (if i < 0 then none
       else some (AsValue (.str (encodeRune ((decodeRunes s).getD i.toNat 0)))))
    else some (AsValue (.str []))
  | some val =>
    match val.kind with
    | .array | .slice =>
      if i ≥ val.reflectLen then some (AsValue .nil)
      else if i < 0 then none
      else some (AsValue (val.elems.getD i.toNat .nil))
    | _ => some (AsValue (.slice []))

/-- The elements `i` to `j - 1` of a list. -/
def sliceList {α : Type} (l : List α) (i j : Nat) : List α := (l.drop i).take (j - i)

/-- The datum of `rv.Slice(i, j).Interface()` for a datum of kind slice: the same type with
the elements `i` to `j - 1`. -/
def GoVal.reslice (i j : Nat) : GoVal → GoVal
  | .slice es => .slice (sliceList es i j)
  | .named t s v => .named t s (v.reslice i j)
  | d => d

/-- The method `Slice`. The result `none` stands for a run-time panic, and for bounds outside
`0 <= i <= j <= len`, where the code panics or reads the spare capacity behind the length.
A datum of kind array reaches `rv.Slice(i, j)` as an unaddressable `reflect.Value` (it is
made by `reflect.ValueOf` from an interface value), for which `reflect.Value.Slice` panics
with `slice of unaddressable array`. -/
def Value.Slice (v : Value) (i j : Int) : Option Value :=
  match v.getResolvedValue with
  | none => none
  | some .nil => some (AsValue (.slice []))
  | some (.str s) =>
    if 0 ≤ i ∧ i ≤ j ∧ j ≤ (decodeRunes s).length then
      some (AsValue (.str (encodeRunes (sliceList (decodeRunes s) i.toNat j.toNat))))
    else none
  | some val =>
    match val.kind with
    | .array => none
    | .slice =>
      if 0 ≤ i ∧ i ≤ j ∧ j ≤ val.reflectLen then some (AsValue (val.reslice i.toNat j.toNat))
      else none
    | _ => some (AsValue (.slice []))

/-- The comparisons of the Go run time on interface values and on types, which the embedding
does not interpret. -/
structure Reflection where
  /-- The result of the comparison `v.val == other.val` of two non-nil interface values at
  the end of `EqualValueTo`, under its deferred `recover()`: `false` when the comparison
  panics, as it does for two datums of the same uncomparable type. The same comparison
  decides whether a map holds a key. -/
  ifaceEq : GoVal → GoVal → Bool
  /-- The comparison `rv.Type().Key() == otherRV.Type()` of the key type of a map datum with
  the type of another datum. -/
  keyTypeIs : GoVal → GoVal → Bool

/-- The method `EqualValueTo`. The result `none` stands for a run-time panic; the deferred
`recover()` is registered only before the last comparison. -/
def Value.EqualValueTo (L : ExtLib) (X : Reflection) (v other : Value) : Option Bool :=
  let rest : Bool :=
    if v.IsTime && other.IsTime then decide (v.Time.unixNano = other.Time.unixNano)
    else if v.IsNil || other.IsNil then v.IsNil && other.IsNil
    else X.ifaceEq v.val other.val
  match v.IsInteger with
  | none => none
  | some false => some rest
  | some true =>
    match other.IsInteger with
    | none => none
    | some false => some rest
    | some true =>
      match v.Integer L, other.Integer L with
      | some a, some b => some (decide (a = b))
      | _, _ => none

/-- The function `strings.Contains`: `sub` occurs in `s` as a run of consecutive bytes. -/
def bytesContains (s sub : GoString) : Bool := s.tails.any (fun t => sub.isPrefixOf t)

/-- The names that `rv.FieldByName` finds in a datum of kind struct. -/
def GoVal.fieldNames : GoVal → List String
  | .struct fs => fs.map Prod.fst
  | .time _ => ["wall", "ext", "loc"]
  | .named _ _ v => v.fieldNames
  | _ => []

/-- The loop of `Contains` over the elements of a sequence. -/
def containsLoop (L : ExtLib) (X : Reflection) (other : Value) : List GoVal → Option Bool
  | [] => some false
  | item :: rest =>
    match other.EqualValueTo L X (AsValue item) with
    | none => none
    | some true => some true
    | some false => containsLoop L X other rest

/-- The method `Contains`. The result `none` stands for a run-time panic. -/
def Value.Contains (L : ExtLib) (X : Reflection) (v other : Value) : Option Bool :=
  match v.getResolvedValue with
  | none => none
  | some .nil => some false
  | some (.str s) =>
    match other.String L with
    | none => none
    | some t => some (bytesContains s t)
  | some baseValue =>
    match baseValue.kind with
    | .struct =>
      match other.String L with
      | none => none
      | some t => some (baseValue.fieldNames.any (fun n => bytesOf n == t))
    | .map =>
      match other.getResolvedValue with
      | none => none
      | some .nil => some false
      | some otherVal =>
        if X.keyTypeIs baseValue otherVal then
          some (baseValue.entries.any (fun kv => X.ifaceEq kv.1 otherVal))
        else some false
    | .slice | .array => containsLoop L X other baseValue.elems
    | _ => some false
/-- The comparison `a == b` of two interface values that hold strings, integers or booleans:
the same dynamic type and the same value. -/
def scalarEq : GoVal → GoVal → Bool
  | .str a, .str b => a == b
  | .int k a, .int l b => decide (k = l) && decide (a = b)
  | .bool a, .bool b => a == b
  | _, _ => false

/-- An instance of the comparisons of the run time, for evaluating the definitions on strings,
integers and booleans and on maps with at least one key: the key type of such a map is the
type of its first key. -/
def Reflection.scalars : Reflection where
  ifaceEq := scalarEq
  keyTypeIs := fun m o =>
    match m.entries with
    | [] => false
    | kv :: _ => scalarTypeString kv.1 == scalarTypeString o

/-- The number written by a non-empty run of ASCII digits; `none` for any other text. -/
def parseDigits (ds : GoString) : Option Nat :=
  if ds ≠ [] ∧ ds.all (fun d => 48 ≤ d && d ≤ 57) then
    some (ds.foldl (fun acc d => acc * 10 + (d - 48)) 0)
  else none

/-- The result of `strconv.ParseFloat(s, 64)` for a decimal integer literal below `2^64` with
an optional sign: the nearest `float64`, a tie to even. Texts of any other form are outside
the scope of this function; it gives `none` for them, as for an error. -/
def parseIntegerLiteral (s : GoString) : Option Nat :=
  let magnitude (ds : GoString) : Option Nat :=
    match parseDigits ds with
    | some n => if n < 2^64 then some (float64OfNat n) else none
    | none => none
  match s with
  | 45 :: ds => (magnitude ds).map (fun f => 2^63 + f)
  | 43 :: ds => magnitude ds
  | ds => magnitude ds

/-- The conversion `int(f)` of a `float64` bit pattern: the value truncated towards zero.
For a NaN and for a magnitude of `2^63` or more the result is the smallest `int`, which the
conversion instruction of amd64 gives. -/
def intOfFloat64 (b : Nat) : Int :=
  let sign := b / 2^63 % 2
  let e := b / 2^52 % 2048
  let m := b % 2^52
  let mag : Nat :=
    if e < 1023 then 0
    else if e ≤ 1075 then (m + 2^52) / 2^(1075 - e)
    else (m + 2^52) * 2^(e - 1075)
  if 1086 ≤ e then -2^63
  else if sign = 1 then -(mag : Int) else (mag : Int)

/-- An instance of the library interface that also parses decimal integer literals and
converts floats to integers; the remaining functions are those of `ExtLib.numeric`. -/
def ExtLib.parsing : ExtLib :=
  { ExtLib.numeric with parseFloat := parseIntegerLiteral, floatToInt := intOfFloat64 }

/-- The method `IsString`. -/
def Value.IsString (v : Value) : Option Bool :=
  match v.getResolvedValue with
  | none => none
  | some (.str _) => some true
  | some _ => some false

/-- The method `IsBool`. -/
def Value.IsBool (v : Value) : Option Bool :=
  match v.getResolvedValue with
  | none => none
  | some (.bool _) => some true
  | some _ => some false

/-- The method `IsNumber`: `v.IsInteger() || v.IsFloat()`. -/
def Value.IsNumber (v : Value) : Option Bool :=
  match v.IsInteger with
  | none => none
  | some true => some true
  | some false => v.IsFloat

/-- A rune that the conversion `[]rune(s)` can give: a Unicode code point outside the
surrogate range. -/
def validRune (r : Nat) : Bool := r < 0xD800 || (0xE000 ≤ r && r < 0x110000)

/-- The method `Bool`. The call to `logf` is not modelled. The definition comes last
among the methods, since inside the namespace `Value` its name hides the type `Bool`. -/
def Value.Bool (v : Value) : Option Bool :=
  match v.getResolvedValue with
  | none => none
  | some (.bool b) => some b
  | some _ => some false

/-- The elements of a string or a sequence in their order, as the items of an iteration: the
runes of a string, each as a one-rune string, and the elements of an array or slice; each is
passed as the key, without a value. -/
def elementsInOrder : GoVal → List (Value × Option Value)
  | .str s => (decodeRunes s).map (fun r => ({ val := .str (encodeRune r), safe := false }, none))
  | d => d.elems.map (fun e => ({ val := e, safe := false }, none))

/-! ## The tag `spaceless` (`tags_spaceless.go`) -/

/-- The character class `[\t\n\v\f\r ]` of `tagSpacelessRegexp`. -/
def isTagSpace (c : Nat) : Bool := c = 9 || c = 10 || c = 11 || c = 12 || c = 13 || c = 32

/-- A match of the last group `(?U:(<.*>))` of `tagSpacelessRegexp` behind its `<`: the bytes
up to the first `>`, with the bytes behind it. The dot of the pattern matches every character
but the newline, so there is no match when a newline or the end of the text comes before
a `>`. -/
def tagClose : List Nat → Option (List Nat × List Nat)
  | [] => none
  | c :: rest =>
    if c = 62 then some ([c], rest)
    else if c = 10 then none
    else
      match tagClose rest with
      | some (t, rest1) => some (c :: t, rest1)
      | none => none

/-- A match of `([\t\n\v\f\r ]+)(?U:(<.*>))` at the head of a text: the whitespace run, the
tag and the bytes behind it. The greedy `+` takes the whole run of whitespace; a shorter run
is followed by whitespace and not by `<`, so it gives no other match. -/
def gapAndTag (s : List Nat) : Option (List Nat × List Nat × List Nat) :=
  if s.takeWhile isTagSpace = [] then none
  else
    match s.dropWhile isTagSpace with
    | 60 :: r =>
      match tagClose r with
      | some (t, rest) => some (s.takeWhile isTagSpace, 60 :: t, rest)
      | none => none
    | _ => none

/-- A match of `tagSpacelessRegexp` that starts at a `<`, from the bytes behind that `<`: the
rest of the first group, the whitespace run, the last group and the bytes behind the match.
The ungreedy `.*` of the first group stops at the first `>` behind which the rest of the
pattern matches, and does not pass a newline. -/
def matchAfterOpen : List Nat → Option (List Nat × List Nat × List Nat × List Nat)
  | [] => none
  | c :: tl =>
    if c = 10 then none
    else if c = 62 then
      match gapAndTag tl with
      | some (ws, t2, rest) => some ([c], ws, t2, rest)
      | none =>
        match matchAfterOpen tl with
        | some (t1, m) => some (c :: t1, m)
        | none => none
    else
      match matchAfterOpen tl with
      | some (t1, m) => some (c :: t1, m)
      | none => none

/-- The call `tagSpacelessRegexp.ReplaceAllString(s, "$1$3")` on a text of at most `fuel`
bytes, from the documentation of the library: the matches are found from left to right, each
the leftmost one that starts at or behind the end of the match before it, and each is replaced
by its first and its third group. -/
def replacePass : Nat → List Nat → List Nat
  | 0, s => s
  | _ + 1, [] => []
  | fuel + 1, c :: tl =>
    if c = 60 then
      match matchAfterOpen tl with
      | some (t1, _, t2, rest) => c :: (t1 ++ (t2 ++ replacePass fuel rest))
      | none => c :: replacePass fuel tl
    else c :: replacePass fuel tl

/-- The call `tagSpacelessRegexp.ReplaceAllString(s, "$1$3")`. -/
def replaceTagGaps (s : GoString) : GoString := replacePass s.length s

/-- The loop `for changed` of `tagSpacelessNode.Execute`, for at most `fuel` passes: the text
when a pass has left it unchanged, `none` when the fuel does not suffice. -/
def spacelessLoop : Nat → GoString → Option GoString
  | 0, _ => none
  | fuel + 1, s =>
    if s = replaceTagGaps s then some (replaceTagGaps s)
    else spacelessLoop fuel (replaceTagGaps s)

/-- The method `tagSpacelessNode.Execute`. The body `node.wrapper.Execute(ctx, btw.tw)` has
written `body.1` to the buffer taken from the pool and has returned `body.2`; `writer` is the
text written to the outer writer so far. The result is that text after the call, with the
error returned. -/
def tagSpacelessExecute (fuel : Nat) (body : GoString × Option ExecError) (writer : GoString) :
    Option (GoString × Option ExecError) :=
  match body.2 with
  | some err => some (writer, some err)
  | none =>
    match spacelessLoop fuel body.1 with
    | some s => some (writer ++ s, none)
    | none => none

/-- The state of a scan for tags: whether a `<` came before on the same line. -/
def tagOpenAfter (o : Bool) (c : Nat) : Bool :=
  if c = 60 then true else if c = 10 then false else o

/-- The relation between a text and the same text with some runs of whitespace deleted, each
deleted run standing directly behind a `>` that has a `<` before it on its line and directly
before a `<` that has a `>` behind it on its line: the run stands between two matches of the
group `<.*>`, which are tags or stretches of a line from a `<` to a later `>`, text between
them included. All other bytes are kept. The flag tells whether a `<` came before on the
line. -/
inductive GapsDeleted : Bool → List Nat → List Nat → Prop
  | done (o : Bool) : GapsDeleted o [] []
  | keep (o : Bool) (c : Nat) (s r : List Nat) :
      GapsDeleted (tagOpenAfter o c) s r → GapsDeleted o (c :: s) (c :: r)
  | delete (ws s r : List Nat) :
      ws ≠ [] → (∀ x ∈ ws, isTagSpace x = true) → (tagClose s).isSome = true →
      GapsDeleted true (60 :: s) r → GapsDeleted true (62 :: (ws ++ 60 :: s)) (62 :: r)

/-! ## The tag `filter` (`tags_filter.go`) -/

/-- The method `Evaluate` of an `IEvaluator`, an expression node declared outside the sources
at hand: its value in an execution context, or an error. -/
abbrev IEvaluator := ExecutionContext → Except ExecError Value

/-- The type `nodeFilterCall`; `paramExpr` is `none` for a nil expression. -/
structure nodeFilterCall where
  name : GoString
  paramExpr : Option IEvaluator

/-- The functions of the repository that the filter tag calls and that are declared outside
the sources at hand. -/
structure FilterEnv where
  /-- The function `ApplyFilter(name, value, param)`. -/
  ApplyFilter : GoString → Value → Value → Except ExecError Value
  /-- The error `ctx.Error(err.Error(), node.position)` made from the error `err` of a
  filter. -/
  ctxError : ExecError → ExecError
  /-- The method `arguments.parseVariableOrLiteral()` on the remaining argument tokens: the
  expression and the number of tokens it takes, or an error. -/
  parseVariableOrLiteral : List Token → Except ExecError (IEvaluator × Nat)

/-- The loop `for _, call := range node.filterChain` of `tagFilterNode.Execute`, from the
value `value`: the value after the last filter, or the error that ends the method. -/
def filterLoop (E : FilterEnv) (ctx : ExecutionContext) :
    List nodeFilterCall → Value → Except ExecError Value
  | [], value => .ok value
  | call :: rest, value =>
    let param : Except ExecError Value :=
      match call.paramExpr with
      | some expr => expr ctx
      | none => .ok (AsValue .nil)
    match param with
    | .error err => .error err
    | .ok p =>
      match E.ApplyFilter call.name value p with
      | .error err => .error (E.ctxError err)
      | .ok value1 => filterLoop E ctx rest value1

/-- The method `tagFilterNode.Execute`. The body `node.bodyWrapper.Execute(ctx, btw.tw)` has
written `body.1` to the buffer taken from the pool and has returned `body.2`; `writer` lists
the values that the outer writer has received through `WriteAny` so far. The result is that
list after the call, with the error returned. -/
def tagFilterExecute (E : FilterEnv) (ctx : ExecutionContext) (chain : List nodeFilterCall)
    (body : GoString × Option ExecError) (writer : List Value) :
    List Value × Option ExecError :=
  match body.2 with
  | some err => (writer, some err)
  | none =>
    match filterLoop E ctx chain (AsValue (.str body.1)) with
    | .error err => (writer, some err)
    | .ok value => (writer ++ [value], none)

/-- The value `fn(...f2(f1(bodyText, p1), p2)..., pn)` in the words of the claim: the filters
are applied from the first to the last, the parameter of each is evaluated just before the
filter is applied (nil when there is no expression), and the first failure, of an evaluation
or of a filter, ends the chain. -/
def chainValue (E : FilterEnv) (ctx : ExecutionContext) (chain : List nodeFilterCall)
    (bodyText : GoString) : Except ExecError Value :=
  chain.foldl
    (fun acc call =>
      acc.bind (fun value =>
        (match call.paramExpr with
          | some expr => expr ctx
          | none => .ok (AsValue .nil)).bind
          (fun p => (E.ApplyFilter call.name value p).mapError E.ctxError)))
    (.ok (AsValue (.str bodyText)))

/-- Modelled from the spec: the method `Parser.MatchType`, declared outside the sources at
hand: the next token when it has the type `typ`, which is then consumed; by the spec the
parser consumes a token stream, and the filter grammar reads an identifier at this place. -/
def MatchType (typ : TokenType) : List Token → Option Token × List Token
  | t :: rest => if t.Typ = typ then (some t, rest) else (none, t :: rest)
  | [] => (none, [])

/-- Modelled from the spec: the method `Parser.MatchOne`, declared outside the sources at
hand: the next token when it has the type `typ` and the text `val`, which is then consumed;
the filter grammar reads the symbols `:` and `|` with it. -/
def MatchOne (typ : TokenType) (val : GoString) : List Token → Option Token × List Token
  | t :: rest => if t.Typ = typ ∧ t.Val = val then (some t, rest) else (none, t :: rest)
  | [] => (none, [])

/-- The loop `for arguments.Remaining() > 0` of `tagFilterParser`, for at most `fuel`
iterations, from the remaining argument tokens and the chain built so far: the chain and the
tokens left when the loop ends, or the error returned from inside the loop; `none` when the
fuel does not suffice. -/
def filterChainLoop (E : FilterEnv) :
    Nat → List Token → List nodeFilterCall →
      Option (Except ExecError (List nodeFilterCall × List Token))
  | 0, _, _ => none
  | fuel + 1, arguments, chain =>
    if arguments.length > 0 then
      match MatchType .TokenIdentifier arguments with
      | (none, _) => some (.error (.node "Expected a filter name (identifier)."))
      | (some nameToken, args1) =>
        let afterName : Except ExecError (nodeFilterCall × List Token) :=
          match MatchOne .TokenSymbol (bytesOf ":") args1 with
          | (some _, args2) =>
            match E.parseVariableOrLiteral args2 with
            | .error err => .error err
            | .ok (expr, n) => .ok ({ name := nameToken.Val, paramExpr := some expr }, args2.drop n)
          | (none, args2) => .ok ({ name := nameToken.Val, paramExpr := none }, args2)
        match afterName with
        | .error err => some (.error err)
        | .ok (filterCall, args3) =>
          match MatchOne .TokenSymbol (bytesOf "|") args3 with
          | (none, args4) => some (.ok (chain ++ [filterCall], args4))
          | (some _, args4) => filterChainLoop E fuel args4 (chain ++ [filterCall])
    else some (.ok (chain, arguments))

/-- The function `tagFilterParser`. `wrapper` is the result of `doc.WrapUntilTag("endfilter")`,
a body (a pointer, modelled as a number) or an error. The result is the body and the filter
chain of the node, or the error. -/
def tagFilterParser (E : FilterEnv) (fuel : Nat) (wrapper : Except ExecError Nat)
    (arguments : List Token) : Option (Except ExecError (Nat × List nodeFilterCall)) :=
  match wrapper with
  | .error err => some (.error err)
  | .ok bodyWrapper =>
    match filterChainLoop E fuel arguments [] with
    | none => none
    | some (.error err) => some (.error err)
    | some (.ok (chain, rest)) =>
      if rest.length > 0 then some (.error (.node "Malformed filter-tag arguments."))
      else some (.ok (bodyWrapper, chain))

/-- One item `identifier[':' argument]` at the head of the argument tokens, with the chain
entry it produces and the tokens behind it; the argument is what `parseVariableOrLiteral`
accepts. -/
inductive FilterItem (E : FilterEnv) : List Token → nodeFilterCall → List Token → Prop
  | plain (name : Token) (rest : List Token) :
      name.Typ = .TokenIdentifier →
      (∀ t rest1, rest = t :: rest1 → ¬ (t.Typ = .TokenSymbol ∧ t.Val = bytesOf ":")) →
      FilterItem E (name :: rest) { name := name.Val, paramExpr := none } rest
  | withArgument (name colon : Token) (rest : List Token) (expr : IEvaluator) (n : Nat) :
      name.Typ = .TokenIdentifier → colon.Typ = .TokenSymbol → colon.Val = bytesOf ":" →
      E.parseVariableOrLiteral rest = .ok (expr, n) →
      FilterItem E (name :: colon :: rest) { name := name.Val, paramExpr := some expr }
        (rest.drop n)

/-- The argument streams in the words of the claim: one or more items separated by single
`|` symbols, with no tokens left over, and one chain entry per item in order. -/
inductive StrictChain (E : FilterEnv) : List Token → List nodeFilterCall → Prop
  | last (args : List Token) (call : nodeFilterCall) :
      FilterItem E args call [] → StrictChain E args [call]
  | more (args rest : List Token) (pipe : Token) (call : nodeFilterCall)
      (chain : List nodeFilterCall) :
      FilterItem E args call (pipe :: rest) → pipe.Typ = .TokenSymbol →
      pipe.Val = bytesOf "|" → StrictChain E rest chain → StrictChain E args (call :: chain)

/-- The argument streams that the parser accepts: no tokens at all, or items that are each
followed by a `|` symbol, where the `|` behind the last item may be missing. -/
inductive LooseChain (E : FilterEnv) : List Token → List nodeFilterCall → Prop
  | empty : LooseChain E [] []
  | last (args : List Token) (call : nodeFilterCall) :
      FilterItem E args call [] → LooseChain E args [call]
  | more (args rest : List Token) (pipe : Token) (call : nodeFilterCall)
      (chain : List nodeFilterCall) :
      FilterItem E args call (pipe :: rest) → pipe.Typ = .TokenSymbol →
      pipe.Val = bytesOf "|" → LooseChain E rest chain → LooseChain E args (call :: chain)

/-- An instance of the functions around the filter tag, for evaluating the definitions on
concrete inputs: the filter `upper` turns the ASCII letters of a string into capitals, every
other filter name is an error, and no token run is an expression. -/
def FilterEnv.small : FilterEnv where
  ApplyFilter := fun name value _ =>
    if name = bytesOf "upper" then
      match value.val with
      | .str s => .ok (AsValue (.str (s.map (fun c => if 97 ≤ c ∧ c ≤ 122 then c - 32 else c))))
      | _ => .ok value
    else .error (.node "filter not found")
  ctxError := fun err => err
  parseVariableOrLiteral := fun _ => .error (.node "not an expression")

/-! ## `stripWhitespace` on Go strings (`helpers.go`) -/

/-- The runes that the loop `for _, r := range s` yields for a Go string: the decoded code
points, and U+FFFD for every byte that is not part of a valid UTF-8 encoding. -/
def runesOf (s : GoString) : List Char := (decodeRunes s).map Char.ofNat

/-- The bytes that the calls `buf.WriteRune(r)` write for a list of runes: the UTF-8 encoding
of each. -/
def bytesOfRunes (rs : List Char) : GoString := encodeRunes (rs.map Char.toNat)

/-- A Go string is valid UTF-8 (`utf8.ValidString`): decoding it and encoding the runes again
gives the same bytes. -/
def validUTF8 (s : GoString) : Bool := bytesOfRunes (runesOf s) == s

/-- The function `stripWhitespace(s, inQuote, lastChar)` on a Go string: the loop of
`stripWhitespace` runs over the runes that `range s` yields, and the text returned is the
buffer filled by `WriteRune`. -/
def stripWhitespaceBytes (s : GoString) (inQuote lastChar : Char) : GoString × Char × Char :=
  (bytesOfRunes (stripWhitespace (runesOf s) inQuote lastChar).1,
    (stripWhitespace (runesOf s) inQuote lastChar).2.1,
    (stripWhitespace (runesOf s) inQuote lastChar).2.2)

/-! ## The items of an iteration -/

/-- The items of a string, a sequence or a mapping in the words of the documentation of
`Iterate`, one per element in the order of the datum: a rune of a string, as a one-rune
string, and an element of an array or slice are the key of an item without a value; an entry
of a mapping is an item with its key and its value. -/
def elementItems (d : GoVal) : List (Value × Option Value) :=
  if d.kind = .map then
    d.entries.map (fun kv => ({ val := kv.1, safe := false }, some { val := kv.2, safe := false }))
  else elementsInOrder d

/-- The items of a sorted iteration in the words of the documentation of `IterateOrder`: the
runes of a string in ascending order, the elements of a sequence as `sort.Sort` leaves them
with `valuesList.Less`, the entries of a mapping as `sort.Sort` leaves them with
`sortedKeys.Less` on their keys; with `reverse` the runes come in descending order and the
sort runs with the reversed comparison. A comparison that panics counts as false. -/
def sortedItems (L : ExtLib) (R : Runtime) (reverse : Bool) :
    GoVal → List (Value × Option Value)
  | .str s =>
    (if reverse then (sortRunes (decodeRunes s)).reverse else sortRunes (decodeRunes s)).map
      (fun r => ({ val := .str (encodeRune r), safe := false }, none))
  | d =>
    if d.kind = .map then
      (R.sort
        (fun a b =>
          if reverse then (sortedKeysLess L R b.1 a.1).getD false
          else (sortedKeysLess L R a.1 b.1).getD false)
        d.entries).map
        (fun kv => ({ val := kv.1, safe := false }, some { val := kv.2, safe := false }))
    else
      (R.sort
        (fun a b =>
          if reverse then (valuesListLess L b a).getD false
          else (valuesListLess L a b).getD false)
        (d.elems.map (fun e => ({ val := e, safe := false } : Value)))).map
        (fun it => (it, none))

/-! # Theorems -/

theorem stripStep_buf (b : List Char) (q c : Char) (p : Bool) (r : Char) :
    stripStep ⟨b, q, c, p⟩ r =
      { stripStep ⟨[], q, c, p⟩ r with buf := b ++ (stripStep ⟨[], q, c, p⟩ r).buf } := by
  unfold stripStep
  by_cases hq : q ≠ NUL
  · simp [hq]
  · by_cases hr : r = dquote ∨ r = squote
    · simp only [hq, hr, if_true, if_false]
      cases p <;> by_cases hc : c ≠ '=' <;> simp [hc]
    · by_cases hs : isSpace r = true
      · simp [hq, hr, hs]
      · simp only [hq, hr, hs, if_true, if_false]
        cases p <;> cases shouldWrite c r <;> simp

theorem stripLoop_buf (s : List Char) : ∀ (b : List Char) (q c : Char) (p : Bool),
    stripLoop ⟨b, q, c, p⟩ s =
      { stripLoop ⟨[], q, c, p⟩ s with buf := b ++ (stripLoop ⟨[], q, c, p⟩ s).buf } := by
  induction s with
  | nil => intro b q c p; simp [stripLoop]
  | cons r rs ih =>
    intro b q c p
    have h1 : stripLoop ⟨b, q, c, p⟩ (r :: rs) = stripLoop (stripStep ⟨b, q, c, p⟩ r) rs := rfl
    have h2 : stripLoop ⟨[], q, c, p⟩ (r :: rs) = stripLoop (stripStep ⟨[], q, c, p⟩ r) rs := rfl
    rw [h1, h2, stripStep_buf b q c p r]
    generalize stripStep ⟨[], q, c, p⟩ r = st
    obtain ⟨b2, q2, c2, p2⟩ := st
    rw [ih (b ++ b2) q2 c2 p2, ih b2 q2 c2 p2]
    simp [List.append_assoc]

theorem stripFinish_buf (b : List Char) (st : StripState) :
    stripFinish { st with buf := b ++ st.buf } = b ++ stripFinish st := by
  unfold stripFinish
  cases st.pendingSpace <;> simp
  split <;> simp

theorem stripStep_inQuote (b : List Char) (q c : Char) (p : Bool) (r : Char) (hq : q ≠ NUL) :
    stripStep ⟨b, q, c, p⟩ r = ⟨b ++ [r], if r = q then NUL else q, r, p⟩ := by
  unfold stripStep
  rw [if_pos hq]

theorem stripStep_quote (b : List Char) (c : Char) (p : Bool) (r : Char)
    (hr : r = dquote ∨ r = squote) :
    stripStep ⟨b, NUL, c, p⟩ r
      = ⟨(if p then (if c ≠ '=' then b ++ [' '] else b) else b) ++ [r], r, r, false⟩ := by
  unfold stripStep
  rw [if_neg (by simp), if_pos hr]

theorem stripStep_space (b : List Char) (c : Char) (p : Bool) (r : Char)
    (hr : ¬ (r = dquote ∨ r = squote)) (hs : isSpace r = true) :
    stripStep ⟨b, NUL, c, p⟩ r = ⟨b, NUL, c, true⟩ := by
  unfold stripStep
  rw [if_neg (by simp), if_neg hr, if_pos hs]

theorem stripStep_other (b : List Char) (c : Char) (p : Bool) (r : Char)
    (hr : ¬ (r = dquote ∨ r = squote)) (hs : ¬ isSpace r = true) :
    stripStep ⟨b, NUL, c, p⟩ r
      = ⟨(if p then (if shouldWrite c r then b ++ [' '] else b) else b) ++ [r], NUL, r, false⟩ := by
  unfold stripStep
  rw [if_neg (by simp), if_neg hr, if_neg hs]

theorem emit_inQuote (rs : List Char) (q c : Char) (p : Bool) (r : Char) (hq : q ≠ NUL) :
    emit (r :: rs) q c p = r :: emit rs (if r = q then NUL else q) r p := by
  rw [emit, if_pos hq]

theorem emit_quote (rs : List Char) (c : Char) (p : Bool) (r : Char)
    (hr : r = dquote ∨ r = squote) :
    emit (r :: rs) NUL c p
      = (if p then (if c ≠ '=' then [' '] else []) else []) ++ r :: emit rs r r false := by
  rw [emit, if_neg (by simp), if_pos hr]

theorem emit_space (rs : List Char) (c : Char) (p : Bool) (r : Char)
    (hr : ¬ (r = dquote ∨ r = squote)) (hs : isSpace r = true) :
    emit (r :: rs) NUL c p = emit rs NUL c true := by
  rw [emit, if_neg (by simp), if_neg hr, if_pos hs]

theorem emit_other (rs : List Char) (c : Char) (p : Bool) (r : Char)
    (hr : ¬ (r = dquote ∨ r = squote)) (hs : ¬ isSpace r = true) :
    emit (r :: rs) NUL c p
      = (if p then (if shouldWrite c r then [' '] else []) else []) ++ r :: emit rs NUL r false := by
  rw [emit, if_neg (by simp), if_neg hr, if_neg hs]

theorem stripFinish_loop_eq_emit (s : List Char) : ∀ (q c : Char) (p : Bool),
    stripFinish (stripLoop ⟨[], q, c, p⟩ s) = emit s q c p := by
  induction s with
  | nil =>
    intro q c p
    cases p <;> simp [stripLoop, stripFinish, emit]
  | cons r rs ih =>
    intro q c p
    have h : stripLoop ⟨[], q, c, p⟩ (r :: rs) = stripLoop (stripStep ⟨[], q, c, p⟩ r) rs := rfl
    rw [h]
    by_cases hq : q ≠ NUL
    · rw [stripStep_inQuote _ _ _ _ _ hq, emit_inQuote _ _ _ _ _ hq,
        stripLoop_buf, stripFinish_buf, ih]
      simp
    · have hq0 : q = NUL := by simpa using hq
      subst hq0
      by_cases hr : r = dquote ∨ r = squote
      · rw [stripStep_quote _ _ _ _ hr, emit_quote _ _ _ _ hr, stripLoop_buf, stripFinish_buf, ih]
        cases p <;> by_cases hc : c ≠ '=' <;> simp [hc]
      · by_cases hs : isSpace r = true
        · rw [stripStep_space _ _ _ _ hr hs, emit_space _ _ _ _ hr hs]
          exact ih NUL c true
        · rw [stripStep_other _ _ _ _ hr hs, emit_other _ _ _ _ hr hs,
            stripLoop_buf, stripFinish_buf, ih]
          cases p <;> cases shouldWrite c r <;> simp

theorem stripWhitespace_fst (s : List Char) (q c : Char) :
    (stripWhitespace s q c).1 = emit s q c false := by
  simp [stripWhitespace, stripFinish_loop_eq_emit]

theorem isSpace_space : isSpace ' ' = true := by decide

theorem space_not_quote : ¬ ((' ' : Char) = dquote ∨ (' ' : Char) = squote) := by decide

theorem emit_space_cons (s : List Char) (c : Char) (p : Bool) :
    emit (' ' :: s) NUL c p = emit s NUL c true :=
  emit_space s c p ' ' space_not_quote isSpace_space

/-- Re-running the loop on what it emitted gives the same text: with a pending space only
outside quotes, that is `p = true → q = NUL`. -/
theorem emit_emit (s : List Char) : ∀ (q c : Char) (p : Bool), (p = true → q = NUL) →
    emit (emit s q c p) q c false = emit s q c p := by
  induction s with
  | nil =>
    intro q c p hp
    cases p
    · simp [emit]
    · have hq : q = NUL := hp rfl
      subst hq
      by_cases hc : c = '>' ∨ c = '=' ∨ c = NUL
      · simp [emit, hc]
      · have : emit [] NUL c true = [' '] := by simp [emit, hc]
        rw [this, emit_space_cons, this]
  | cons r rs ih =>
    intro q c p hp
    by_cases hq : q ≠ NUL
    · have hpf : p = false := by
        cases p
        · rfl
        · exact absurd (hp rfl) hq
      subst hpf
      rw [emit_inQuote _ _ _ _ _ hq, emit_inQuote _ _ _ _ _ hq, ih _ _ _ (by simp)]
    · have hq0 : q = NUL := by simpa using hq
      subst hq0
      by_cases hr : r = dquote ∨ r = squote
      · rw [emit_quote _ _ _ _ hr]
        cases p
        · simp only [Bool.false_eq_true, if_false, List.nil_append]
          rw [emit_quote _ _ _ _ hr, ih _ _ _ (by simp)]
          simp
        · by_cases hc : c ≠ '='
          · simp only [if_true, if_pos hc, List.singleton_append]
            rw [emit_space_cons, emit_quote _ _ _ _ hr, ih _ _ _ (by simp)]
            simp [hc]
          · simp only [if_true, if_neg hc, List.nil_append]
            rw [emit_quote _ _ _ _ hr, ih _ _ _ (by simp)]
            simp
      · by_cases hs : isSpace r = true
        · rw [emit_space _ _ _ _ hr hs]
          exact ih NUL c true (by simp)
        · rw [emit_other _ _ _ _ hr hs]
          cases p
          · simp only [Bool.false_eq_true, if_false, List.nil_append]
            rw [emit_other _ _ _ _ hr hs, ih _ _ _ (by simp)]
            simp
          · by_cases hw : shouldWrite c r = true
            · simp only [if_true, if_pos hw, List.singleton_append]
              rw [emit_space_cons, emit_other _ _ _ _ hr hs, ih _ _ _ (by simp)]
              simp [hw]
            · simp only [if_true, if_neg hw, List.nil_append]
              rw [emit_other _ _ _ _ hr hs, ih _ _ _ (by simp)]
              simp

/-- C7: whitespace-trim is idempotent. For every text `s`, if `stripWhitespace(s, 0, 0)`
returns the output `o`, then `stripWhitespace(o, 0, 0)` returns the output `o` again. -/
theorem stripWhitespace_idempotent (s : List Char) :
    (stripWhitespace (stripWhitespace s NUL NUL).1 NUL NUL).1 = (stripWhitespace s NUL NUL).1 := by
  rw [stripWhitespace_fst, stripWhitespace_fst]
  exact emit_emit s NUL NUL false (by simp)

/-- Inside an open quote `q` the loop copies every rune up to the next `q`. -/
theorem stripLoop_inQuote (q : Char) (hq : q ≠ NUL) (body : List Char) :
    ∀ (b : List Char) (c : Char) (p : Bool), q ∉ body →
      stripLoop ⟨b, q, c, p⟩ body = ⟨b ++ body, q, lastRune c body, p⟩ := by
  induction body with
  | nil => intro b c p _; simp [stripLoop, lastRune]
  | cons r rs ih =>
    intro b c p hn
    have hr : r ≠ q := fun h => hn (by simp [h])
    have hrs : q ∉ rs := fun h => hn (by simp [h])
    have h : stripLoop ⟨b, q, c, p⟩ (r :: rs) = stripLoop (stripStep ⟨b, q, c, p⟩ r) rs := rfl
    rw [h, stripStep_inQuote _ _ _ _ _ hq, if_neg hr, ih _ _ _ hrs]
    simp [lastRune]

set_option maxRecDepth 100000 in
/-- The loop of `stripWhitespace` copies quoted runes. For a quote character `q` and a list of
runes `body` without `q`, the loop on `q`, `body`, `q` writes these runes unchanged, and
started inside an open `q`-quote it writes `body` unchanged with the quote still open. -/
theorem stripWhitespace_quoted_runes (q : Char) (body : List Char)
    (hq : q = dquote ∨ q = squote) (hn : q ∉ body) :
    stripWhitespace (q :: (body ++ [q])) NUL NUL = (q :: (body ++ [q]), NUL, q)
    ∧ (∀ c : Char, stripWhitespace body q c = (body, q, lastRune c body))
    ∧ stripWhitespace "<div class=\"  foo  bar  \"></div>".toList NUL NUL
        = ("<div class=\"  foo  bar  \"></div>".toList, NUL, '>') := by
  have hq0 : q ≠ NUL := by
    rcases hq with h | h <;> subst h <;> decide
  refine ⟨?_, ?_, by decide⟩
  · have h1 : stripLoop ⟨[], NUL, NUL, false⟩ (q :: (body ++ [q]))
        = stripLoop (stripStep ⟨[], NUL, NUL, false⟩ q) (body ++ [q]) := rfl
    have h2 : ∀ st : StripState, stripLoop st (body ++ [q]) = stripStep (stripLoop st body) q := by
      intro st; simp [stripLoop, List.foldl_append]
    simp only [stripWhitespace]
    rw [h1, stripStep_quote _ _ _ _ hq, h2, stripLoop_inQuote q hq0 body _ _ _ hn,
      stripStep_inQuote _ _ _ _ _ hq0]
    simp [stripFinish]
  · intro c
    simp only [stripWhitespace]
    rw [stripLoop_inQuote q hq0 body _ _ _ hn]
    simp [stripFinish]

theorem not_tagGap_nil : ¬ TagGap [] := by
  rintro ⟨pre, w, post, h, -, -⟩
  cases pre <;> simp at h

theorem not_startsGap_nil : ¬ StartsGap [] := by
  rintro ⟨w, post, h, hw, -⟩
  cases w <;> simp at h

theorem tagGap_cons (a : Char) (l : List Char) (h : TagGap (a :: l)) :
    TagGap l ∨ (a = '>' ∧ StartsGap l) := by
  obtain ⟨pre, w, post, he, hw, hs⟩ := h
  cases pre with
  | nil =>
    simp only [List.nil_append, List.cons.injEq] at he
    exact Or.inr ⟨he.1, w, post, he.2, hw, hs⟩
  | cons x pre2 =>
    simp only [List.cons_append, List.cons.injEq] at he
    exact Or.inl ⟨pre2, w, post, he.2, hw, hs⟩

theorem tagGap_of_tail (a : Char) (l : List Char) (h : TagGap l) : TagGap (a :: l) := by
  obtain ⟨pre, w, post, he, hw, hs⟩ := h
  exact ⟨a :: pre, w, post, by simp [he], hw, hs⟩

theorem startsGap_cons (a : Char) (l : List Char) (h : StartsGap (a :: l)) :
    isSpace a = true ∧ (StartsGap l ∨ ∃ post, l = '<' :: post) := by
  obtain ⟨w, post, he, hw, hs⟩ := h
  cases w with
  | nil => exact absurd rfl hw
  | cons x w2 =>
    simp only [List.cons_append, List.cons.injEq] at he
    refine ⟨by rw [he.1]; exact hs x (by simp), ?_⟩
    cases w2 with
    | nil => exact Or.inr ⟨post, by simpa using he.2⟩
    | cons y w3 =>
      exact Or.inl ⟨y :: w3, post, he.2, by simp, fun z hz => hs z (by simp [hz])⟩

theorem not_tagGap_cons_nonspace (c r : Char) (X : List Char) (hr : ¬ isSpace r = true)
    (h : ¬ TagGap (r :: X)) : ¬ TagGap (c :: r :: X) := by
  intro hg
  rcases tagGap_cons _ _ hg with h1 | ⟨-, h2⟩
  · exact h h1
  · exact hr (startsGap_cons _ _ h2).1

theorem not_tagGap_cons_space (c r : Char) (X : List Char) (hr : ¬ isSpace r = true)
    (h : ¬ TagGap (r :: X)) (hcr : ¬ (c = '>' ∧ r = '<')) : ¬ TagGap (c :: ' ' :: r :: X) := by
  intro hg
  rcases tagGap_cons _ _ hg with h1 | ⟨hc, h2⟩
  · rcases tagGap_cons _ _ h1 with h3 | ⟨h4, -⟩
    · exact h h3
    · exact absurd h4 (by decide)
  · rcases (startsGap_cons _ _ h2).2 with h3 | ⟨post, h4⟩
    · exact hr (startsGap_cons _ _ h3).1
    · simp only [List.cons.injEq] at h4
      exact hcr ⟨hc, h4.1⟩

theorem shouldWrite_tags (c r : Char) (h : shouldWrite c r = true) : ¬ (c = '>' ∧ r = '<') := by
  rintro ⟨hc, hr⟩
  subst hc; subst hr
  revert h
  decide

/-- Outside quotes the emitted text, read after the last character `c`, has no whitespace-only
gap between a `>` and a `<`. -/
theorem not_tagGap_emit (s : List Char) : ∀ (c : Char) (p : Bool),
    dquote ∉ s → squote ∉ s → ¬ TagGap (c :: emit s NUL c p) := by
  induction s with
  | nil =>
    intro c p _ _
    have h1 : ¬ TagGap [c] := by
      intro hg
      rcases tagGap_cons _ _ hg with h | ⟨-, h⟩
      · exact not_tagGap_nil h
      · exact not_startsGap_nil h
    cases p
    · simpa [emit] using h1
    · by_cases hc : c = '>' ∨ c = '=' ∨ c = NUL
      · simpa [emit, hc] using h1
      · have e : emit [] NUL c true = [' '] := by simp [emit, hc]
        rw [e]
        intro hg
        rcases tagGap_cons _ _ hg with h | ⟨-, h⟩
        · rcases tagGap_cons _ _ h with h2 | ⟨-, h2⟩
          · exact not_tagGap_nil h2
          · exact not_startsGap_nil h2
        · rcases (startsGap_cons _ _ h).2 with h2 | ⟨post, h2⟩
          · exact not_startsGap_nil h2
          · simp at h2
  | cons r rs ih =>
    intro c p hd hs
    have hr : ¬ (r = dquote ∨ r = squote) := by
      rintro (h | h)
      · exact hd (by simp [h])
      · exact hs (by simp [h])
    have hd2 : dquote ∉ rs := fun h => hd (by simp [h])
    have hs2 : squote ∉ rs := fun h => hs (by simp [h])
    by_cases hsp : isSpace r = true
    · rw [emit_space _ _ _ _ hr hsp]
      exact ih c true hd2 hs2
    · rw [emit_other _ _ _ _ hr hsp]
      have hrec := ih r false hd2 hs2
      cases p
      · simpa using not_tagGap_cons_nonspace c r _ hsp hrec
      · by_cases hw : shouldWrite c r = true
        · simpa [hw] using not_tagGap_cons_space c r _ hsp hrec (shouldWrite_tags c r hw)
        · simpa [hw] using not_tagGap_cons_nonspace c r _ hsp hrec

set_option maxRecDepth 100000 in
/-- C9: whitespace between two tags is removed entirely. For every text `s` processed outside
quotes (no quote character in `s`, not inside a quote at the start), the output of
`stripWhitespace` never contains a `>` followed by whitespace followed by `<`;
`"<div>\n\t<span>  foo  </span>\n</div>"` becomes `"<div><span> foo </span></div>"` and
`"<div>   </div>"` becomes `"<div></div>"`. -/
theorem stripWhitespace_no_space_between_tags (s : List Char) (c : Char)
    (hd : dquote ∉ s) (hs : squote ∉ s) :
    ¬ TagGap (stripWhitespace s NUL c).1
    ∧ (stripWhitespace "<div>\n\t<span>  foo  </span>\n</div>".toList NUL NUL).1
        = "<div><span> foo </span></div>".toList
    ∧ (stripWhitespace "<div>   </div>".toList NUL NUL).1 = "<div></div>".toList := by
  refine ⟨?_, by decide, by decide⟩
  rw [stripWhitespace_fst]
  exact fun h => not_tagGap_emit s c false hd hs (tagGap_of_tail c _ h)

/-- Witness for C9: the text `"<p> \n <b>"` after a recorded `>`. -/
theorem stripWhitespace_no_space_between_tags_witness :
    ¬ TagGap (stripWhitespace "<p> \n <b>".toList NUL '>').1 :=
  (stripWhitespace_no_space_between_tags "<p> \n <b>".toList '>' (by decide) (by decide)).1

/-! ## HTML escaping -/

theorem htmlSwitch_escapeByte (c : Nat) :
    escapeByte c = (htmlSwitch c).getD [c] := by
  unfold escapeByte htmlSwitch
  by_cases h0 : c = 0
  · subst h0; decide
  by_cases h34 : c = 34
  · subst h34; decide
  by_cases h39 : c = 39
  · subst h39; decide
  by_cases h38 : c = 38
  · subst h38; decide
  by_cases h60 : c = 60
  · subst h60; decide
  by_cases h62 : c = 62
  · subst h62; decide
  simp [h0, h34, h39, h38, h60, h62]

theorem sliceBytes_succ (s : List Nat) (last n : Nat) (hl : last ≤ n) (hn : n < s.length) :
    sliceBytes s last (n + 1) = sliceBytes s last n ++ [s.getD n 0] := by
  unfold sliceBytes
  have e : n + 1 - last = (n - last) + 1 := by omega
  have hidx : last + (n - last) = n := by omega
  rw [e, List.take_succ, List.getElem?_drop, hidx, List.getD_eq_getElem s 0 hn,
    List.getElem?_eq_getElem hn]
  rfl

theorem sliceBytes_self (s : List Nat) (n : Nat) : sliceBytes s n n = [] := by
  simp [sliceBytes]

theorem sliceBytes_length (s : List Nat) (last : Nat) :
    sliceBytes s last s.length = s.drop last := by
  unfold sliceBytes
  exact List.take_of_length_le (by simp)

/-- Invariant of the index loop: after `n` iterations the text written, followed by the
pending slice `s[last:n]`, is the image of the first `n` bytes. -/
theorem escapeLoop_invariant (w s : List Nat) (n : Nat) (hn : n ≤ s.length) :
    ((List.range n).foldl (fun st i => escapeStep s st i (s.getD i 0)) (w, 0)).2 ≤ n
    ∧ ((List.range n).foldl (fun st i => escapeStep s st i (s.getD i 0)) (w, 0)).1
        ++ sliceBytes s ((List.range n).foldl
            (fun st i => escapeStep s st i (s.getD i 0)) (w, 0)).2 n
      = w ++ (s.take n).flatMap escapeByte := by
  induction n with
  | zero => simp [sliceBytes]
  | succ n ih =>
    have hlt : n < s.length := by omega
    obtain ⟨h1, h2⟩ := ih (by omega)
    rw [List.range_succ, List.foldl_append]
    generalize (List.range n).foldl (fun st i => escapeStep s st i (s.getD i 0)) (w, 0) = st
      at h1 h2 ⊢
    obtain ⟨out, last⟩ := st
    simp only at h1 h2
    have htake : s.take (n + 1) = s.take n ++ [s.getD n 0] := by
      rw [List.take_succ, List.getD_eq_getElem s 0 hlt, List.getElem?_eq_getElem hlt]
      rfl
    rw [htake, List.flatMap_append, List.flatMap_singleton, ← List.append_assoc, ← h2,
      htmlSwitch_escapeByte]
    simp only [List.foldl_cons, List.foldl_nil, escapeStep]
    cases hsw : htmlSwitch (s.getD n 0) with
    | none =>
      simp only [Option.getD_none]
      refine ⟨by omega, ?_⟩
      rw [sliceBytes_succ s last n h1 hlt, List.append_assoc]
    | some html =>
      simp only [Option.getD_some]
      refine ⟨le_refl _, ?_⟩
      rw [sliceBytes_self, List.append_nil]

theorem HTMLEscapeString_eq (w s : List Nat) :
    HTMLEscapeString w s = w ++ s.flatMap escapeByte := by
  unfold HTMLEscapeString
  have h := (escapeLoop_invariant w s s.length (le_refl _)).2
  rw [sliceBytes_length, List.take_length] at h
  exact h

/-- A `range` loop over a slice visits the indices in order with the element at each index. -/
theorem foldl_enum_eq_foldl_range {α β : Type} (f : β → Nat → α → β) (d : α) (l : List α) :
    ∀ init : β, l.enum.foldl (fun a ic => f a ic.1 ic.2) init
      = (List.range l.length).foldl (fun a i => f a i (l.getD i d)) init := by
  induction l using List.reverseRecOn with
  | nil => intro init; simp
  | append_singleton l x ih =>
    intro init
    rw [List.enum_append, List.foldl_append, ih, List.length_append, List.length_singleton,
      List.range_succ, List.foldl_append]
    have hext : (List.range l.length).foldl (fun a i => f a i ((l ++ [x]).getD i d)) init
        = (List.range l.length).foldl (fun a i => f a i (l.getD i d)) init := by
      apply List.foldl_ext
      intro a i hi
      rw [List.getD_append l [x] d i (List.mem_range.mp hi)]
    rw [hext]
    simp [List.enumFrom]

theorem HTMLEscape_eq_HTMLEscapeString (w b : List Nat) :
    HTMLEscape w b = HTMLEscapeString w b := by
  unfold HTMLEscape HTMLEscapeString
  rw [foldl_enum_eq_foldl_range (fun st i c => escapeStep b st i c) 0 b (w, 0)]

theorem flatMap_escapeByte_plain (s : List Nat)
    (h : ∀ c ∈ s, c ≠ 38 ∧ c ≠ 60 ∧ c ≠ 62 ∧ c ≠ 34 ∧ c ≠ 39 ∧ c ≠ 0) :
    s.flatMap escapeByte = s := by
  induction s with
  | nil => rfl
  | cons c rs ih =>
    obtain ⟨h1, h2, h3, h4, h5, h6⟩ := h c (by simp)
    rw [List.flatMap_cons, ih (fun x hx => h x (by simp [hx]))]
    simp [escapeByte, h1, h2, h3, h4, h5, h6]

/-- C4: `HTMLEscapeString` and `HTMLEscape` both write exactly the concatenation of the
per-byte images of their input, where `&`, `<`, `>`, `"` and the apostrophe map to `&amp;`,
`&lt;`, `&gt;`, `&quot;` and `&apos;`, NUL maps to the UTF-8 encoding of U+FFFD and every other
byte maps to itself; so the two functions write the same text for the same input, and an
input with none of the six bytes is written unchanged. -/
theorem HTMLEscape_per_byte (w s : List Nat) :
    HTMLEscapeString w s = w ++ s.flatMap escapeByte
    ∧ HTMLEscape w s = w ++ s.flatMap escapeByte
    ∧ HTMLEscape w s = HTMLEscapeString w s
    ∧ ((∀ c ∈ s, c ≠ 38 ∧ c ≠ 60 ∧ c ≠ 62 ∧ c ≠ 34 ∧ c ≠ 39 ∧ c ≠ 0) →
        HTMLEscapeString w s = w ++ s ∧ HTMLEscape w s = w ++ s) := by
  refine ⟨HTMLEscapeString_eq w s, ?_, HTMLEscape_eq_HTMLEscapeString w s, ?_⟩
  · rw [HTMLEscape_eq_HTMLEscapeString, HTMLEscapeString_eq]
  · intro h
    rw [HTMLEscape_eq_HTMLEscapeString, HTMLEscapeString_eq, flatMap_escapeByte_plain s h]
    exact ⟨rfl, rfl⟩

/-- Witness for C4: the text `a<b` is escaped to `a&lt;b`, and the text `abc` is written
unchanged. -/
theorem HTMLEscape_per_byte_witness :
    HTMLEscapeString [] (bytesOf "a<b") = bytesOf "a&lt;b"
    ∧ HTMLEscapeString [] (bytesOf "abc") = bytesOf "abc" :=
  ⟨(HTMLEscape_per_byte [] (bytesOf "a<b")).1.trans (by decide),
   ((HTMLEscape_per_byte [] (bytesOf "abc")).2.2.2 (by decide)).1.trans (by decide)⟩

/-! ## The value wrapper and the writer -/

theorem toInt64_of_inRange (n : Int) (h1 : -2^63 ≤ n) (h2 : n < 2^63) : toInt64 n = n := by
  unfold toInt64
  norm_num at h1 h2 ⊢
  omega

theorem toUint64_of_inRange (n : Int) (h1 : 0 ≤ n) (h2 : n < 2^64) : toUint64 n = n := by
  unfold toUint64
  norm_num at h2 ⊢
  omega

theorem toInt64_ne_zero (n : Int) (h1 : -2^63 ≤ n) (h2 : n < 2^64) :
    toInt64 n ≠ 0 ↔ n ≠ 0 := by
  unfold toInt64
  norm_num at h1 h2 ⊢
  omega

theorem inRange_bounds (k : IntKind) (n : Int) (h : k.inRange n = true) :
    -2^63 ≤ n ∧ n < 2^64 := by
  cases k <;> simp only [IntKind.inRange, Bool.and_eq_true, decide_eq_true_eq] at h <;>
    norm_num at h ⊢ <;> omega

theorem IsNil_of_resolved (v : Value) (d : GoVal) (h : v.getResolvedValue = some d)
    (hd : d ≠ .nil) : v.IsNil = false := by
  unfold Value.IsNil
  cases hv : v.val <;> simp
  simp [Value.getResolvedValue, hv] at h
  exact hd h.symm

theorem String_of_bool (L : ExtLib) (v : Value) (b : Bool)
    (h : v.getResolvedValue = some (.bool b)) :
    v.String L = some (if b then bytesOf "True" else bytesOf "False") := by
  have hnil : v.IsNil = false := IsNil_of_resolved v _ h (by simp)
  unfold Value.String
  rw [hnil, h]
  cases b <;> simp [GoVal.stringer]

theorem WriteAny_of_bool (L : ExtLib) (w : GoString) (v : Value) (b : Bool)
    (h : v.getResolvedValue = some (.bool b)) :
    WriteAny L w v = some (w ++ (if b then bytesOf "True" else bytesOf "False")) := by
  have hnil : v.IsNil = false := IsNil_of_resolved v _ h (by simp)
  unfold WriteAny
  rw [hnil, h]
  cases b <;> simp

/-- C1: for every Value wrapping a boolean `b` (directly or through a pointer), `String()`
returns exactly `"True"` when `b` is true and `"False"` when `b` is false, and
`templateWriter.WriteAny` writes exactly those same capitalised strings. -/
theorem String_bool_capitalised (L : ExtLib) (w : GoString) (v : Value) (b : Bool)
    (h : v.getResolvedValue = some (.bool b)) :
    v.String L = some (if b then bytesOf "True" else bytesOf "False")
    ∧ WriteAny L w v = some (w ++ (if b then bytesOf "True" else bytesOf "False")) := by
  have hnil : v.IsNil = false := IsNil_of_resolved v _ h (by simp)
  unfold WriteAny Value.String
  rw [hnil, h]
  cases b <;> simp [GoVal.stringer]

/-- Witness for C1: the boolean `false` behind a pointer. -/
theorem String_bool_capitalised_witness :
    (AsValue (.ptr .bool 1 (.bool false))).String ExtLib.trivial = some (bytesOf "False")
    ∧ WriteAny ExtLib.trivial [] (AsValue (.ptr .bool 1 (.bool false)))
        = some (bytesOf "False") :=
  String_bool_capitalised ExtLib.trivial [] (AsValue (.ptr .bool 1 (.bool false))) false rfl

theorem highBit_spec : ∀ (f m : Nat), 0 < m → m < 2 ^ f →
    2 ^ highBit f m ≤ m ∧ m < 2 ^ (highBit f m + 1) ∧ highBit f m < f := by
  intro f
  induction f with
  | zero => intro m h1 h2; simp at h2; omega
  | succ f ih =>
    intro m h1 h2
    unfold highBit
    by_cases hm : m < 2
    · have : m = 1 := by omega
      subst this
      simp
    · rw [if_neg hm]
      have hdiv : m / 2 < 2 ^ f := by
        rw [pow_succ] at h2
        omega
      obtain ⟨a, b, c⟩ := ih (m / 2) (by omega) hdiv
      refine ⟨?_, ?_, by omega⟩
      · rw [Nat.add_comm 1, pow_succ]; omega
      · rw [Nat.add_comm 1, pow_succ (n := highBit f (m / 2) + 1)]; omega

theorem float32To64_zero_iff (b : Nat) :
    float32To64 b % 2^63 = 0 ↔ b % 2^31 = 0 := by
  have hb : b % 2^31 = (b / 2^23 % 256) * 2^23 + b % 2^23 := by
    norm_num
    omega
  have hm : b % 2^23 < 2^23 := Nat.mod_lt _ (by norm_num)
  unfold float32To64
  simp only []
  generalize b / 2^31 % 2 = sg at *
  generalize b / 2^23 % 256 = e at *
  generalize b % 2^23 = m at *
  rw [hb]
  by_cases h255 : e = 255
  · rw [if_pos h255]
    norm_num at hm ⊢
    omega
  · rw [if_neg h255]
    by_cases h0 : e = 0
    · rw [if_pos h0]
      by_cases hm0 : m = 0
      · rw [if_pos hm0]
        norm_num
        omega
      · rw [if_neg hm0]
        obtain ⟨k1, k2, k3⟩ := highBit_spec 23 m (by omega) hm
        have hp : 2 ^ (highBit 23 m + 1) = 2 * 2 ^ highBit 23 m := by ring
        have hlt : m - 2 ^ highBit 23 m < 2 ^ highBit 23 m := by
          rw [hp] at k2
          omega
        have hY : (m - 2 ^ highBit 23 m) * 2 ^ (52 - highBit 23 m) < 2 ^ 52 := by
          calc (m - 2 ^ highBit 23 m) * 2 ^ (52 - highBit 23 m)
              < 2 ^ highBit 23 m * 2 ^ (52 - highBit 23 m) :=
                Nat.mul_lt_mul_of_pos_right hlt (by positivity)
            _ = 2 ^ 52 := by
                rw [← pow_add]
                congr 1
                omega
        generalize (m - 2 ^ highBit 23 m) * 2 ^ (52 - highBit 23 m) = Y at hY ⊢
        generalize highBit 23 m = k at k3 ⊢
        norm_num at hY hm ⊢
        omega
    · rw [if_neg h0]
      norm_num at hm ⊢
      omega

/-- The conversion of a `float32` to `float64` maps exactly the two zeros to zeros. -/
theorem float64Nonzero_float32To64 (b : Nat) :
    float64Nonzero (float32To64 b) = float32Nonzero b := by
  unfold float64Nonzero float32Nonzero
  have h := float32To64_zero_iff b
  norm_num at h
  simp [h]

/-- C2 (as stated, refuted): the number 5 of the defined type `type Level int` is a nonzero
number of integer kind, and the non-empty string `a` of a defined string type is a non-empty
string; `IsTrue()` is false for both. -/
theorem IsTrue_defined_type_counterexample :
    (AsValue (.named "Level" none (.int .int 5))).IsTrue = some false
    ∧ (GoVal.named "Level" none (.int .int 5)).kind = .int
    ∧ (AsValue (.named "Name" none (.str [97]))).IsTrue = some false
    ∧ (GoVal.named "Name" none (.str [97])).kind = .string := by
  refine ⟨rfl, rfl, rfl, rfl⟩

/-- C2 (amended): `IsTrue()` returns false for the empty string, for zero of the ten
predeclared integer types and of `float32` and `float64`, for the boolean false and for nil;
it returns true for every non-empty string of the type `string`, every nonzero number of the
ten predeclared integer types and of `float32` and `float64`, the boolean true, and every
struct value (whatever its fields, of any struct type). An array, slice, map or channel is
true exactly when it is not empty, and a string, number or boolean of a defined type (such as
`type Level int`) is false whatever it holds. The datum `d` is the one the Value resolves to,
held directly or behind a pointer. -/
theorem IsTrue_truthiness (v : Value) (d : GoVal) (h : v.getResolvedValue = some d) :
    (d = .nil → v.IsTrue = some false)
    ∧ (d = .str [] → v.IsTrue = some false)
    ∧ (∀ k, d = .int k 0 → v.IsTrue = some false)
    ∧ (d = .float32 0 ∨ d = .float32 (2^31) ∨ d = .float64 0 ∨ d = .float64 (2^63) →
        v.IsTrue = some false)
    ∧ (d = .bool false → v.IsTrue = some false)
    ∧ (∀ s, d = .str s → s ≠ [] → v.IsTrue = some true)
    ∧ (∀ k n, d = .int k n → n ≠ 0 → v.IsTrue = some true)
    ∧ (∀ b, d = .float32 b → b < 2^32 → b ≠ 0 → b ≠ 2^31 → v.IsTrue = some true)
    ∧ (∀ b, d = .float64 b → b < 2^64 → b ≠ 0 → b ≠ 2^63 → v.IsTrue = some true)
    ∧ (d = .bool true → v.IsTrue = some true)
    ∧ (d.kind = .struct → v.IsTrue = some true)
    ∧ (d.kind = .array ∨ d.kind = .slice ∨ d.kind = .map ∨ d.kind = .chan →
        v.IsTrue = some (decide (d.reflectLen > 0)))
    ∧ (∀ t s u, d = .named t s u →
        d.kind = .int ∨ d.kind = .float ∨ d.kind = .string ∨ d.kind = .bool →
        v.IsTrue = some false) := by
  unfold Value.IsTrue
  rw [h]
  refine ⟨?_, ?_, ?_, ?_, ?_, ?_, ?_, ?_, ?_, ?_, ?_, ?_, ?_⟩
  · rintro rfl; rfl
  · rintro rfl; rfl
  · rintro k rfl; rfl
  · rintro (rfl | rfl | rfl | rfl) <;> simp [float32Nonzero, float64Nonzero]
  · rintro rfl; rfl
  · rintro s rfl hs
    cases s with
    | nil => exact absurd rfl hs
    | cons a t => simp
  · rintro k n rfl hn
    simp [hn]
  · rintro b rfl h1 h2 h3
    have : ¬ b % 2147483648 = 0 := by
      norm_num at h1 h3
      omega
    simp [float32Nonzero, this]
  · rintro b rfl h1 h2 h3
    have : ¬ b % 9223372036854775808 = 0 := by
      norm_num at h1 h3
      omega
    simp [float64Nonzero, this]
  · rintro rfl; rfl
  · intro hk
    cases d <;> simp [GoVal.kind] at hk <;> simp [GoVal.kind, hk]
  · intro hk
    cases d <;> simp [GoVal.kind] at hk <;>
      first
        | rfl
        | (rcases hk with hk | hk | hk | hk <;> simp [GoVal.kind, GoVal.reflectLen, hk])
  · rintro t s u rfl hk
    simp only [GoVal.kind] at hk
    rcases hk with hk | hk | hk | hk <;> simp [GoVal.kind, hk]

/-- Witness for C2: a struct value of a defined type, behind a pointer, is true. -/
theorem IsTrue_truthiness_witness :
    (AsValue (.ptr (.other "User") 1 (.named "User" none (.struct [])))).IsTrue = some true :=
  (IsTrue_truthiness (AsValue (.ptr (.other "User") 1 (.named "User" none (.struct []))))
    (.named "User" none (.struct [])) rfl).2.2.2.2.2.2.2.2.2.2.1 rfl

/-- C3: `Negate` is logical NOT under the truthiness rules of `IsTrue`. For every Value `v`
that resolves to a datum `d` (nil, integer, float, bool, string, sequence, mapping, struct or
unsupported kind), `v.Negate()` returns a Value and `v.Negate().IsTrue()` is the negation of
`v.IsTrue()`; `AsValue(1).Negate().IsTrue()` is false. -/
theorem Negate_IsTrue (L : ExtLib) (v : Value) (d : GoVal)
    (h : v.getResolvedValue = some d) (hr : d.intInRange = true) :
    (∃ w b, v.Negate L = some w ∧ v.IsTrue = some b ∧ w.IsTrue = some (!b))
    ∧ ((AsValue (.int .int 1)).Negate L).bind Value.IsTrue = some false := by
  refine ⟨?_, rfl⟩
  unfold Value.Negate Value.IsTrue Value.Integer Value.Float
  rw [h]
  cases d with
  | nil => exact ⟨AsValue (.bool true), false, rfl, rfl, rfl⟩
  | str s =>
    refine ⟨AsValue (.bool (s.length == 0)), decide (s.length > 0), rfl, rfl, ?_⟩
    cases s <;> simp [AsValue, Value.getResolvedValue]
  | int k n =>
    obtain ⟨b1, b2⟩ := inRange_bounds k n hr
    have hz := toInt64_ne_zero n b1 b2
    by_cases hn : n = 0
    · subst hn
      refine ⟨AsValue (.int .int 1), false, ?_, rfl, rfl⟩
      cases k <;> simp [toInt64]
    · refine ⟨AsValue (.int .int 0), true, ?_, by simp [hn], rfl⟩
      cases k <;> simp [hn, hz.mpr hn]
  | float32 b =>
    simp only [float64Nonzero_float32To64]
    cases hb : float32Nonzero b
    · exact ⟨AsValue (.float64 float64_1_1), false, by simp [hb], by simp [hb], by decide⟩
    · exact ⟨AsValue (.float64 0), true, by simp [hb], by simp [hb], by decide⟩
  | float64 b =>
    cases hb : float64Nonzero b
    · exact ⟨AsValue (.float64 float64_1_1), false, by simp [hb], by simp [hb], by decide⟩
    · exact ⟨AsValue (.float64 0), true, by simp [hb], by simp [hb], by decide⟩
  | bool b => exact ⟨AsValue (.bool (!b)), b, rfl, rfl, rfl⟩
  | time t => exact ⟨AsValue (.bool false), true, rfl, rfl, rfl⟩
  | nilPtr e => exact ⟨AsValue (.bool true), false, rfl, rfl, rfl⟩
  | ptr e a t => exact ⟨AsValue (.bool true), false, rfl, rfl, rfl⟩
  | array es =>
    refine ⟨AsValue (.bool (es.length == 0)), decide (es.length > 0), rfl, rfl, ?_⟩
    cases es <;> simp [AsValue, Value.getResolvedValue, Value.IsTrue]
  | slice es =>
    refine ⟨AsValue (.bool (es.length == 0)), decide (es.length > 0), rfl, rfl, ?_⟩
    cases es <;> simp [AsValue, Value.getResolvedValue, Value.IsTrue]
  | map es =>
    refine ⟨AsValue (.bool (es.length == 0)), decide (es.length > 0), rfl, rfl, ?_⟩
    cases es <;> simp [AsValue, Value.getResolvedValue, Value.IsTrue]
  | chan n =>
    refine ⟨AsValue (.bool (n == 0)), decide (n > 0), rfl, rfl, ?_⟩
    cases n <;> simp [AsValue, Value.getResolvedValue, Value.IsTrue]
  | struct fs => exact ⟨AsValue (.bool false), true, rfl, rfl, rfl⟩
  | named t s u =>
    simp only []
    cases hk : (GoVal.named t s u).kind
    all_goals first
      | exact ⟨AsValue (.bool true), false, rfl, rfl, rfl⟩
      | exact ⟨AsValue (.bool false), true, rfl, rfl, rfl⟩
      | (refine ⟨AsValue (.bool ((GoVal.named t s u).reflectLen == 0)),
            decide ((GoVal.named t s u).reflectLen > 0), rfl, rfl, ?_⟩
         cases (GoVal.named t s u).reflectLen <;>
           simp [AsValue, Value.getResolvedValue, Value.IsTrue])
  | misc i => exact ⟨AsValue (.bool true), false, rfl, rfl, rfl⟩

/-- Witness for C3: the integer `1`. -/
theorem Negate_IsTrue_witness :
    ∃ w b, (AsValue (.int .int 1)).Negate ExtLib.trivial = some w
      ∧ (AsValue (.int .int 1)).IsTrue = some b ∧ w.IsTrue = some (!b) :=
  (Negate_IsTrue ExtLib.trivial (AsValue (.int .int 1)) (.int .int 1) rfl (by decide)).1

/-- C5 (as stated, refuted): the Value wrapping the text `<b>` is not marked safe and its text
contains `<`, yet `WriteAny` writes the raw text `<b>` and not the escaped `&lt;b&gt;`. -/
theorem WriteAny_unsafe_counterexample :
    (AsValue (.str (bytesOf "<b>"))).safe = false
    ∧ 60 ∈ bytesOf "<b>"
    ∧ WriteAny ExtLib.trivial [] (AsValue (.str (bytesOf "<b>"))) = some (bytesOf "<b>")
    ∧ HTMLEscapeString [] (bytesOf "<b>") = bytesOf "&lt;b&gt;"
    ∧ bytesOf "<b>" ≠ bytesOf "&lt;b&gt;" := by
  decide

/-- C5 (amended): the writer's Value path never escapes. For every Value `v` whose text is
the string `s`, `WriteAny(v)` writes the raw text `s`, and what `WriteAny` writes is the same
whether or not `v` is marked safe. -/
theorem WriteAny_raw (L : ExtLib) (w : GoString) (v : Value) (s : GoString)
    (h : v.getResolvedValue = some (.str s)) :
    WriteAny L w v = some (w ++ s)
    ∧ WriteAny L w { v with safe := true } = WriteAny L w { v with safe := false } := by
  refine ⟨?_, rfl⟩
  have hnil : v.IsNil = false := IsNil_of_resolved v _ h (by simp)
  unfold WriteAny
  rw [hnil, h]
  simp

/-- Witness for C5 (amended): the text `<b>`, marked safe or not. -/
theorem WriteAny_raw_witness :
    WriteAny ExtLib.trivial [] (AsValue (.str (bytesOf "<b>"))) = some ([] ++ bytesOf "<b>")
    ∧ WriteAny ExtLib.trivial [] { AsValue (.str (bytesOf "<b>")) with safe := true }
      = WriteAny ExtLib.trivial [] { AsValue (.str (bytesOf "<b>")) with safe := false } :=
  WriteAny_raw ExtLib.trivial [] (AsValue (.str (bytesOf "<b>"))) (bytesOf "<b>") rfl

/-- C6: the writer's direct-dispatch path and `String()` never disagree. For every Value `v`
that is nil or wraps a string, a boolean or an integer of any width and signedness (directly
or through a pointer), the bytes written by `WriteAny(v)` are exactly `v.String()`: integers in
canonical base 10, nil as nothing. -/
theorem WriteAny_eq_String (L : ExtLib) (w : GoString) (v : Value) (d : GoVal)
    (h : v.getResolvedValue = some d) (hr : d.intInRange = true)
    (hd : d = .nil ∨ (∃ s, d = .str s) ∨ (∃ b, d = .bool b) ∨ (∃ k n, d = .int k n)) :
    ∃ t, v.String L = some t ∧ WriteAny L w v = some (w ++ t)
      ∧ (∀ k n, d = .int k n → t = formatDecimal n)
      ∧ (v.IsNil = true → t = []) := by
  rcases hd with rfl | ⟨s, rfl⟩ | ⟨b, rfl⟩ | ⟨k, n, rfl⟩
  · cases hnil : v.IsNil
    · refine ⟨L.sprintV .nil, ?_, ?_, by simp, by simp⟩
      · unfold Value.String
        rw [hnil, h]
        simp [GoVal.stringer]
      · unfold WriteAny Value.String
        rw [hnil, h]
        simp [GoVal.stringer]
    · refine ⟨[], ?_, ?_, by simp, by simp⟩
      · unfold Value.String
        rw [hnil]
        simp
      · unfold WriteAny
        rw [hnil]
        simp
  · have hnil : v.IsNil = false := IsNil_of_resolved v _ h (by simp)
    refine ⟨s, ?_, ?_, by simp, by simp [hnil]⟩
    · unfold Value.String
      rw [hnil, h]
      simp [GoVal.stringer]
    · unfold WriteAny
      rw [hnil, h]
      simp
  · have hnil : v.IsNil = false := IsNil_of_resolved v _ h (by simp)
    refine ⟨if b then bytesOf "True" else bytesOf "False", ?_, ?_, by simp, by simp [hnil]⟩
    · exact String_of_bool L v b h
    · exact WriteAny_of_bool L w v b h
  · have hnil : v.IsNil = false := IsNil_of_resolved v _ h (by simp)
    have hk : k.inRange n = true := hr
    refine ⟨formatDecimal n, ?_, ?_, fun k2 n2 e => by cases e; rfl, by simp [hnil]⟩
    · unfold Value.String
      rw [hnil, h]
      cases k <;> simp only [IntKind.inRange, Bool.and_eq_true, decide_eq_true_eq] at hk <;>
        simp [GoVal.stringer] <;>
        first
          | rw [toInt64_of_inRange n (by norm_num at hk ⊢; omega) (by norm_num at hk ⊢; omega)]
          | rw [toUint64_of_inRange n (by norm_num at hk ⊢; omega) (by norm_num at hk ⊢; omega)]
    · unfold WriteAny
      rw [hnil, h]
      cases k <;> simp only [IntKind.inRange, Bool.and_eq_true, decide_eq_true_eq] at hk <;>
        simp <;>
        first
          | rw [toInt64_of_inRange n (by norm_num at hk ⊢; omega) (by norm_num at hk ⊢; omega)]
          | rw [toUint64_of_inRange n (by norm_num at hk ⊢; omega) (by norm_num at hk ⊢; omega)]

/-- Witness for C6: the `int8` value `-42` behind a pointer is written as `-42`. -/
theorem WriteAny_eq_String_witness :
    ∃ t, (AsValue (.ptr (.int .int8) 1 (.int .int8 (-42)))).String ExtLib.trivial = some t
      ∧ WriteAny ExtLib.trivial [] (AsValue (.ptr (.int .int8) 1 (.int .int8 (-42))))
          = some ([] ++ t)
      ∧ (∀ k n, GoVal.int .int8 (-42) = .int k n → t = formatDecimal n)
      ∧ ((AsValue (.ptr (.int .int8) 1 (.int .int8 (-42)))).IsNil = true → t = []) :=
  WriteAny_eq_String ExtLib.trivial [] (AsValue (.ptr (.int .int8) 1 (.int .int8 (-42))))
    (.int .int8 (-42)) rfl (by decide) (Or.inr (Or.inr (Or.inr ⟨.int8, -42, rfl⟩)))


/-! ## Whitespace trimming: collapsing and leading whitespace -/

theorem not_adjSpace_nil : ¬ AdjSpace [] := by
  rintro ⟨pre, a, b, post, h, -, -⟩
  cases pre <;> simp at h

theorem adjSpace_cons (x : Char) (l : List Char) (h : AdjSpace (x :: l)) :
    AdjSpace l ∨ (isSpace x = true ∧ ∃ b post, l = b :: post ∧ isSpace b = true) := by
  obtain ⟨pre, a, b, post, he, ha, hb⟩ := h
  cases pre with
  | nil =>
    simp only [List.nil_append, List.cons.injEq] at he
    exact Or.inr ⟨by rw [he.1]; exact ha, b, post, he.2, hb⟩
  | cons y pre2 =>
    simp only [List.cons_append, List.cons.injEq] at he
    exact Or.inl ⟨pre2, a, b, post, he.2, ha, hb⟩

theorem not_adjSpace_cons_nonspace (r : Char) (X : List Char) (hr : ¬ isSpace r = true)
    (h : ¬ AdjSpace X) : ¬ AdjSpace (r :: X) := by
  intro hg
  rcases adjSpace_cons _ _ hg with h1 | ⟨h2, -⟩
  · exact h h1
  · exact hr h2

theorem not_adjSpace_space_nonspace (r : Char) (X : List Char) (hr : ¬ isSpace r = true)
    (h : ¬ AdjSpace X) : ¬ AdjSpace (' ' :: r :: X) := by
  intro hg
  rcases adjSpace_cons _ _ hg with h1 | ⟨-, b, post, he, hb⟩
  · exact not_adjSpace_cons_nonspace r X hr h h1
  · simp only [List.cons.injEq] at he
    exact hr (by rw [he.1]; exact hb)

/-- Outside quotes every whitespace character the loop emits is a single space that is not
next to another whitespace character. -/
theorem emit_collapsed (s : List Char) : ∀ (c : Char) (p : Bool),
    dquote ∉ s → squote ∉ s →
    (∀ x ∈ emit s NUL c p, isSpace x = true → x = ' ') ∧ ¬ AdjSpace (emit s NUL c p) := by
  induction s with
  | nil =>
    intro c p _ _
    have h1 : ¬ AdjSpace [' '] := by
      intro hg
      rcases adjSpace_cons _ _ hg with h | ⟨-, b, post, he, -⟩
      · exact not_adjSpace_nil h
      · simp at he
    cases p
    · simpa [emit] using not_adjSpace_nil
    · by_cases hc : c = '>' ∨ c = '=' ∨ c = NUL
      · simpa [emit, hc] using not_adjSpace_nil
      · have e : emit [] NUL c true = [' '] := by simp [emit, hc]
        rw [e]
        exact ⟨by simp, h1⟩
  | cons r rs ih =>
    intro c p hd hs
    have hr : ¬ (r = dquote ∨ r = squote) := by
      rintro (h | h)
      · exact hd (by simp [h])
      · exact hs (by simp [h])
    have hd2 : dquote ∉ rs := fun h => hd (by simp [h])
    have hs2 : squote ∉ rs := fun h => hs (by simp [h])
    by_cases hsp : isSpace r = true
    · rw [emit_space _ _ _ _ hr hsp]
      exact ih c true hd2 hs2
    · rw [emit_other _ _ _ _ hr hsp]
      obtain ⟨m, a⟩ := ih r false hd2 hs2
      have hmem : ∀ x ∈ r :: emit rs NUL r false, isSpace x = true → x = ' ' := by
        intro x hx hxs
        rcases List.mem_cons.mp hx with h | h
        · exact absurd (h ▸ hxs) hsp
        · exact m x h hxs
      cases p
      · exact ⟨by simpa using hmem, by simpa using not_adjSpace_cons_nonspace r _ hsp a⟩
      · by_cases hw : shouldWrite c r = true
        · refine ⟨?_, by simpa [hw] using not_adjSpace_space_nonspace r _ hsp a⟩
          intro x hx hxs
          simp only [hw, if_true, List.singleton_append, List.mem_cons] at hx
          rcases hx with h | h | h
          · exact h
          · exact absurd (h ▸ hxs) hsp
          · exact m x h hxs
        · exact ⟨by simpa [hw] using hmem,
            by simpa [hw] using not_adjSpace_cons_nonspace r _ hsp a⟩

/-- C11: outside quotes a whitespace run collapses to at most one space. For every text `s`
containing no quote character and every starting last-character `c`, the output of
`stripWhitespace(s, 0, c)` contains no two adjacent whitespace characters and no whitespace
character other than the single space. -/
theorem stripWhitespace_collapses (s : List Char) (c : Char)
    (hd : dquote ∉ s) (hs : squote ∉ s) :
    ¬ AdjSpace (stripWhitespace s NUL c).1
    ∧ ∀ x ∈ (stripWhitespace s NUL c).1, isSpace x = true → x = ' ' := by
  rw [stripWhitespace_fst]
  exact ⟨(emit_collapsed s c false hd hs).2, (emit_collapsed s c false hd hs).1⟩

/-- Witness for C11: tabs and newlines between words after a recorded `a`. -/
theorem stripWhitespace_collapses_witness :
    ¬ AdjSpace (stripWhitespace " x \t\n y  ".toList NUL 'a').1
    ∧ ∀ x ∈ (stripWhitespace " x \t\n y  ".toList NUL 'a').1, isSpace x = true → x = ' ' :=
  stripWhitespace_collapses " x \t\n y  ".toList 'a' (by decide) (by decide)

/-- On the path for runes that are not quotes the leading whitespace is dropped: the output
for a text without quote characters, with no character recorded, does not begin with a
whitespace character. -/
theorem emit_head_not_space (s : List Char) : ∀ (p : Bool), dquote ∉ s → squote ∉ s →
    ∀ x, (emit s NUL NUL p).head? = some x → isSpace x = false := by
  induction s with
  | nil =>
    intro p _ _ x hx
    cases p <;> simp [emit] at hx
  | cons r rs ih =>
    intro p hd hs x hx
    have hr : ¬ (r = dquote ∨ r = squote) := by
      rintro (h | h)
      · exact hd (by simp [h])
      · exact hs (by simp [h])
    by_cases hsp : isSpace r = true
    · rw [emit_space _ _ _ _ hr hsp] at hx
      exact ih true (fun h => hd (by simp [h])) (fun h => hs (by simp [h])) x hx
    · rw [emit_other _ _ _ _ hr hsp] at hx
      have hw : shouldWrite NUL r = false := by simp [shouldWrite]
      cases p <;> simp [hw] at hx <;> simpa [hx] using hsp

/-- C12 (the code at the failing input): for the text consisting of a space and the quoted
word `"a"`, with no preceding character recorded, `stripWhitespace` returns the text unchanged,
so the output begins with a whitespace character. -/
theorem stripWhitespace_leading_space_before_quote :
    stripWhitespace " \"a\"".toList NUL NUL = (" \"a\"".toList, NUL, dquote)
    ∧ (stripWhitespace " \"a\"".toList NUL NUL).1.head? = some ' '
    ∧ isSpace ' ' = true
    ∧ (stripWhitespace "   <div>".toList NUL NUL).1 = "<div>".toList := by
  decide


/-! ## Templates -/

set_option maxRecDepth 100000 in
/-- C15 (the code at the failing input): with `TrimBlocks` set, the tokens of
`{% if x %}` followed by the text `"\n\nx"` lose one leading newline of the text in the first
application of the pass and the second newline in the second application, so the text after
the second application differs from the text after the first. -/
theorem trimBlocksPass_second_application :
    trimBlocksPass ⟨false, true, false⟩
        [⟨.TokenSymbol, bytesOf "\x7b%"⟩, ⟨.TokenIdentifier, bytesOf "if"⟩,
         ⟨.TokenIdentifier, bytesOf "x"⟩, ⟨.TokenSymbol, bytesOf "%\x7d"⟩,
         ⟨.TokenHTML, bytesOf "\n\nx"⟩]
      = [⟨.TokenSymbol, bytesOf "\x7b%"⟩, ⟨.TokenIdentifier, bytesOf "if"⟩,
         ⟨.TokenIdentifier, bytesOf "x"⟩, ⟨.TokenSymbol, bytesOf "%\x7d"⟩,
         ⟨.TokenHTML, bytesOf "\nx"⟩]
    ∧ trimBlocksPass ⟨false, true, false⟩
        [⟨.TokenSymbol, bytesOf "\x7b%"⟩, ⟨.TokenIdentifier, bytesOf "if"⟩,
         ⟨.TokenIdentifier, bytesOf "x"⟩, ⟨.TokenSymbol, bytesOf "%\x7d"⟩,
         ⟨.TokenHTML, bytesOf "\nx"⟩]
      = [⟨.TokenSymbol, bytesOf "\x7b%"⟩, ⟨.TokenIdentifier, bytesOf "if"⟩,
         ⟨.TokenIdentifier, bytesOf "x"⟩, ⟨.TokenSymbol, bytesOf "%\x7d"⟩,
         ⟨.TokenHTML, bytesOf "x"⟩]
    ∧ bytesOf "\nx" ≠ bytesOf "x" := by
  decide

theorem parentLoop_congr (st st2 : Store) (h : ∀ x, (st2 x).parent = (st x).parent) :
    ∀ (fuel t : Nat), parentLoop st2 fuel t = parentLoop st fuel t := by
  intro fuel
  induction fuel with
  | zero => intro t; rfl
  | succ f ih =>
    intro t
    simp only [parentLoop, h t]
    cases (st t).parent with
    | none => rfl
    | some q => exact ih q

theorem parentLoop_of_reach (st : Store) : ∀ (n t r : Nat), reach st t n = some r →
    (st r).parent = none → ∀ fuel, n < fuel → parentLoop st fuel t = some r := by
  intro n
  induction n with
  | zero =>
    intro t r h hr fuel hf
    simp only [reach, Option.some.injEq] at h
    subst h
    cases fuel with
    | zero => omega
    | succ f => simp [parentLoop, hr]
  | succ n ih =>
    intro t r h hr fuel hf
    cases fuel with
    | zero => omega
    | succ f =>
      simp only [reach] at h
      simp only [parentLoop]
      cases hp : (st t).parent with
      | none => simp [hp] at h
      | some q =>
        simp only [hp] at h
        exact ih q r h hr f (by omega)

theorem reach_of_parentLoop (st : Store) : ∀ (fuel t r : Nat), parentLoop st fuel t = some r →
    (st r).parent = none ∧ ∃ n, n < fuel ∧ reach st t n = some r := by
  intro fuel
  induction fuel with
  | zero => intro t r h; simp [parentLoop] at h
  | succ f ih =>
    intro t r h
    simp only [parentLoop] at h
    cases hp : (st t).parent with
    | none =>
      simp only [hp, Option.some.injEq] at h
      subst h
      exact ⟨hp, 0, by omega, rfl⟩
    | some q =>
      simp only [hp] at h
      obtain ⟨h1, n, hn, h2⟩ := ih q r h
      exact ⟨h1, n + 1, by omega, by simp [reach, hp, h2]⟩

theorem set_tokens_parent (st : Store) (tpl : Nat) (toks : List Token) (x : Nat) :
    ((st.set tpl { st tpl with tokens := toks }) x).parent = (st x).parent := by
  unfold Store.set
  by_cases h : x = tpl
  · simp [h]
  · simp [h]

theorem newContextForExecution_parent (validIdent : String → Bool) (fuel : Nat) (st : Store)
    (tpl : Nat) (context : Option Context) (st1 : Store) (p : Nat)
    (ctx : Option ExecutionContext) (err : Option ExecError)
    (h : newContextForExecution validIdent fuel st tpl context = some (st1, p, ctx, err)) :
    parentLoop st fuel tpl = some p
    ∧ st1 = st.set tpl { st tpl with tokens := trimBlocksPass (st tpl).Options (st tpl).tokens }
    ∧ (∀ c, ctx = some c → c.template = p) := by
  unfold newContextForExecution at h
  simp only [] at h
  rw [parentLoop_congr st _ (set_tokens_parent st tpl _)] at h
  cases hp : parentLoop st fuel tpl with
  | none => simp [hp] at h
  | some q =>
    simp only [hp] at h
    cases context with
    | none =>
      simp only [Option.some.injEq, Prod.mk.injEq] at h
      obtain ⟨h1, h2, h3, -⟩ := h
      refine ⟨by rw [h2], h1.symm, ?_⟩
      intro c hc
      rw [← h3] at hc
      cases hc
      exact h2
    | some c0 =>
      simp only at h
      split at h
      · split at h
        · simp only [Option.some.injEq, Prod.mk.injEq] at h
          obtain ⟨h1, h2, h3, -⟩ := h
          exact ⟨by rw [h2], h1.symm, fun c hc => by rw [← h3] at hc; cases hc⟩
        · split at h
          · simp only [Option.some.injEq, Prod.mk.injEq] at h
            obtain ⟨h1, h2, h3, -⟩ := h
            exact ⟨by rw [h2], h1.symm, fun c hc => by rw [← h3] at hc; cases hc⟩
          · simp only [Option.some.injEq, Prod.mk.injEq] at h
            obtain ⟨h1, h2, h3, -⟩ := h
            refine ⟨by rw [h2], h1.symm, ?_⟩
            intro c hc
            rw [← h3] at hc
            cases hc
            exact h2
      · simp only [Option.some.injEq, Prod.mk.injEq] at h
        obtain ⟨h1, h2, h3, -⟩ := h
        refine ⟨by rw [h2], h1.symm, ?_⟩
        intro c hc
        rw [← h3] at hc
        cases hc
        exact h2

theorem newContextForExecution_isSome (validIdent : String → Bool) (fuel : Nat) (st : Store)
    (tpl : Nat) (context : Option Context) (p : Nat) (h : parentLoop st fuel tpl = some p) :
    ∃ st1 ctx err,
      newContextForExecution validIdent fuel st tpl context = some (st1, p, ctx, err) := by
  unfold newContextForExecution
  simp only []
  rw [parentLoop_congr st _ (set_tokens_parent st tpl _), h]
  cases context with
  | none => exact ⟨_, _, _, rfl⟩
  | some c0 =>
    simp only
    split
    · split
      · exact ⟨_, _, _, rfl⟩
      · split
        · exact ⟨_, _, _, rfl⟩
        · exact ⟨_, _, _, rfl⟩
    · exact ⟨_, _, _, rfl⟩

/-- C18: rendering runs the root of the inheritance chain. For a template `t` whose parent
chain ends after `n` links in a template `r` without parent, the parent-following loop ends
with `r` (for every fuel above `n`), `r` is the only such template on the chain,
`newContextForExecution` returns `r` and `execute` writes what the root document of `r`
writes; a template without parent runs its own root. -/
theorem execute_runs_chain_root (exec : NodeExec) (validIdent : String → Bool) (st : Store)
    (t : Nat) (context : Option Context) (w : GoString) (n r : Nat)
    (hreach : reach st t n = some r) (hroot : (st r).parent = none) :
    (∀ fuel, n < fuel → parentLoop st fuel t = some r)
    ∧ (∀ m r2, reach st t m = some r2 → (st r2).parent = none → r2 = r)
    ∧ (∀ fuel, n < fuel → ∃ st1 ctx err,
        newContextForExecution validIdent fuel st t context = some (st1, r, ctx, err)
        ∧ (∀ c, ctx = some c → err = none →
            execute exec validIdent fuel st t context w
              = some (st1, w ++ (exec st1 (st1 r).root c).1, (exec st1 (st1 r).root c).2)))
    ∧ ((st t).parent = none → r = t) := by
  have hloop := parentLoop_of_reach st n t r hreach hroot
  refine ⟨hloop, ?_, ?_, ?_⟩
  · intro m r2 h1 h2
    have a := parentLoop_of_reach st m t r2 h1 h2 (m + n + 1) (by omega)
    have b := hloop (m + n + 1) (by omega)
    rw [a] at b
    exact Option.some.inj b
  · intro fuel hf
    obtain ⟨st1, ctx, err, h⟩ :=
      newContextForExecution_isSome validIdent fuel st t context r (hloop fuel hf)
    refine ⟨st1, ctx, err, h, ?_⟩
    intro c hc he
    subst hc; subst he
    simp [execute, h]
  · intro hp
    have a := hloop (n + 1) (by omega)
    simp [parentLoop, hp] at a
    exact a.symm

/-- Witness for C18: the child of the two-template store runs the root of its parent. -/
theorem execute_runs_chain_root_witness :
    parentLoop twoLevelStore 2 0 = some 1 :=
  (execute_runs_chain_root numberExec (fun _ => true) twoLevelStore 0 none [] 1 1 rfl rfl).1 2
    (by decide)

/-- C16 (as stated, refuted): the template exports the macro `m` and its set has the global
`m`. Called with a nil context, `newContextForExecution` returns an execution context and no
error; called with the empty, non-nil context it returns the clash error and no execution
context. -/
theorem newContextForExecution_nil_context_clash :
    (newContextForExecution (fun _ => true) 1 macroStore 0 none).map
        (fun r => (r.2.2.1.isSome, r.2.2.2)) = some (true, none)
    ∧ (newContextForExecution (fun _ => true) 1 macroStore 0 (some [])).map
        (fun r => (r.2.2.1.isSome, r.2.2.2)) = some (false, some (.macroClash "m")) := by
  decide

/-- C16 (amended): macro-name collisions are a structural error whenever the caller passes
a context (possibly empty, not nil). If some key of the public context (the globals of the
set merged with the caller's context) equals the name of a macro exported by the template,
`newContextForExecution` returns an error and no execution context. -/
theorem newContextForExecution_clash_of_context (validIdent : String → Bool) (fuel : Nat)
    (st : Store) (tpl : Nat) (c : Context) (st1 : Store) (p : Nat)
    (ctx : Option ExecutionContext) (err : Option ExecError)
    (h : newContextForExecution validIdent fuel st tpl (some c) = some (st1, p, ctx, err))
    (k : String) (v : GoVal)
    (hk : (k, v) ∈ (Context.Update [] (st tpl).Globals).Update c)
    (hm : ((st tpl).exportedMacros.lookup k).isSome = true) :
    ctx = none ∧ err.isSome = true := by
  unfold newContextForExecution at h
  simp only [] at h
  have hg : ((st.set tpl { st tpl with
      tokens := trimBlocksPass (st tpl).Options (st tpl).tokens }) tpl).Globals
      = (st tpl).Globals := by simp [Store.set]
  have hx : ((st.set tpl { st tpl with
      tokens := trimBlocksPass (st tpl).Options (st tpl).tokens }) tpl).exportedMacros
      = (st tpl).exportedMacros := by simp [Store.set]
  rw [hg, hx] at h
  cases hp : parentLoop (st.set tpl { st tpl with
      tokens := trimBlocksPass (st tpl).Options (st tpl).tokens }) fuel tpl with
  | none => simp [hp] at h
  | some q =>
    simp only [hp] at h
    have hlen : ((Context.Update [] (st tpl).Globals).Update c).length > 0 :=
      List.length_pos_of_mem hk
    rw [if_pos hlen] at h
    split at h
    · simp only [Option.some.injEq, Prod.mk.injEq] at h
      exact ⟨h.2.2.1.symm, by rw [← h.2.2.2]; rfl⟩
    · split at h
      · simp only [Option.some.injEq, Prod.mk.injEq] at h
        exact ⟨h.2.2.1.symm, by rw [← h.2.2.2]; rfl⟩
      · rename_i hfind
        have := List.find?_eq_none.mp hfind (k, v) hk
        simp [hm] at this

/-- Witness for C16 (amended): the global `m`, the macro `m` and the empty context. -/
theorem newContextForExecution_clash_of_context_witness :
    ∃ st1 p ctx err,
      newContextForExecution (fun _ => true) 1 macroStore 0 (some []) = some (st1, p, ctx, err)
      ∧ ctx = none ∧ err.isSome = true :=
  ⟨_, _, _, _, rfl,
    newContextForExecution_clash_of_context (fun _ => true) 1 macroStore 0 [] _ _ _ _ rfl
      "m" (.int .int 1) (List.mem_cons_self _ _) rfl⟩

theorem getBufferedTemplateWriter_clean (p : Pools) (h : p.Clean) :
    (getBufferedTemplateWriter p).1 = [] ∧ (getBufferedTemplateWriter p).2.Clean := by
  unfold getBufferedTemplateWriter
  cases hb : p.bufferedTemplateWriterPool with
  | nil => exact ⟨rfl, h⟩
  | cons b rest =>
    refine ⟨h.2 b (by simp [hb]), h.1, ?_⟩
    intro x hx
    exact h.2 x (by simp [hb, hx])

theorem getBuffer_clean (p : Pools) (h : p.Clean) :
    (getBuffer p).1 = [] ∧ (getBuffer p).2.Clean := by
  unfold getBuffer
  cases hb : p.bufferPool with
  | nil => exact ⟨rfl, h⟩
  | cons b rest =>
    refine ⟨h.1 b (by simp [hb]), ?_, h.2⟩
    intro x hx
    exact h.1 x (by simp [hb, hx])

theorem putBufferedTemplateWriter_clean (p : Pools) (buf : GoString) (h : p.Clean) :
    (putBufferedTemplateWriter p buf).Clean := by
  refine ⟨h.1, ?_⟩
  intro x hx
  simp only [putBufferedTemplateWriter, List.mem_cons] at hx
  rcases hx with hx | hx
  · exact hx
  · exact h.2 x hx

theorem putBuffer_clean (p : Pools) (buf : GoString) (h : p.Clean) :
    (putBuffer p buf).Clean := by
  refine ⟨?_, h.2⟩
  intro x hx
  simp only [putBuffer, List.mem_cons] at hx
  rcases hx with hx | hx
  · exact hx
  · exact h.1 x hx

/-- C17: the buffered entry points never emit partial output. With every pooled buffer
empty: if the execution of the template fails with `err`, `ExecuteWriter` leaves the
caller's writer as it was, `Execute` returns the empty string and `ExecuteBytes` returns nil,
each together with `err`; if it succeeds having written `out`, the caller's writer receives
exactly `out`, and `Execute` and `ExecuteBytes` return `out`. -/
theorem buffered_entry_points (exec : NodeExec) (validIdent : String → Bool) (fuel : Nat)
    (st : Store) (pools : Pools) (tpl : Nat) (context : Option Context) (writer : GoString)
    (hp : pools.Clean) (st1 : Store) (out : GoString) (res : Option ExecError)
    (hexec : execute exec validIdent fuel st tpl context [] = some (st1, out, res)) :
    (∀ err, res = some err →
      (ExecuteWriter exec validIdent fuel st pools tpl context writer).map
          (fun r => (r.2.2.1, r.2.2.2)) = some (writer, some err)
      ∧ (Execute exec validIdent fuel st pools tpl context).map
          (fun r => (r.2.2.1, r.2.2.2)) = some ([], some err)
      ∧ (ExecuteBytes exec validIdent fuel st pools tpl context).map
          (fun r => (r.2.2.1, r.2.2.2)) = some (none, some err))
    ∧ (res = none →
      (ExecuteWriter exec validIdent fuel st pools tpl context writer).map
          (fun r => (r.2.2.1, r.2.2.2)) = some (writer ++ out, none)
      ∧ (Execute exec validIdent fuel st pools tpl context).map
          (fun r => (r.2.2.1, r.2.2.2)) = some (out, none)
      ∧ (ExecuteBytes exec validIdent fuel st pools tpl context).map
          (fun r => (r.2.2.1, r.2.2.2)) = some (some out, none)) := by
  have h1 := (getBufferedTemplateWriter_clean pools hp).1
  have h2 := (getBuffer_clean _ (getBufferedTemplateWriter_clean pools hp).2).1
  constructor
  · intro err he
    subst he
    simp [ExecuteWriter, Execute, ExecuteBytes, newBufferAndExecute, h1, hexec]
  · intro he
    subst he
    simp [ExecuteWriter, Execute, ExecuteBytes, newBufferAndExecute, h1, h2, hexec]

/-- Witness for C17: the parent template of the two-template store writes `11`. -/
theorem buffered_entry_points_witness :
    (ExecuteWriter numberExec (fun _ => true) 1 twoLevelStore ⟨[], []⟩ 1 none
        (bytesOf "x")).map (fun r => (r.2.2.1, r.2.2.2)) = some (bytesOf "x" ++ bytesOf "11", none) :=
  ((buffered_entry_points numberExec (fun _ => true) 1 twoLevelStore ⟨[], []⟩ 1 none
      (bytesOf "x") ⟨by simp, by simp⟩ _ (bytesOf "11") none rfl).2 rfl).1

theorem collectParents_of_parentLoop (st : Store) (tpl : Nat) (blocks : List String) :
    ∀ (fuel t r : Nat), parentLoop st fuel t = some r →
      ∃ rest, collectParents st tpl blocks fuel (some t)
        = some (if blocks.any (fun block => ((st tpl).blocks.lookup block).isSome)
                then t :: rest else rest) := by
  intro fuel
  induction fuel with
  | zero => intro t r h; simp [parentLoop] at h
  | succ f ih =>
    intro t r h
    simp only [parentLoop] at h
    simp only [collectParents]
    cases hp : (st t).parent with
    | none =>
      have : collectParents st tpl blocks f none = some [] := by
        cases f <;> rfl
      rw [this]
      exact ⟨[], rfl⟩
    | some q =>
      simp only [hp] at h
      obtain ⟨rest, hrest⟩ := ih q r h
      rw [hrest]
      exact ⟨_, rfl⟩

theorem lookup_append_of_some (l : List (String × GoString)) (k k2 : String) (v v2 : GoString)
    (h : l.lookup k = some v) : (l ++ [(k2, v2)]).lookup k = some v := by
  induction l with
  | nil => simp at h
  | cons a rest ih =>
    obtain ⟨a1, a2⟩ := a
    simp only [List.cons_append, List.lookup_cons] at h ⊢
    cases hk : (k == a1) with
    | true => simpa [hk] using h
    | false =>
      simp only [hk] at h ⊢
      exact ih h

theorem ensureWriter_result (s : BlockState) :
    (ensureWriter s).result = s.result ∧ (ensureWriter s).st = s.st
    ∧ (ensureWriter s).ctx = s.ctx := by
  unfold ensureWriter
  cases s.btw <;> simp

theorem ensureContext_result (validIdent : String → Bool) (fuel : Nat)
    (context : Option Context) (t : Nat) (s s2 : BlockState) (e : Option ExecError)
    (h : ensureContext validIdent fuel context t s = some (s2, e)) :
    s2.result = s.result := by
  unfold ensureContext at h
  split at h
  · simp only [Option.some.injEq, Prod.mk.injEq] at h
    rw [← h.1]
  · split at h
    · cases h
    · simp only [Option.some.injEq, Prod.mk.injEq] at h
      rw [← h.1]

theorem executeBlock_keeps (exec : NodeExec) (name : String) (bw : Nat) (s : BlockState)
    (k : String) (v : GoString) (hk : s.result.lookup k = some v) :
    (executeBlock exec name bw s).1.result.lookup k = some v := by
  unfold executeBlock
  split
  · split
    · exact hk
    · exact lookup_append_of_some _ _ _ _ _ hk
  · exact hk

/-- The inner loop of `ExecuteBlocks` keeps every entry that the map `result` already has. -/
theorem blocksInner_keeps (exec : NodeExec) (validIdent : String → Bool) (fuel : Nat)
    (context : Option Context) (t : Nat) (names : List String) :
    ∀ (s s2 : BlockState) (e : Option ExecError),
      blocksInner exec validIdent fuel context t names s = some (s2, e) →
      ∀ k v, s.result.lookup k = some v → s2.result.lookup k = some v := by
  induction names with
  | nil =>
    intro s s2 e h k v hk
    simp only [blocksInner, Option.some.injEq, Prod.mk.injEq] at h
    rw [← h.1]
    exact hk
  | cons name rest ih =>
    intro s s2 e h k v hk
    rw [blocksInner] at h
    split at h
    · exact ih s s2 e h k v hk
    · split at h
      · exact ih s s2 e h k v hk
      · rename_i bw hbw
        cases hc : ensureContext validIdent fuel context t (ensureWriter s) with
        | none => simp [hc] at h
        | some r =>
          obtain ⟨s3, e3⟩ := r
          have hres : s3.result = s.result := by
            rw [ensureContext_result validIdent fuel context t _ s3 e3 hc]
            exact (ensureWriter_result s).1
          have hk3 : s3.result.lookup k = some v := by rw [hres]; exact hk
          cases e3 with
          | some err =>
            simp only [hc, Option.some.injEq, Prod.mk.injEq] at h
            rw [← h.1]
            exact hk3
          | none =>
            simp only [hc] at h
            have hk4 := executeBlock_keeps exec name bw s3 k v hk3
            cases hx : executeBlock exec name bw s3 with
            | mk s4 e4 =>
              rw [hx] at h hk4
              cases e4 with
              | some bErr =>
                simp only [Option.some.injEq, Prod.mk.injEq] at h
                rw [← h.1]
                exact hk4
              | none => exact ih s4 s2 e h k v hk4

/-- The outer loop of `ExecuteBlocks` keeps every entry that the map `result` already has:
an entry recorded at a more-derived level is not overwritten at an ancestor. -/
theorem blocksOuter_keeps (exec : NodeExec) (validIdent : String → Bool) (fuel : Nat)
    (context : Option Context) (blocks : List String) (parents : List Nat) :
    ∀ (st : Store) (pools : Pools) (result : List (String × GoString))
      (st2 : Store) (pools2 : Pools) (result2 : List (String × GoString))
      (e : Option ExecError),
      blocksOuter exec validIdent fuel context blocks parents st pools result
        = some (st2, pools2, result2, e) →
      ∀ k v, result.lookup k = some v → result2.lookup k = some v := by
  induction parents with
  | nil =>
    intro st pools result st2 pools2 result2 e h k v hk
    simp only [blocksOuter, Option.some.injEq, Prod.mk.injEq] at h
    rw [← h.2.2.1]
    exact hk
  | cons t ts ih =>
    intro st pools result st2 pools2 result2 e h k v hk
    rw [blocksOuter] at h
    cases hi : blocksInner exec validIdent fuel context t blocks
        { st := st, pools := pools, btw := none, ctx := none, result := result } with
    | none => simp [hi] at h
    | some r =>
      obtain ⟨s, e1⟩ := r
      have hk1 := blocksInner_keeps exec validIdent fuel context t blocks _ s e1 hi k v hk
      cases e1 with
      | some err =>
        simp only [hi, Option.some.injEq, Prod.mk.injEq] at h
        rw [← h.2.2.1]
        exact hk1
      | none =>
        simp only [hi] at h
        split at h
        · simp only [Option.some.injEq, Prod.mk.injEq] at h
          rw [← h.2.2.1]
          exact hk1
        · exact ih _ _ _ _ _ _ _ h k v hk1

/-- C13: block-render precedence. For a child template `c` that defines the block `b` with
body `nc` (whatever its parent defines), `ExecuteBlocks(ctx, [b])` called on `c` returns the
map with the single entry `b`, holding the text written by the child's body `nc` executed
in the child's context; and the outer loop never changes an entry already recorded at a
more-derived level. -/
theorem ExecuteBlocks_child_precedence (exec : NodeExec) (validIdent : String → Bool)
    (fuel : Nat) (st : Store) (pools : Pools) (c : Nat) (context : Option Context)
    (b : String) (nc : Nat) (st1 : Store) (root : Nat) (ctx : ExecutionContext)
    (out : GoString)
    (hp : pools.Clean)
    (hc : (st c).blocks.lookup b = some nc)
    (hctx : newContextForExecution validIdent fuel st c context = some (st1, root, some ctx, none))
    (hexec : exec st1 nc ctx = (out, none)) :
    (ExecuteBlocks exec validIdent fuel st pools c context [b]).map (fun r => r.2.2)
      = some (some [(b, out)], none)
    ∧ (∀ (parents : List Nat) (st2 : Store) (pools2 : Pools)
        (result result3 : List (String × GoString)) (st3 : Store) (pools3 : Pools)
        (e : Option ExecError),
        blocksOuter exec validIdent fuel context [b] parents st2 pools2 result
          = some (st3, pools3, result3, e) →
        ∀ k v, result.lookup k = some v → result3.lookup k = some v) := by
  refine ⟨?_, fun parents st2 pools2 result result3 st3 pools3 e h =>
    blocksOuter_keeps exec validIdent fuel context [b] parents st2 pools2 result st3 pools3
      result3 e h⟩
  have hloop := (newContextForExecution_parent validIdent fuel st c context st1 root _ _ hctx).1
  obtain ⟨rest, hrest⟩ := collectParents_of_parentLoop st c [b] fuel c root hloop
  have hany : ([b].any fun block => ((st c).blocks.lookup block).isSome) = true := by
    simp [hc]
  rw [hany, if_pos rfl] at hrest
  have hw := (getBufferedTemplateWriter_clean pools hp).1
  have hinner : blocksInner exec validIdent fuel context c [b]
      { st := st, pools := pools, btw := none, ctx := none, result := [] }
      = some ({ st := st1, pools := (getBufferedTemplateWriter pools).2, btw := some [],
                ctx := some ctx, result := [(b, out)] }, none) := by
    simp [blocksInner, hc, ensureWriter, ensureContext, hctx, executeBlock, hexec, hw]
  simp [ExecuteBlocks, hrest, blocksOuter, hinner]

/-- Witness for C13: child and parent both define `b`; the entry is the child's body `5`. -/
theorem ExecuteBlocks_child_precedence_witness :
    (ExecuteBlocks numberExec (fun _ => true) 2 overrideStore ⟨[], []⟩ 0 none ["b"]).map
        (fun r => r.2.2) = some (some [("b", bytesOf "5")], none) :=
  (ExecuteBlocks_child_precedence numberExec (fun _ => true) 2 overrideStore ⟨[], []⟩ 0 none
    "b" 5 _ 1 ⟨1, []⟩ (bytesOf "5") ⟨by simp, by simp⟩ rfl rfl rfl).1

/-- C14 (the code at the failing input): the child template `0` defines no block and its
parent `1` defines the block `b`. `ExecuteBlocks(ctx, ["b"])` called on the child returns the
empty map and no error, while called on the parent it returns the entry for `b`. -/
theorem ExecuteBlocks_child_without_blocks :
    (twoLevelStore 0).parent = some 1
    ∧ (twoLevelStore 1).blocks.lookup "b" = some 7
    ∧ (ExecuteBlocks numberExec (fun _ => true) 5 twoLevelStore ⟨[], []⟩ 0 none ["b"]).map
        (fun r => r.2.2) = some (some [], none)
    ∧ (ExecuteBlocks numberExec (fun _ => true) 5 twoLevelStore ⟨[], []⟩ 1 none ["b"]).map
        (fun r => r.2.2) = some (some [("b", bytesOf "7")], none) := by
  refine ⟨by decide, by decide, by decide, by decide⟩


/-! ## Iteration and ordering -/

theorem foldl_stopped {σ : Type} (fn : σ → Nat → Nat → Value → Option Value → Bool × σ)
    (n : Nat) (l : List (Nat × Value × Option Value)) (s : σ) :
    l.foldl (fun (acc : Bool × σ) (x : Nat × Value × Option Value) =>
        if acc.1 then fn acc.2 x.1 n x.2.1 x.2.2 else acc) (false, s) = (false, s) := by
  induction l with
  | nil => rfl
  | cons a rest ih => simpa using ih

/-- The loop with early return makes the calls of the fold with a stop flag. -/
theorem itemLoop_eq_foldl {σ : Type} (fn : σ → Nat → Nat → Value → Option Value → Bool × σ)
    (n : Nat) (items : List (Value × Option Value)) :
    ∀ (i : Nat) (s : σ), itemLoop fn n i items s
      = ((items.enumFrom i).foldl
          (fun (acc : Bool × σ) (x : Nat × Value × Option Value) =>
            if acc.1 then fn acc.2 x.1 n x.2.1 x.2.2 else acc) (true, s)).2 := by
  induction items with
  | nil => intro i s; rfl
  | cons a rest ih =>
    intro i s
    obtain ⟨key, value⟩ := a
    simp only [itemLoop, List.enumFrom_cons, List.foldl_cons, if_true]
    cases hc : (fn s i n key value).1 with
    | true =>
      simp only [if_true]
      rw [ih (i + 1) (fn s i n key value).2]
      congr 2
      exact Prod.ext hc.symm rfl
    | false =>
      have : fn s i n key value = (false, (fn s i n key value).2) := Prod.ext hc rfl
      rw [this, foldl_stopped]
      simp

theorem itemLoop_eq_protocol {σ : Type}
    (fn : σ → Nat → Nat → Value → Option Value → Bool × σ) (empty : σ → σ)
    (items : List (Value × Option Value)) (s : σ) (h : items.length ≠ 0) :
    itemLoop fn items.length 0 items s = iterationProtocol fn empty items s := by
  unfold iterationProtocol
  rw [if_neg h, itemLoop_eq_foldl]
  rfl

theorem swapAt_length {α : Type} (l : List α) (i j : Nat) : (swapAt l i j).length = l.length := by
  unfold swapAt
  split <;> simp

theorem reverseRunesLoop_length : ∀ (fuel : Nat) (rs : List Nat) (i j : Nat),
    (reverseRunesLoop fuel rs i j).length = rs.length := by
  intro fuel
  induction fuel with
  | zero => intro rs i j; rfl
  | succ f ih =>
    intro rs i j
    simp only [reverseRunesLoop]
    split
    · rw [ih, swapAt_length]
    · rfl

theorem reverseItemsLoop_length (items : List Value) (n : Nat) :
    (reverseItemsLoop items n).length = items.length := by
  unfold reverseItemsLoop
  generalize List.range (n / 2) = idxs
  induction idxs generalizing items with
  | nil => rfl
  | cons a rest ih => simp only [List.foldl_cons]; rw [ih, swapAt_length]

theorem sortRunes_length (rs : List Nat) : (sortRunes rs).length = rs.length := by
  unfold sortRunes
  exact List.length_insertionSort _ _

theorem String_isSome_of_resolved (L : ExtLib) (v : Value) (d : GoVal)
    (h : v.getResolvedValue = some d) : (v.String L).isSome = true := by
  unfold Value.String
  rw [h]
  split
  · rfl
  · simp only []
    split
    · rfl
    · split <;> first | rfl | (split <;> rfl)

theorem Integer_isSome_of_resolved (L : ExtLib) (v : Value) (d : GoVal)
    (h : v.getResolvedValue = some d) : (v.Integer L).isSome = true := by
  unfold Value.Integer
  rw [h]
  simp only []
  split <;> first | rfl | (split <;> rfl)

theorem Float_isSome_of_resolved (L : ExtLib) (v : Value) (d : GoVal)
    (h : v.getResolvedValue = some d) : (v.Float L).isSome = true := by
  unfold Value.Float
  rw [h]
  simp only []
  split <;> first | rfl | (split <;> rfl)

/-- A comparison of two values that resolve does not panic. -/
theorem lessSwitch_isSome (L : ExtLib) (vi vj : Value) (di dj : GoVal)
    (hi : vi.getResolvedValue = some di) (hj : vj.getResolvedValue = some dj) :
    (lessSwitch L vi vj).isSome = true := by
  obtain ⟨si, hsi⟩ := Option.isSome_iff_exists.mp (String_isSome_of_resolved L vi di hi)
  obtain ⟨sj, hsj⟩ := Option.isSome_iff_exists.mp (String_isSome_of_resolved L vj dj hj)
  obtain ⟨ni, hni⟩ := Option.isSome_iff_exists.mp (Integer_isSome_of_resolved L vi di hi)
  obtain ⟨nj, hnj⟩ := Option.isSome_iff_exists.mp (Integer_isSome_of_resolved L vj dj hj)
  obtain ⟨fi, hfi⟩ := Option.isSome_iff_exists.mp (Float_isSome_of_resolved L vi di hi)
  obtain ⟨fj, hfj⟩ := Option.isSome_iff_exists.mp (Float_isSome_of_resolved L vj dj hj)
  unfold lessSwitch Value.IsInteger Value.IsFloat
  rw [hi, hj, hsi, hsj, hni, hnj, hfi, hfj]
  simp only []
  cases di <;> cases dj <;> rfl

/-- C20 (as stated, refuted): for the integer 10 and the float 9.5, `valuesList.Less` places
10 before 9.5, because the text `"10"` is less than the text `"9.500000"`, although 10
converted to float is not less than 9.5; and it does not place 9.5 before 10, although 9.5 is
less than 10 as floats. The sorted iteration over `[10, 9.5]` visits 10 and then 9.5. -/
theorem valuesListLess_mixed_counterexample :
    valuesListLess ExtLib.numeric (AsValue (.int .int 10))
        (AsValue (.float64 0x4023000000000000)) = some true
    ∧ float64Lt (float64OfInt 10) 0x4023000000000000 = false
    ∧ valuesListLess ExtLib.numeric (AsValue (.float64 0x4023000000000000))
        (AsValue (.int .int 10)) = some false
    ∧ float64Lt 0x4023000000000000 (float64OfInt 10) = true
    ∧ sprintfF64 0x4023000000000000 = bytesOf "9.500000"
    ∧ (AsValue (.slice [.int .int 10, .float64 0x4023000000000000])).IterateOrder
          ExtLib.numeric Runtime.small (recordKeys ExtLib.numeric) id false true []
        = some [some (bytesOf "10"), some (bytesOf "9.500000")] := by
  refine ⟨by decide, by decide, by decide, by decide, by decide, by decide⟩

/-- C20 (amended): the sort comparator compares an integer with a float by their texts. For
every integer element `a` and float element `b`, `valuesList.Less` places `a` before `b` iff
the text `a.String()` is bytewise less than the text `b.String()`, and `b` before `a` iff
`b.String()` is less than `a.String()`. -/
theorem valuesListLess_mixed (L : ExtLib) (vi vj : Value) (k : IntKind) (a : Int) (df : GoVal)
    (hi : vi.getResolvedValue = some (.int k a)) (hj : vj.getResolvedValue = some df)
    (hf : (∃ b, df = .float32 b) ∨ (∃ b, df = .float64 b)) :
    ∃ si sj, vi.String L = some si ∧ vj.String L = some sj
      ∧ valuesListLess L vi vj = some (bytesLt si sj)
      ∧ valuesListLess L vj vi = some (bytesLt sj si) := by
  obtain ⟨si, hsi⟩ := Option.isSome_iff_exists.mp (String_isSome_of_resolved L vi _ hi)
  obtain ⟨sj, hsj⟩ := Option.isSome_iff_exists.mp (String_isSome_of_resolved L vj _ hj)
  refine ⟨si, sj, hsi, hsj, ?_, ?_⟩
  · unfold valuesListLess lessSwitch Value.IsInteger Value.IsFloat
    rw [hi, hj, hsi, hsj]
    rcases hf with ⟨b, rfl⟩ | ⟨b, rfl⟩ <;> rfl
  · unfold valuesListLess lessSwitch Value.IsInteger Value.IsFloat
    rw [hi, hj, hsi, hsj]
    rcases hf with ⟨b, rfl⟩ | ⟨b, rfl⟩ <;> rfl

/-- Witness for C20 (amended): the integer 10 and the float 9.5. -/
theorem valuesListLess_mixed_witness :
    ∃ si sj, (AsValue (.int .int 10)).String ExtLib.numeric = some si
      ∧ (AsValue (.float64 0x4023000000000000)).String ExtLib.numeric = some sj
      ∧ valuesListLess ExtLib.numeric (AsValue (.int .int 10))
          (AsValue (.float64 0x4023000000000000)) = some (bytesLt si sj)
      ∧ valuesListLess ExtLib.numeric (AsValue (.float64 0x4023000000000000))
          (AsValue (.int .int 10)) = some (bytesLt sj si) :=
  valuesListLess_mixed ExtLib.numeric (AsValue (.int .int 10))
    (AsValue (.float64 0x4023000000000000)) .int 10 (.float64 0x4023000000000000) rfl rfl
    (Or.inr ⟨_, rfl⟩)

/-- The decoder gives code points outside the surrogate range only. -/
theorem decodeRune_valid (s0 : Nat) (rest : List Nat) :
    validRune (decodeRune s0 rest).1 = true := by
  unfold decodeRune validRune
  simp only [Bool.and_eq_true, decide_eq_true_eq, Bool.or_eq_true]
  split_ifs <;> (try omega)
  all_goals (split <;> (try simp only []) <;> (try split_ifs) <;> (try simp only []) <;> omega)

/-- Decoding the encoding of a valid rune gives the rune back and takes the bytes of the
encoding. -/
theorem decodeRune_encodeRune (r : Nat) (h : validRune r = true) (rest : List Nat) :
    ∃ s0 tl, encodeRune r ++ rest = s0 :: tl ∧ (decodeRune s0 tl).1 = r
      ∧ tl.drop ((decodeRune s0 tl).2 - 1) = rest := by
  unfold validRune at h
  simp only [Bool.and_eq_true, decide_eq_true_eq, Bool.or_eq_true] at h
  unfold encodeRune
  by_cases h1 : r < 0x80
  · refine ⟨r, rest, by simp [h1], ?_, ?_⟩ <;> simp [decodeRune, h1]
  rw [if_neg h1]
  by_cases h2 : r < 0x800
  · rw [if_pos h2]
    refine ⟨0xC0 + r / 64, (0x80 + r % 64) :: rest, rfl, ?_, ?_⟩
    all_goals
      unfold decodeRune
      simp only [Bool.and_eq_true, decide_eq_true_eq]
      rw [if_neg (by omega), if_neg (by omega), if_pos (by omega)]
      rw [if_pos (by omega)]
      first
        | (show _ = r; omega)
        | simp
  rw [if_neg h2]
  have h3 : ¬ ((0xD800 ≤ r ∧ r ≤ 0xDFFF) ∨ 0x10FFFF < r) := by omega
  rw [if_neg h3]
  by_cases h4 : r < 0x10000
  · rw [if_pos h4]
    refine ⟨0xE0 + r / 4096, (0x80 + r / 64 % 64) :: (0x80 + r % 64) :: rest, rfl, ?_, ?_⟩
    all_goals
      unfold decodeRune
      simp only [Bool.and_eq_true, decide_eq_true_eq]
      rw [if_neg (by omega), if_neg (by omega), if_neg (by omega), if_pos (by omega)]
      rw [if_pos (by split_ifs <;> omega)]
      first
        | (show _ = r; omega)
        | simp
  · rw [if_neg h4]
    refine ⟨0xF0 + r / 262144,
      (0x80 + r / 4096 % 64) :: (0x80 + r / 64 % 64) :: (0x80 + r % 64) :: rest, rfl, ?_, ?_⟩
    all_goals
      unfold decodeRune
      simp only [Bool.and_eq_true, decide_eq_true_eq]
      rw [if_neg (by omega), if_neg (by omega), if_neg (by omega), if_neg (by omega),
        if_pos (by omega)]
      rw [if_pos (by split_ifs <;> omega)]
      first
        | (show _ = r; omega)
        | simp

/-- The rune decoder does not depend on its fuel once the fuel covers the bytes. -/
theorem decodeRunesAux_fuel : ∀ (f g : Nat) (s : List Nat), s.length ≤ f → s.length ≤ g →
    decodeRunesAux f s = decodeRunesAux g s
  | 0, g, s, hf, _ => by
    have : s = [] := List.length_eq_zero.mp (by omega)
    subst this
    cases g <;> rfl
  | f + 1, 0, s, _, hg => by
    have : s = [] := List.length_eq_zero.mp (by omega)
    subst this
    rfl
  | f + 1, g + 1, [], _, _ => rfl
  | f + 1, g + 1, s0 :: rest, hf, hg => by
    unfold decodeRunesAux
    congr 1
    apply decodeRunesAux_fuel
    · simp only [List.length_drop, List.length_cons] at hf ⊢; omega
    · simp only [List.length_drop, List.length_cons] at hg ⊢; omega

/-- One step of `[]rune(s)`: the first rune, then the runes of the bytes behind it. -/
theorem decodeRunes_cons (s0 : Nat) (rest : List Nat) :
    decodeRunes (s0 :: rest)
      = (decodeRune s0 rest).1 :: decodeRunes (rest.drop ((decodeRune s0 rest).2 - 1)) := by
  unfold decodeRunes
  simp only [List.length_cons, decodeRunesAux]
  congr 1
  apply decodeRunesAux_fuel
  · simp only [List.length_drop]; omega
  · exact le_refl _

/-- Every rune of `[]rune(s)` is a valid rune. -/
theorem decodeRunesAux_valid : ∀ (f : Nat) (s : List Nat),
    ∀ r ∈ decodeRunesAux f s, validRune r = true
  | 0, _, r, h => by simp [decodeRunesAux] at h
  | _ + 1, [], r, h => by simp [decodeRunesAux] at h
  | f + 1, s0 :: rest, r, h => by
    simp only [decodeRunesAux, List.mem_cons] at h
    rcases h with rfl | h
    · exact decodeRune_valid s0 rest
    · exact decodeRunesAux_valid f _ r h

theorem decodeRunes_valid (s : GoString) : ∀ r ∈ decodeRunes s, validRune r = true :=
  decodeRunesAux_valid s.length s

/-- The conversion `[]rune(string(rs))` gives valid runes back. -/
theorem decodeRunes_encodeRunes : ∀ rs : List Nat, (∀ r ∈ rs, validRune r = true) →
    decodeRunes (encodeRunes rs) = rs
  | [], _ => rfl
  | r :: rs, h => by
    obtain ⟨s0, tl, he, h1, h2⟩ :=
      decodeRune_encodeRune r (h r (List.mem_cons_self _ _)) (encodeRunes rs)
    have : encodeRunes (r :: rs) = s0 :: tl := by
      rw [← he]; simp [encodeRunes]
    rw [this, decodeRunes_cons, h1, h2,
      decodeRunes_encodeRunes rs (fun x hx => h x (List.mem_cons_of_mem _ hx))]

/-- The text of one rune is the text of the list of that rune. -/
theorem encodeRunes_singleton (r : Nat) : encodeRunes [r] = encodeRune r := by
  simp [encodeRunes]

theorem sliceList_length {α : Type} (l : List α) (i j : Nat) (hij : i ≤ j) (hj : j ≤ l.length) :
    (sliceList l i j).length = j - i := by
  unfold sliceList
  rw [List.length_take, List.length_drop]
  omega

theorem sliceList_mem {α : Type} (l : List α) (i j : Nat) (x : α) (h : x ∈ sliceList l i j) :
    x ∈ l :=
  List.mem_of_mem_drop (List.mem_of_mem_take h)

theorem sliceList_succ {α : Type} (l : List α) (i : Nat) (hi : i < l.length) :
    sliceList l i (i + 1) = [l.get ⟨i, hi⟩] := by
  unfold sliceList
  rw [List.drop_eq_getElem_cons hi, Nat.add_sub_cancel_left]
  rfl

/-- The ASCII code of a decimal digit. -/
theorem digitChar_toNat (k : Nat) (hk : k < 10) : (Nat.digitChar k).toNat = 48 + k := by
  interval_cases k <;> rfl

/-- Reading the digits that `Nat.toDigitsCore` writes in front of `ds` continues the reading
of `ds` from the number written. -/
theorem toDigitsCore_parse : ∀ (fuel n : Nat) (ds : List Char), n < fuel →
    ((Nat.toDigitsCore 10 fuel n ds).map Char.toNat).foldl (fun acc d => acc * 10 + (d - 48)) 0
      = (ds.map Char.toNat).foldl (fun acc d => acc * 10 + (d - 48)) n
    ∧ (((ds.map Char.toNat).all (fun d => 48 ≤ d && d ≤ 57) = true) →
        ((Nat.toDigitsCore 10 fuel n ds).map Char.toNat).all (fun d => 48 ≤ d && d ≤ 57) = true)
    ∧ Nat.toDigitsCore 10 fuel n ds ≠ []
  | 0, _, _, h => by omega
  | fuel + 1, n, ds, h => by
    have hd := digitChar_toNat (n % 10) (Nat.mod_lt _ (by decide))
    unfold Nat.toDigitsCore
    simp only []
    by_cases h0 : n / 10 = 0
    · rw [if_pos h0]
      have hn : n % 10 = n := by omega
      refine ⟨?_, ?_, by simp⟩
      · simp only [List.map_cons, List.foldl_cons, hd]
        congr 1
        omega
      · intro hall
        simp only [List.map_cons, List.all_cons, hd, Bool.and_eq_true, decide_eq_true_eq]
        exact ⟨⟨by omega, by omega⟩, hall⟩
    · rw [if_neg h0]
      obtain ⟨ih1, ih2, ih3⟩ :=
        toDigitsCore_parse fuel (n / 10) (Nat.digitChar (n % 10) :: ds) (by omega)
      refine ⟨?_, ?_, ih3⟩
      · rw [ih1]
        simp only [List.map_cons, List.foldl_cons, hd]
        congr 1
        omega
      · intro hall
        apply ih2
        simp only [List.map_cons, List.all_cons, hd, Bool.and_eq_true, decide_eq_true_eq]
        exact ⟨⟨by omega, by omega⟩, hall⟩

/-- Reading the decimal digits of a number gives the number. -/
theorem parseDigits_natDigits (n : Nat) : parseDigits (natDigits n) = some n := by
  obtain ⟨h1, h2, h3⟩ := toDigitsCore_parse (n + 1) n [] (by omega)
  unfold parseDigits natDigits Nat.toDigits
  rw [if_pos ⟨by simpa using h3, h2 rfl⟩, h1]
  rfl

/-- The decimal digits of a number start with a digit, not with a sign. -/
theorem natDigits_head (n : Nat) :
    ∃ d ds, natDigits n = d :: ds ∧ 48 ≤ d ∧ d ≤ 57 := by
  obtain ⟨-, h2, h3⟩ := toDigitsCore_parse (n + 1) n [] (by omega)
  have hall := h2 rfl
  unfold natDigits Nat.toDigits
  cases hc : Nat.toDigitsCore 10 (n + 1) n [] with
  | nil => exact absurd hc h3
  | cons c cs =>
    rw [hc] at hall
    simp only [List.map_cons, List.all_cons, Bool.and_eq_true, decide_eq_true_eq] at hall
    exact ⟨c.toNat, cs.map Char.toNat, rfl, hall.1.1, hall.1.2⟩

/-- The conversion `int(f)` of a float with the exponent field `e` between 1023 and 1075 and
the mantissa field `m`, for either sign bit. -/
theorem intOfFloat64_fields (e m : Nat) (h1 : 1023 ≤ e) (h2 : e ≤ 1075) (hm : m < 2^52) :
    intOfFloat64 (e * 2^52 + m) = (((m + 2^52) / 2^(1075 - e) : Nat) : Int)
    ∧ intOfFloat64 (2^63 + (e * 2^52 + m)) = -(((m + 2^52) / 2^(1075 - e) : Nat) : Int) := by
  have a1 : (e * 2^52 + m) / 2^63 % 2 = 0 := by norm_num at hm ⊢; omega
  have a2 : (e * 2^52 + m) / 2^52 % 2048 = e := by norm_num at hm ⊢; omega
  have a3 : (e * 2^52 + m) % 2^52 = m := by norm_num at hm ⊢; omega
  have b1 : (2^63 + (e * 2^52 + m)) / 2^63 % 2 = 1 := by norm_num at hm ⊢; omega
  have b2 : (2^63 + (e * 2^52 + m)) / 2^52 % 2048 = e := by norm_num at hm ⊢; omega
  have b3 : (2^63 + (e * 2^52 + m)) % 2^52 = m := by norm_num at hm ⊢; omega
  have c1 : ¬ e < 1023 := by omega
  have c2 : ¬ 1086 ≤ e := by omega
  unfold intOfFloat64
  simp only [a1, a2, a3, b1, b2, b3, if_neg c1, if_pos h2, if_neg c2]
  exact ⟨by simp, by simp⟩

/-- The conversion `int(float64(n))` gives `n` back for a natural number of at most `2^53`,
with either sign bit. -/
theorem intOfFloat64_float64OfNat (n : Nat) (hn : n ≤ 2^53) :
    intOfFloat64 (float64OfNat n) = n ∧ intOfFloat64 (2^63 + float64OfNat n) = -(n : Int) := by
  by_cases h0 : n = 0
  · subst h0
    exact ⟨by decide, by decide⟩
  have hs := highBit_spec 64 n (by omega) (by norm_num at hn ⊢; omega)
  by_cases h53 : n = 2^53
  · subst h53
    exact ⟨by decide, by decide⟩
  have hk : highBit 64 n ≤ 52 := by
    by_contra hc
    have : 2 ^ 53 ≤ 2 ^ highBit 64 n := Nat.pow_le_pow_right (by decide) (by omega)
    omega
  unfold float64OfNat
  rw [if_neg h0, if_pos hk]
  generalize highBit 64 n = k at hs hk
  obtain ⟨h1, h2, -⟩ := hs
  have hp : 2 ^ k * 2 ^ (52 - k) = 2 ^ 52 := by
    rw [← pow_add]; congr 1; omega
  have hpos : 0 < 2 ^ (52 - k) := Nat.pow_pos (by decide)
  have hm : (n - 2 ^ k) * 2 ^ (52 - k) < 2 ^ 52 := by
    rw [← hp]
    apply Nat.mul_lt_mul_of_pos_right _ hpos
    rw [pow_succ] at h2
    omega
  have hsum : (n - 2 ^ k) * 2 ^ (52 - k) + 2 ^ 52 = n * 2 ^ (52 - k) := by
    rw [Nat.sub_mul, hp]
    have : 2 ^ 52 ≤ n * 2 ^ (52 - k) := by
      rw [← hp]; exact Nat.mul_le_mul_right _ h1
    omega
  have hf := intOfFloat64_fields (1023 + k) ((n - 2 ^ k) * 2 ^ (52 - k)) (by omega)
    (by omega) hm
  have he : 1075 - (1023 + k) = 52 - k := by omega
  rw [hsum, he, Nat.mul_div_cancel _ hpos] at hf
  exact hf

/-- `sortedKeys.Less` compares the texts that `reflect.Value.String()` gives for the two keys,
whatever their kind: the Value it builds holds a `reflect.Value`, which is neither an integer
nor a float. -/
theorem sortedKeysLess_eq (L : ExtLib) (R : Runtime) (a b : GoVal) :
    sortedKeysLess L R a b
      = some (bytesLt (reflectValueString R a) (reflectValueString R b)) := rfl

/-- C21 (the code at the failing input): a map with the integer keys 3 and 1, whose keys
`MapKeys` lists in the order 3, 1. `sortedKeys.Less` is false for the keys 1 and 3 in both
orders, since both have the text `<int Value>`, and the sorted iteration calls `onItem` with
the key 3 and then with the key 1. The same map with the string keys `"b"` and `"a"` is
visited in the order `"a"`, `"b"`. -/
theorem IterateOrder_sorted_int_keys :
    sortedKeysLess ExtLib.trivial Runtime.small (.int .int 1) (.int .int 3) = some false
    ∧ sortedKeysLess ExtLib.trivial Runtime.small (.int .int 3) (.int .int 1) = some false
    ∧ reflectValueString Runtime.small (.int .int 1) = bytesOf "<int Value>"
    ∧ (AsValue (.map [(.int .int 3, .str (bytesOf "c")), (.int .int 1, .str (bytesOf "a"))])).IterateOrder
        ExtLib.trivial Runtime.small (recordKeys ExtLib.trivial) id false true []
        = some [some (bytesOf "3"), some (bytesOf "1")]
    ∧ (AsValue (.map [(.str (bytesOf "b"), .int .int 2),
          (.str (bytesOf "a"), .int .int 1)])).IterateOrder
        ExtLib.trivial Runtime.small (recordKeys ExtLib.trivial) id false true []
        = some [some (bytesOf "a"), some (bytesOf "b")] := by
  refine ⟨by decide, by decide, by decide, by decide, by decide⟩

/-- The result of `Integer()` for an integer datum within the range of its type. -/
theorem Integer_of_int (L : ExtLib) (v : Value) (k : IntKind) (n : Int)
    (h : v.getResolvedValue = some (.int k n)) (hr : k.inRange n = true) :
    v.Integer L = some (toInt64 n) := by
  unfold Value.Integer
  rw [h]
  cases k <;> simp only []
  all_goals
    simp only [IntKind.inRange, Bool.and_eq_true, decide_eq_true_eq] at hr
    rw [toInt64_of_inRange n (by omega) (by omega)]

/-- `EqualValueTo` on two integer datums compares the two results of `Integer()`. -/
theorem EqualValueTo_of_int (L : ExtLib) (X : Reflection) (v w : Value) (ka kb : IntKind)
    (a b : Int) (hv : v.getResolvedValue = some (.int ka a))
    (hw : w.getResolvedValue = some (.int kb b))
    (ha : ka.inRange a = true) (hb : kb.inRange b = true) :
    v.EqualValueTo L X w = some (decide (toInt64 a = toInt64 b)) := by
  unfold Value.EqualValueTo
  simp only [Value.IsInteger, hv, hw, Integer_of_int L v ka a hv ha,
    Integer_of_int L w kb b hw hb]

/-- C22 (as stated, refuted): the `uint64` datum `2^64 - 1` and the `int` datum `-1` denote
different integers, and `EqualValueTo` is true for them, in both directions. -/
theorem EqualValueTo_uint64_counterexample :
    (AsValue (.int .uint64 18446744073709551615)).EqualValueTo ExtLib.trivial
        Reflection.scalars (AsValue (.int .int (-1))) = some true
    ∧ (AsValue (.int .int (-1))).EqualValueTo ExtLib.trivial
        Reflection.scalars (AsValue (.int .uint64 18446744073709551615)) = some true
    ∧ IntKind.uint64.inRange 18446744073709551615 = true
    ∧ IntKind.int.inRange (-1) = true
    ∧ (18446744073709551615 : Int) ≠ -1 := by
  refine ⟨by decide, by decide, by decide, by decide, by decide⟩

/-- C22 (amended): for two Values that resolve to integer datums `a` and `b` of any of the
ten integer kinds, `EqualValueTo` returns, and it is true if and only if `a` and `b` are
equal after the conversion to the 64-bit `int` that `Integer()` makes; when neither is an
unsigned number of `2^63` or more, that is if and only if `a` and `b` are the same integer. -/
theorem EqualValueTo_integers (L : ExtLib) (X : Reflection) (v w : Value) (ka kb : IntKind)
    (a b : Int) (hv : v.getResolvedValue = some (.int ka a))
    (hw : w.getResolvedValue = some (.int kb b))
    (ha : ka.inRange a = true) (hb : kb.inRange b = true) :
    ∃ r, v.EqualValueTo L X w = some r
      ∧ (r = true ↔ toInt64 a = toInt64 b)
      ∧ (a < 2^63 → b < 2^63 → (r = true ↔ a = b)) := by
  refine ⟨decide (toInt64 a = toInt64 b), EqualValueTo_of_int L X v w ka kb a b hv hw ha hb,
    by simp, ?_⟩
  intro h1 h2
  have ba := inRange_bounds ka a ha
  have bb := inRange_bounds kb b hb
  rw [toInt64_of_inRange a ba.1 h1, toInt64_of_inRange b bb.1 h2]
  simp

/-- Witness for C22: the `uint8` datum 5 and the `int64` datum 5. -/
theorem EqualValueTo_integers_witness :
    ∃ r, (AsValue (.int .uint8 5)).EqualValueTo ExtLib.trivial Reflection.scalars
          (AsValue (.int .int64 5)) = some r
      ∧ (r = true ↔ toInt64 5 = toInt64 5)
      ∧ ((5 : Int) < 2^63 → (5 : Int) < 2^63 → (r = true ↔ (5 : Int) = 5)) :=
  EqualValueTo_integers ExtLib.trivial Reflection.scalars (AsValue (.int .uint8 5))
    (AsValue (.int .int64 5)) .uint8 .int64 5 5 rfl rfl (by decide) (by decide)

/-- For a datum of kind array or slice, `rv.Len()` is the number of its elements. -/
theorem reflectLen_eq_elems : ∀ d : GoVal, (d.kind = .array ∨ d.kind = .slice) →
    d.reflectLen = d.elems.length
  | .named _ _ v, h => by
    simpa [GoVal.reflectLen, GoVal.elems] using
      reflectLen_eq_elems v (by simpa [GoVal.kind] using h)
  | .array _, _ => rfl
  | .slice _, _ => rfl
  | .nil, h | .str _, h | .int _ _, h | .float32 _, h | .float64 _, h | .bool _, h
  | .time _, h | .nilPtr _, h | .ptr _ _ _, h | .map _, h | .chan _, h | .struct _, h
  | .misc _, h => by simp [GoVal.kind] at h

/-- For a datum of kind map, `rv.Len()` is the number of its entries. -/
theorem reflectLen_eq_entries : ∀ d : GoVal, d.kind = .map → d.reflectLen = d.entries.length
  | .named _ _ v, h => by
    simpa [GoVal.reflectLen, GoVal.entries] using
      reflectLen_eq_entries v (by simpa [GoVal.kind] using h)
  | .map _, _ => rfl
  | .nil, h | .str _, h | .int _ _, h | .float32 _, h | .float64 _, h | .bool _, h
  | .time _, h | .nilPtr _, h | .ptr _ _ _, h | .array _, h | .slice _, h | .chan _, h
  | .struct _, h | .misc _, h => by simp [GoVal.kind] at h

/-- The body of `Index` for a Value that resolves to a string. -/
theorem Index_of_string (v : Value) (s : GoString) (i : Int)
    (h : v.getResolvedValue = some (.str s)) :
    v.Index i =
      if i < (decodeRunes s).length then
        (if i < 0 then none
         else some (AsValue (.str (encodeRune ((decodeRunes s).getD i.toNat 0)))))
      else some (AsValue (.str [])) := by
  unfold Value.Index
  rw [h]

/-- The body of `Index` for a Value that resolves to a datum of kind array or slice. -/
theorem Index_of_sequence (v : Value) (d : GoVal) (i : Int)
    (h : v.getResolvedValue = some d) (hk : d.kind = .array ∨ d.kind = .slice) :
    v.Index i =
      if i ≥ d.elems.length then some (AsValue .nil)
      else if i < 0 then none
      else some (AsValue (d.elems.getD i.toNat .nil)) := by
  have hlen := reflectLen_eq_elems d hk
  unfold Value.Index
  rw [h]
  rcases hk with hk | hk <;> cases d <;> simp_all [GoVal.kind]

/-- C23 (as stated, refuted): for the string `"ab"` of two runes and the index 5, `Index`
returns the empty string, for which `IsNil` is false; for the index -1 it panics, for the
string as for the sequence `[1, 2]`. -/
theorem Index_out_of_range_counterexample :
    ((AsValue (.str (bytesOf "ab"))).Index 5).map (fun w => w.String ExtLib.trivial)
        = some (some [])
    ∧ ((AsValue (.str (bytesOf "ab"))).Index 5).map Value.IsNil = some false
    ∧ ((AsValue (.str (bytesOf "ab"))).Index (-1)).isNone = true
    ∧ ((AsValue (.slice [.int .int 1, .int .int 2])).Index (-1)).isNone = true := by
  refine ⟨by decide, by decide, by decide, by decide⟩

/-- C23 (amended): for a Value that resolves to a sequence with `n` elements, `Index(i)`
returns the nil Value for every `i >= n` and the `i`-th element for `0 <= i < n`; for a Value
that resolves to a string of `n` runes, `Index(i)` returns the empty string, which is not
nil, for every `i >= n` and the `i`-th rune as a one-rune string for `0 <= i < n`. -/
theorem Index_in_and_out_of_range (v : Value) (d : GoVal) (h : v.getResolvedValue = some d) :
    (∀ s, d = .str s →
      (∀ i : Int, ((decodeRunes s).length : Int) ≤ i →
          v.Index i = some (AsValue (.str [])) ∧ (AsValue (.str [])).IsNil = false)
      ∧ (∀ (k : Nat) (hk : k < (decodeRunes s).length),
          v.Index k = some (AsValue (.str (encodeRune ((decodeRunes s).get ⟨k, hk⟩))))))
    ∧ ((d.kind = .array ∨ d.kind = .slice) →
      (∀ i : Int, (d.elems.length : Int) ≤ i →
          v.Index i = some (AsValue .nil) ∧ (AsValue .nil).IsNil = true)
      ∧ (∀ (k : Nat) (hk : k < d.elems.length),
          v.Index k = some (AsValue (d.elems.get ⟨k, hk⟩)))) := by
  refine ⟨?_, ?_⟩
  · rintro s rfl
    refine ⟨fun i hi => ⟨?_, rfl⟩, fun k hk => ?_⟩
    · rw [Index_of_string v s i h, if_neg (by omega)]
    · rw [Index_of_string v s k h, if_pos (by omega), if_neg (by omega)]
      simp [List.getElem?_eq_getElem hk]
  · intro hk
    refine ⟨fun i hi => ⟨?_, rfl⟩, fun k hk' => ?_⟩
    · rw [Index_of_sequence v d i h hk, if_pos (by omega)]
    · rw [Index_of_sequence v d k h hk, if_neg (by omega), if_neg (by omega)]
      simp [List.getElem?_eq_getElem hk']

/-- Witness for C23: the index 5 in the string `"ab"`. -/
theorem Index_in_and_out_of_range_witness :
    (AsValue (.str (bytesOf "ab"))).Index 5 = some (AsValue (.str []))
    ∧ (AsValue (.str [])).IsNil = false :=
  ((Index_in_and_out_of_range (AsValue (.str (bytesOf "ab"))) (.str (bytesOf "ab")) rfl).1
    (bytesOf "ab") rfl).1 5 (by decide)

/-- The datum after `rv.Slice(i, j)` is of kind slice again and holds the elements `i` to
`j - 1`. -/
theorem reslice_spec (i j : Nat) : ∀ d : GoVal, d.kind = .slice →
    (d.reslice i j).kind = .slice ∧ (d.reslice i j).elems = sliceList d.elems i j
  | .named _ _ v, h => by
    simpa [GoVal.reslice, GoVal.elems, GoVal.kind] using
      reslice_spec i j v (by simpa [GoVal.kind] using h)
  | .slice _, _ => ⟨rfl, rfl⟩
  | .nil, h | .str _, h | .int _ _, h | .float32 _, h | .float64 _, h | .bool _, h
  | .time _, h | .nilPtr _, h | .ptr _ _ _, h | .map _, h | .chan _, h | .struct _, h
  | .array _, h | .misc _, h => by simp [GoVal.kind] at h

/-- A Value made from a datum that is not a pointer resolves to that datum. -/
theorem getResolvedValue_AsValue (d : GoVal) (hk : d.kind ≠ .pointer) :
    (AsValue d).getResolvedValue = some d := by
  cases d <;> simp_all [AsValue, Value.getResolvedValue, GoVal.kind]

/-- `Slice` on a string: the runes `i` to `j - 1`, of which there are `j - i`; and
`Slice(i, i+1)` is `Index(i)`. -/
theorem Slice_of_string (v : Value) (s : GoString) (i j : Nat)
    (h : v.getResolvedValue = some (.str s)) (hij : i ≤ j) (hj : j ≤ (decodeRunes s).length) :
    v.Slice i j = some (AsValue (.str (encodeRunes (sliceList (decodeRunes s) i j))))
    ∧ decodeRunes (encodeRunes (sliceList (decodeRunes s) i j)) = sliceList (decodeRunes s) i j
    ∧ (AsValue (.str (encodeRunes (sliceList (decodeRunes s) i j)))).Len = some (j - i)
    ∧ (j = i + 1 → v.Slice i j = v.Index i) := by
  have hs : v.Slice i j
      = some (AsValue (.str (encodeRunes (sliceList (decodeRunes s) i j)))) := by
    unfold Value.Slice
    rw [h]
    simp only [Int.toNat_ofNat]
    rw [if_pos (by omega)]
  have hrt : decodeRunes (encodeRunes (sliceList (decodeRunes s) i j))
      = sliceList (decodeRunes s) i j :=
    decodeRunes_encodeRunes _
      (fun r hr => decodeRunes_valid s r (sliceList_mem _ _ _ _ hr))
  refine ⟨hs, hrt, ?_, ?_⟩
  · show some (decodeRunes (encodeRunes (sliceList (decodeRunes s) i j))).length = some (j - i)
    rw [hrt, sliceList_length _ _ _ hij hj]
  · rintro rfl
    have hi : i < (decodeRunes s).length := by omega
    rw [hs, Index_of_string v s i h, if_pos (by omega), if_neg (by omega),
      sliceList_succ _ _ hi, encodeRunes_singleton]
    simp [List.getElem?_eq_getElem hi]

/-- `Slice` on a datum of kind slice: the elements `i` to `j - 1`, of which there are
`j - i`. -/
theorem Slice_of_slice (v : Value) (d : GoVal) (i j : Nat)
    (h : v.getResolvedValue = some d) (hk : d.kind = .slice) (hij : i ≤ j)
    (hj : j ≤ d.elems.length) :
    v.Slice i j = some (AsValue (d.reslice i j))
    ∧ (d.reslice i j).elems = sliceList d.elems i j
    ∧ (AsValue (d.reslice i j)).Len = some (j - i) := by
  have hlen := reflectLen_eq_elems d (Or.inr hk)
  have hspec := reslice_spec i j d hk
  refine ⟨?_, hspec.2, ?_⟩
  · unfold Value.Slice
    rw [h]
    cases d <;> simp_all [GoVal.kind]
  · have hres : (AsValue (d.reslice i j)).getResolvedValue = some (d.reslice i j) :=
      getResolvedValue_AsValue _ (by rw [hspec.1]; decide)
    have hl : (d.reslice i j).reflectLen = j - i := by
      rw [reflectLen_eq_elems _ (Or.inr hspec.1), hspec.2, sliceList_length _ _ _ hij hj]
    unfold Value.Len
    rw [hres]
    have hkind := hspec.1
    generalize d.reslice i j = e at hkind hl
    cases e <;> simp_all [GoVal.kind]

/-- `Slice` on nil and on a kind that cannot be sliced gives an empty list of length 0. -/
theorem Slice_of_unsliceable (v : Value) (d : GoVal) (i j : Int)
    (h : v.getResolvedValue = some d) (hs : ∀ s, d ≠ .str s) (h1 : d.kind ≠ .array)
    (h2 : d.kind ≠ .slice) :
    v.Slice i j = some (AsValue (.slice [])) ∧ (AsValue (.slice [])).Len = some 0 := by
  refine ⟨?_, rfl⟩
  unfold Value.Slice
  rw [h]
  cases d <;> simp_all [GoVal.kind]

/-- `Slice` panics on every datum of kind array. -/
theorem Slice_of_array (v : Value) (d : GoVal) (i j : Int)
    (h : v.getResolvedValue = some d) (hk : d.kind = .array) : v.Slice i j = none := by
  unfold Value.Slice
  rw [h]
  cases d <;> simp_all [GoVal.kind]

/-- C24 (the code at the failing input): the array `[3]int{1, 2, 3}` is a sequence of three
elements, and `Slice(0, 2)` on it panics, whether the Value holds the array or a pointer to
it; `Len` and `Index` work on the same Value, and `Slice(0, 2)` on the slice `[]int{1, 2, 3}`
gives a list of length 2. -/
theorem Slice_array_panics :
    ((AsValue (.array [.int .int 1, .int .int 2, .int .int 3])).Slice 0 2).isNone = true
    ∧ ((AsValue (.ptr (.other "[3]int") 1
          (.array [.int .int 1, .int .int 2, .int .int 3]))).Slice 0 2).isNone = true
    ∧ (AsValue (.array [.int .int 1, .int .int 2, .int .int 3])).Len = some 3
    ∧ ((AsValue (.array [.int .int 1, .int .int 2, .int .int 3])).Index 1).bind
        (fun w => w.Integer ExtLib.trivial) = some 2
    ∧ ((AsValue (.slice [.int .int 1, .int .int 2, .int .int 3])).Slice 0 2).bind
        Value.Len = some 2 := by
  refine ⟨by decide, by decide, by decide, by decide, by decide⟩

/-- C25 (as stated, refuted): a channel is neither a string, a sequence nor a mapping, and
`Len` of a channel that holds two queued elements is 2, not 0. -/
theorem Len_chan_counterexample :
    (AsValue (.chan 2)).Len = some 2 ∧ (GoVal.chan 2).kind = .chan := by
  refine ⟨by decide, by decide⟩

/-- C25 (amended): `Len` counts runes, not bytes. For a Value that resolves to a string `s`,
`Len` is the number of runes of `[]rune(s)`; for a sequence it is the number of elements, for
a mapping the number of entries, for a channel the number of queued elements, and for nil and
every other kind it is 0. The string made of `k` valid runes, of one to four bytes each, has
`Len` `k`. -/
theorem Len_counts (v : Value) (d : GoVal) (h : v.getResolvedValue = some d) :
    (∀ s, d = .str s → v.Len = some (decodeRunes s).length)
    ∧ ((d.kind = .array ∨ d.kind = .slice) → v.Len = some d.elems.length)
    ∧ (d.kind = .map → v.Len = some d.entries.length)
    ∧ (d.kind = .chan → v.Len = some d.reflectLen)
    ∧ ((∀ s, d ≠ .str s) → d.kind ≠ .array → d.kind ≠ .slice → d.kind ≠ .map →
        d.kind ≠ .chan → v.Len = some 0)
    ∧ (∀ rs : List Nat, (∀ r ∈ rs, validRune r = true) →
        (AsValue (.str (encodeRunes rs))).Len = some rs.length) := by
  refine ⟨?_, ?_, ?_, ?_, ?_, ?_⟩
  · rintro s rfl
    unfold Value.Len
    rw [h]
  · intro hk
    rw [← reflectLen_eq_elems d hk]
    unfold Value.Len
    rw [h]
    rcases hk with hk | hk <;> cases d <;> simp_all [GoVal.kind]
  · intro hk
    rw [← reflectLen_eq_entries d hk]
    unfold Value.Len
    rw [h]
    cases d <;> simp_all [GoVal.kind]
  · intro hk
    unfold Value.Len
    rw [h]
    cases d <;> simp_all [GoVal.kind]
  · intro hs h1 h2 h3 h4
    unfold Value.Len
    rw [h]
    cases d <;> simp_all [GoVal.kind]
  · intro rs hrs
    show some (decodeRunes (encodeRunes rs)).length = some rs.length
    rw [decodeRunes_encodeRunes rs hrs]

/-- Witness for C25: the string `"häß"` of three runes and five bytes. -/
theorem Len_counts_witness :
    (AsValue (.str (bytesOf "häß"))).Len = some (decodeRunes (bytesOf "häß")).length
    ∧ (decodeRunes (bytesOf "häß")).length = 3 ∧ (bytesOf "häß").length = 5 :=
  ⟨(Len_counts (AsValue (.str (bytesOf "häß"))) (.str (bytesOf "häß")) rfl).1 _ rfl,
    by decide, by decide⟩

/-- `EqualValueTo` returns when both Values resolve. -/
theorem EqualValueTo_isSome_of_resolved (L : ExtLib) (X : Reflection) (v w : Value)
    (dv dw : GoVal) (hv : v.getResolvedValue = some dv) (hw : w.getResolvedValue = some dw) :
    (v.EqualValueTo L X w).isSome = true := by
  obtain ⟨a, ha⟩ := Option.isSome_iff_exists.mp (Integer_isSome_of_resolved L v dv hv)
  obtain ⟨b, hb⟩ := Option.isSome_iff_exists.mp (Integer_isSome_of_resolved L w dw hw)
  unfold Value.EqualValueTo Value.IsInteger
  rw [hv, hw, ha, hb]
  cases dv <;> cases dw <;> rfl

/-- The loop of `Contains` returns when every comparison returns. -/
theorem containsLoop_isSome (L : ExtLib) (X : Reflection) (o : Value) :
    ∀ items : List GoVal, (∀ e ∈ items, (o.EqualValueTo L X (AsValue e)).isSome = true) →
      (containsLoop L X o items).isSome = true
  | [], _ => rfl
  | e :: rest, h => by
    obtain ⟨r, hr⟩ := Option.isSome_iff_exists.mp (h e (List.mem_cons_self _ _))
    unfold containsLoop
    rw [hr]
    cases r
    · exact containsLoop_isSome L X o rest (fun e he => h e (List.mem_cons_of_mem _ he))
    · rfl

/-- `Contains` returns when the base, the other Value and the elements of a sequence
resolve. -/
theorem Contains_isSome_of_resolved (L : ExtLib) (X : Reflection) (v o : Value) (d od : GoVal)
    (h : v.getResolvedValue = some d) (ho : o.getResolvedValue = some od)
    (hres : ∀ e ∈ d.elems, (AsValue e).getResolvedValue ≠ none) :
    (v.Contains L X o).isSome = true := by
  obtain ⟨t, ht⟩ := Option.isSome_iff_exists.mp (String_isSome_of_resolved L o od ho)
  have hloop : (containsLoop L X o d.elems).isSome = true := by
    apply containsLoop_isSome
    intro e he
    obtain ⟨de, hde⟩ := Option.ne_none_iff_exists'.mp (hres e he)
    exact EqualValueTo_isSome_of_resolved L X o (AsValue e) od de ho hde
  unfold Value.Contains
  rw [h, ht, ho]
  cases d <;> simp only [] <;> (try rfl) <;> split <;> (try rfl) <;> (try exact hloop) <;>
    (cases od <;> simp only [] <;> (try rfl) <;> split <;> rfl)

/-- `Contains` is false for a base that resolves to nil or to a number or a boolean, and for a
mapping when the other Value resolves to nil or to a datum of another type than the keys. -/
theorem Contains_false_cases (L : ExtLib) (X : Reflection) (v o : Value) (d : GoVal)
    (h : v.getResolvedValue = some d) :
    ((d = .nil ∨ d.kind = .int ∨ d.kind = .float ∨ d.kind = .bool) →
        v.Contains L X o = some false)
    ∧ (d.kind = .map → o.getResolvedValue = some .nil → v.Contains L X o = some false)
    ∧ (d.kind = .map → ∀ od, o.getResolvedValue = some od → X.keyTypeIs d od = false →
        v.Contains L X o = some false) := by
  unfold Value.Contains
  rw [h]
  refine ⟨?_, ?_, ?_⟩
  · rintro (rfl | hk | hk | hk)
    · rfl
    all_goals cases d <;> simp_all [GoVal.kind]
  · intro hk ho
    rw [ho]
    cases d <;> simp_all [GoVal.kind]
  · intro hk od ho hty
    rw [ho]
    cases d <;> simp_all [GoVal.kind] <;> cases od <;> simp_all

/-- C26 (the code at the failing input): `Contains` with a nil `*int` as the other Value
panics for a string base (`other.String()` dereferences the nil pointer in
`getResolvedValue`), and also for a struct, a mapping and a sequence base. -/
theorem Contains_nil_pointer_panics (L : ExtLib) (X : Reflection) :
    (AsValue (.str (bytesOf "abc"))).Contains L X (AsValue (.nilPtr (.int .int))) = none
    ∧ (AsValue (.struct [("A", .int .int 1)])).Contains L X (AsValue (.nilPtr (.int .int)))
        = none
    ∧ (AsValue (.map [(.int .int 1, .int .int 2)])).Contains L X
        (AsValue (.nilPtr (.int .int))) = none
    ∧ (AsValue (.slice [.int .int 1])).Contains L X (AsValue (.nilPtr (.int .int))) = none
    ∧ (AsValue (.nilPtr (.int .int))).getResolvedValue = none :=
  ⟨rfl, rfl, rfl, rfl, rfl⟩

/-- The test `isPrefixOf` is true exactly when the second list starts with the first. -/
theorem isPrefixOf_iff_append : ∀ (sub t : GoString),
    sub.isPrefixOf t = true ↔ ∃ suf, t = sub ++ suf
  | [], t => by simp
  | _ :: _, [] => by simp
  | a :: sub, b :: t => by
    simp only [List.isPrefixOf, Bool.and_eq_true, beq_iff_eq, isPrefixOf_iff_append sub t,
      List.cons_append, List.cons.injEq]
    constructor
    · rintro ⟨rfl, suf, rfl⟩
      exact ⟨suf, rfl, rfl⟩
    · rintro ⟨suf, rfl, rfl⟩
      exact ⟨rfl, suf, rfl⟩

/-- The function `strings.Contains` is true exactly when `sub` is a run of consecutive bytes
of `s`. -/
theorem bytesContains_iff (s sub : GoString) :
    bytesContains s sub = true ↔ ∃ pre suf, s = pre ++ sub ++ suf := by
  unfold bytesContains
  rw [List.any_eq_true]
  constructor
  · rintro ⟨t, ht, hp⟩
    obtain ⟨pre, rfl⟩ := (List.mem_tails t s).mp ht
    obtain ⟨suf, rfl⟩ := (isPrefixOf_iff_append sub t).mp hp
    exact ⟨pre, suf, by simp⟩
  · rintro ⟨pre, suf, rfl⟩
    exact ⟨sub ++ suf, (List.mem_tails _ _).mpr ⟨pre, by simp⟩,
      (isPrefixOf_iff_append sub _).mpr ⟨suf, rfl⟩⟩

/-- The loop of `Contains` is true exactly when a comparison with an element is true, when
every comparison returns. -/
theorem containsLoop_iff (L : ExtLib) (X : Reflection) (o : Value) :
    ∀ items : List GoVal, (∀ e ∈ items, (o.EqualValueTo L X (AsValue e)).isSome = true) →
      (containsLoop L X o items = some true
        ↔ ∃ e ∈ items, o.EqualValueTo L X (AsValue e) = some true)
  | [], _ => by simp [containsLoop]
  | e :: rest, h => by
    obtain ⟨r, hr⟩ := Option.isSome_iff_exists.mp (h e (List.mem_cons_self _ _))
    have ih := containsLoop_iff L X o rest (fun e he => h e (List.mem_cons_of_mem _ he))
    unfold containsLoop
    rw [hr]
    cases r
    · simp only []
      rw [ih]
      simp [hr]
    · simp [hr]

/-- The body of `Contains` for a Value that resolves to a datum of kind array or slice. -/
theorem Contains_of_sequence (L : ExtLib) (X : Reflection) (v o : Value) (d : GoVal)
    (h : v.getResolvedValue = some d) (hk : d.kind = .array ∨ d.kind = .slice) :
    v.Contains L X o = containsLoop L X o d.elems := by
  unfold Value.Contains
  rw [h]
  rcases hk with hk | hk <;> cases d <;> simp_all [GoVal.kind]

/-- C27: membership. For a Value `v` that resolves to a string `s` and a Value `o` with the
text `o.String()`, `v.Contains(o)` is true if and only if that text is a run of consecutive
bytes of `s`. For a Value `v` that resolves to a sequence and a Value `o` whose comparisons
with the elements return, `v.Contains(o)` returns, and it is true if and only if there is an
index `i < v.Len()` with `o.EqualValueTo(v.Index(i))`. -/
theorem Contains_membership (L : ExtLib) (X : Reflection) (v o : Value) (d : GoVal)
    (h : v.getResolvedValue = some d) :
    (∀ s t, d = .str s → o.String L = some t →
      (v.Contains L X o).isSome = true
      ∧ (v.Contains L X o = some true ↔ ∃ pre suf, s = pre ++ t ++ suf))
    ∧ ((d.kind = .array ∨ d.kind = .slice) →
      (∀ e ∈ d.elems, (o.EqualValueTo L X (AsValue e)).isSome = true) →
      ∃ n, v.Len = some n ∧ (v.Contains L X o).isSome = true
        ∧ (v.Contains L X o = some true
            ↔ ∃ i : Nat, i < n ∧ ∃ w, v.Index i = some w ∧ o.EqualValueTo L X w = some true)) := by
  refine ⟨?_, ?_⟩
  · rintro s t rfl ht
    have hc : v.Contains L X o = some (bytesContains s t) := by
      unfold Value.Contains
      rw [h, ht]
    rw [hc]
    refine ⟨rfl, ?_⟩
    rw [← bytesContains_iff]
    simp
  · intro hk hret
    have hlen : v.Len = some d.elems.length := by
      rw [← reflectLen_eq_elems d hk]
      unfold Value.Len
      rw [h]
      rcases hk with hk | hk <;> cases d <;> simp_all [GoVal.kind]
    refine ⟨d.elems.length, hlen, ?_, ?_⟩
    · rw [Contains_of_sequence L X v o d h hk]
      exact containsLoop_isSome L X o d.elems hret
    · rw [Contains_of_sequence L X v o d h hk, containsLoop_iff L X o d.elems hret]
      constructor
      · rintro ⟨e, he, heq⟩
        obtain ⟨i, hi, rfl⟩ := List.getElem_of_mem he
        refine ⟨i, hi, AsValue d.elems[i], ?_, heq⟩
        rw [Index_of_sequence v d i h hk, if_neg (by omega), if_neg (by omega)]
        simp [List.getElem?_eq_getElem hi]
      · rintro ⟨i, hi, w, hw, heq⟩
        rw [Index_of_sequence v d i h hk, if_neg (by omega), if_neg (by omega)] at hw
        simp only [Int.toNat_ofNat, List.getD_eq_getElem?_getD, List.getElem?_eq_getElem hi,
          Option.getD_some, Option.some.injEq] at hw
        subst hw
        exact ⟨d.elems[i], List.getElem_mem _, heq⟩

/-- Witness for C27: the string `"Hello, World!"` contains the text `"World"`, and the slice
`[1, 2]` of `int` datums contains the `int64` datum 2. -/
theorem Contains_membership_witness :
    (((AsValue (.str (bytesOf "Hello, World!"))).Contains ExtLib.trivial Reflection.scalars
        (AsValue (.str (bytesOf "World")))).isSome = true
      ∧ ((AsValue (.str (bytesOf "Hello, World!"))).Contains ExtLib.trivial Reflection.scalars
            (AsValue (.str (bytesOf "World"))) = some true
          ↔ ∃ pre suf, bytesOf "Hello, World!" = pre ++ bytesOf "World" ++ suf))
    ∧ ∃ n, (AsValue (.slice [.int .int 1, .int .int 2])).Len = some n
        ∧ ((AsValue (.slice [.int .int 1, .int .int 2])).Contains ExtLib.trivial
            Reflection.scalars (AsValue (.int .int64 2))).isSome = true
        ∧ ((AsValue (.slice [.int .int 1, .int .int 2])).Contains ExtLib.trivial
              Reflection.scalars (AsValue (.int .int64 2)) = some true
            ↔ ∃ i : Nat, i < n ∧ ∃ w,
                (AsValue (.slice [.int .int 1, .int .int 2])).Index i = some w
                ∧ (AsValue (.int .int64 2)).EqualValueTo ExtLib.trivial Reflection.scalars w
                    = some true) :=
  ⟨(Contains_membership ExtLib.trivial Reflection.scalars
      (AsValue (.str (bytesOf "Hello, World!"))) (AsValue (.str (bytesOf "World")))
      (.str (bytesOf "Hello, World!")) rfl).1 (bytesOf "Hello, World!") (bytesOf "World") rfl rfl,
   (Contains_membership ExtLib.trivial Reflection.scalars
      (AsValue (.slice [.int .int 1, .int .int 2])) (AsValue (.int .int64 2))
      (.slice [.int .int 1, .int .int 2]) rfl).2 (Or.inr rfl)
      (fun e he => by
        simp only [GoVal.elems, List.mem_cons, List.mem_singleton, List.not_mem_nil,
          or_false] at he
        rcases he with rfl | rfl <;> rfl)⟩

/-- The membership of the `int64` datum 2 in the slice `[1, 2]` of `int` datums, and of the
datum 3, which is not in it. -/
theorem Contains_sequence_examples :
    (AsValue (.slice [.int .int 1, .int .int 2])).Contains ExtLib.trivial Reflection.scalars
        (AsValue (.int .int64 2)) = some true
    ∧ (AsValue (.slice [.int .int 1, .int .int 2])).Contains ExtLib.trivial Reflection.scalars
        (AsValue (.int .int64 3)) = some false
    ∧ (AsValue (.map [(.str (bytesOf "a"), .int .int 1)])).Contains ExtLib.trivial
        Reflection.scalars (AsValue (.str (bytesOf "a"))) = some true
    ∧ (AsValue (.map [(.str (bytesOf "a"), .int .int 1)])).Contains ExtLib.trivial
        Reflection.scalars (AsValue (.int .int 1)) = some false
    ∧ (AsValue (.struct [("Name", .int .int 1)])).Contains ExtLib.trivial
        Reflection.scalars (AsValue (.str (bytesOf "Name"))) = some true := by
  refine ⟨by decide, by decide, by decide, by decide, by decide⟩

/-- C28: `Bool()` is not a truthiness test. For every Value that resolves to a datum `d`,
`Bool()` returns; it is true if and only if `d` is the boolean true, and it is false for
every datum that is not a boolean. -/
theorem Bool_only_true_boolean (v : Value) (d : GoVal) (h : v.getResolvedValue = some d) :
    ∃ r, v.Bool = some r ∧ (r = true ↔ d = .bool true) ∧ ((∀ b, d ≠ .bool b) → r = false) := by
  unfold Value.Bool
  rw [h]
  cases d <;> simp

/-- Witness for C28: the non-empty string `"True"`. -/
theorem Bool_only_true_boolean_witness :
    ∃ r, (AsValue (.str (bytesOf "True"))).Bool = some r
      ∧ (r = true ↔ GoVal.str (bytesOf "True") = .bool true)
      ∧ ((∀ b, GoVal.str (bytesOf "True") ≠ .bool b) → r = false) :=
  Bool_only_true_boolean (AsValue (.str (bytesOf "True"))) (.str (bytesOf "True")) rfl

/-- `Bool()` is false for a nonzero number, a non-empty string, a non-empty sequence, a struct
and nil, for which `IsTrue()` is true except for nil. -/
theorem Bool_false_examples :
    (AsValue (.int .int 7)).Bool = some false ∧ (AsValue (.int .int 7)).IsTrue = some true
    ∧ (AsValue (.str (bytesOf "True"))).Bool = some false
    ∧ (AsValue (.str (bytesOf "True"))).IsTrue = some true
    ∧ (AsValue (.slice [.int .int 1])).Bool = some false
    ∧ (AsValue (.slice [.int .int 1])).IsTrue = some true
    ∧ (AsValue (.struct [("A", .int .int 1)])).Bool = some false
    ∧ (AsValue (.struct [("A", .int .int 1)])).IsTrue = some true
    ∧ (AsValue .nil).Bool = some false
    ∧ (AsValue (.bool true)).Bool = some true := by
  refine ⟨by decide, by decide, by decide, by decide, by decide, by decide, by decide,
    by decide, by decide, by decide⟩

/-- The library instance parses the decimal text of an integer of magnitude at most `2^53`
to the float of that integer, and `Integer()` gives the integer back. -/
theorem Integer_of_formatDecimal (n : Int) (h1 : -2^53 ≤ n) (h2 : n ≤ 2^53) :
    (AsValue (.str (formatDecimal n))).Integer ExtLib.parsing = some n := by
  have hI : ∀ s, (AsValue (.str s)).Integer ExtLib.parsing
      = match parseIntegerLiteral s with
        | none => some 0
        | some f => some (intOfFloat64 f) := fun _ => rfl
  rw [hI]
  unfold formatDecimal
  by_cases hneg : n < 0
  · rw [if_pos hneg]
    have hm : n.natAbs ≤ 2^53 := by omega
    have hp : parseIntegerLiteral (45 :: natDigits n.natAbs)
        = some (2^63 + float64OfNat n.natAbs) := by
      simp only [parseIntegerLiteral, parseDigits_natDigits]
      rw [if_pos (by omega)]
      rfl
    rw [hp]
    simp only []
    rw [(intOfFloat64_float64OfNat n.natAbs hm).2]
    congr 1
    omega
  · rw [if_neg hneg]
    have hm : n.toNat ≤ 2^53 := by omega
    obtain ⟨d, ds, hd, hd1, hd2⟩ := natDigits_head n.toNat
    have hp : parseIntegerLiteral (natDigits n.toNat) = some (float64OfNat n.toNat) := by
      have hpd := parseDigits_natDigits n.toNat
      rw [hd] at hpd ⊢
      unfold parseIntegerLiteral
      split
      · rename_i heq
        simp only [List.cons.injEq] at heq
        omega
      · rename_i heq
        simp only [List.cons.injEq] at heq
        omega
      · simp only [hpd]
        rw [if_pos (by omega)]
    rw [hp]
    simp only []
    rw [(intOfFloat64_float64OfNat n.toNat hm).1]
    congr 1
    omega

/-- C29 (as stated, refuted): the string `"9007199254740993"` holds the decimal integer
literal `2^53 + 1`; `strconv.ParseFloat` rounds it to the float `2^53`, and `Integer()`
returns 9007199254740992, not that integer. -/
theorem Integer_literal_counterexample :
    (AsValue (.str (bytesOf "9007199254740993"))).Integer ExtLib.parsing
      = some 9007199254740992
    ∧ bytesOf "9007199254740993" = formatDecimal 9007199254740993
    ∧ parseIntegerLiteral (bytesOf "9007199254740993") = some (float64OfNat (2^53)) := by
  refine ⟨by decide, by decide, by decide⟩

/-- C29 (amended): on every Value that resolves, `Integer()` returns and gives 0 on failure.
For a Value `v` for which `getResolvedValue` returns a datum `d`, `Integer()` returns a
number; it returns 0 when `d` is a string that does not parse as a number and when `d` is
neither numeric nor a string; for an integer datum that fits in the 64-bit `int` it returns
that number; for a string that parses it returns the parsed `float64` converted to `int`, and
so, with the parsing and the conversion of Go, the decimal literal of an integer of magnitude
at most `2^53` gives that integer. -/
theorem Integer_total (L : ExtLib) (v : Value) (d : GoVal) (h : v.getResolvedValue = some d) :
    (v.Integer L).isSome = true
    ∧ (∀ s, d = .str s → L.parseFloat s = none → v.Integer L = some 0)
    ∧ ((∀ s, d ≠ .str s) → d.kind ≠ .int → d.kind ≠ .float → v.Integer L = some 0)
    ∧ (∀ k n, d = .int k n → k.inRange n = true → -2^63 ≤ n → n < 2^63 →
        v.Integer L = some n)
    ∧ (∀ s f, d = .str s → L.parseFloat s = some f → v.Integer L = some (L.floatToInt f))
    ∧ (∀ n : Int, -2^53 ≤ n → n ≤ 2^53 →
        (AsValue (.str (formatDecimal n))).Integer ExtLib.parsing = some n) := by
  refine ⟨Integer_isSome_of_resolved L v d h, ?_, ?_, ?_, ?_, Integer_of_formatDecimal⟩
  · rintro s rfl hp
    unfold Value.Integer
    rw [h]
    simp only [hp]
  · intro hs h1 h2
    unfold Value.Integer
    rw [h]
    cases d <;> simp_all [GoVal.kind]
  · rintro k n rfl hr h1 h2
    rw [Integer_of_int L v k n h hr, toInt64_of_inRange n h1 h2]
  · rintro s f rfl hp
    unfold Value.Integer
    rw [h]
    simp only [hp]

/-- Witness for C29: the string `"42"`. -/
theorem Integer_total_witness :
    (AsValue (.str (bytesOf "42"))).Integer ExtLib.parsing
        = some (ExtLib.parsing.floatToInt (float64OfNat 42))
    ∧ (AsValue (.str (formatDecimal 42))).Integer ExtLib.parsing = some 42 :=
  ⟨(Integer_total ExtLib.parsing (AsValue (.str (bytesOf "42"))) (.str (bytesOf "42"))
      rfl).2.2.2.2.1 (bytesOf "42") (float64OfNat 42) rfl (by decide),
   (Integer_total ExtLib.parsing (AsValue (.str (bytesOf "42"))) (.str (bytesOf "42"))
      rfl).2.2.2.2.2 42 (by decide) (by decide)⟩

/-- `Integer()` is 0 for an unparsable string, nil, a boolean, a struct, a mapping and a
sequence. -/
theorem Integer_zero_examples :
    (AsValue (.str (bytesOf "abc"))).Integer ExtLib.parsing = some 0
    ∧ (AsValue .nil).Integer ExtLib.parsing = some 0
    ∧ (AsValue (.bool true)).Integer ExtLib.parsing = some 0
    ∧ (AsValue (.struct [("A", .int .int 1)])).Integer ExtLib.parsing = some 0
    ∧ (AsValue (.map [(.int .int 1, .int .int 2)])).Integer ExtLib.parsing = some 0
    ∧ (AsValue (.slice [.int .int 1])).Integer ExtLib.parsing = some 0 := by
  refine ⟨by decide, by decide, by decide, by decide, by decide, by decide⟩

/-- C30 (as stated, refuted): for the boolean true, `AsValue(true).String()` is the text
`True`, and `Bool()` of the Value made from that text is false, not true. -/
theorem String_Bool_round_trip_counterexample :
    (AsValue (.bool true)).String ExtLib.trivial = some (bytesOf "True")
    ∧ (AsValue (.str (bytesOf "True"))).Bool = some false
    ∧ ((AsValue (.bool true)).String ExtLib.trivial).bind
        (fun s => (AsValue (.str s)).Bool) = some false := by
  refine ⟨by decide, by decide, by decide⟩

/-- C30 (amended): for every boolean `b`, `AsValue(AsValue(b).String()).Bool()` is false:
`Bool()` does not parse the texts `True` and `False`. The composition gives `b` back only for
`b = false`. -/
theorem String_Bool_round_trip (L : ExtLib) (b : Bool) :
    ((AsValue (.bool b)).String L).bind (fun s => (AsValue (.str s)).Bool) = some false
    ∧ (((AsValue (.bool b)).String L).bind (fun s => (AsValue (.str s)).Bool) = some b
        ↔ b = false) := by
  have h : ((AsValue (.bool b)).String L).bind (fun s => (AsValue (.str s)).Bool)
      = some false := by
    cases b <;> rfl
  rw [h]
  cases b <;> simp

/-- The predicates that call `getResolvedValue` give the same answer on a non-nil pointer to a
datum that is not itself a pointer as on the datum. -/
theorem kind_predicates_through_pointer (elem : GoType) (addr : Nat) (d : GoVal)
    (hd : d.kind ≠ .pointer) :
    (AsValue (.ptr elem addr d)).IsString = (AsValue d).IsString
    ∧ (AsValue (.ptr elem addr d)).IsBool = (AsValue d).IsBool
    ∧ (AsValue (.ptr elem addr d)).IsFloat = (AsValue d).IsFloat
    ∧ (AsValue (.ptr elem addr d)).IsInteger = (AsValue d).IsInteger
    ∧ (AsValue (.ptr elem addr d)).IsNumber = (AsValue d).IsNumber := by
  have h1 : (AsValue (.ptr elem addr d)).getResolvedValue = some d := rfl
  have h2 : (AsValue d).getResolvedValue = some d := getResolvedValue_AsValue d hd
  simp only [Value.IsString, Value.IsBool, Value.IsFloat, Value.IsInteger, Value.IsNumber, h1,
    h2, and_self]

/-- C31 (the code at the failing input): for a timestamp `t`, `IsTime` is true on the Value
of `t` and false on the Value of a non-nil pointer to `t`, although that Value resolves to
`t`; and `IsNil` is false on the Value of a nil pointer to a struct, although that Value
resolves to nil. `IsString` answers the same on a string and on a pointer to it. -/
theorem IsTime_IsNil_unresolved (t : GoTime) (addr : Nat) :
    (AsValue (.time t)).IsTime = true
    ∧ (AsValue (.ptr .time addr (.time t))).IsTime = false
    ∧ (AsValue (.ptr .time addr (.time t))).getResolvedValue = some (.time t)
    ∧ (AsValue (.nilPtr (.other "User"))).IsNil = false
    ∧ (AsValue (.nilPtr (.other "User"))).getResolvedValue = some .nil
    ∧ (AsValue (.ptr .string addr (.str (bytesOf "a")))).IsString = some true
    ∧ (AsValue (.str (bytesOf "a"))).IsString = some true :=
  ⟨rfl, rfl, rfl, rfl, rfl, rfl, rfl⟩

/-- Resolution is one level of dereference for a non-nil pointer, gives nil for a nil pointer
to a type outside the type switch, and returns a datum that is not a pointer unchanged. -/
theorem getResolvedValue_cases (elem : GoType) (addr : Nat) (d : GoVal) :
    (AsValue (.ptr elem addr d)).getResolvedValue = some d
    ∧ (elem.isCommon = false → (AsValue (.nilPtr elem)).getResolvedValue = some .nil)
    ∧ (d.kind ≠ .pointer → (AsValue d).getResolvedValue = some d) := by
  refine ⟨rfl, ?_, getResolvedValue_AsValue d⟩
  intro h
  simp [AsValue, Value.getResolvedValue, h]

/-- C32 (the code at the failing input): `getResolvedValue` panics on the Value of a nil
pointer to each of the fifteen types of its type switch, such as `(*int)(nil)`, where it
dereferences the pointer; on a nil pointer to a struct it returns nil. -/
theorem getResolvedValue_nil_pointer_panics :
    (AsValue (.nilPtr (.int .int))).getResolvedValue = none
    ∧ (∀ elem : GoType, elem.isCommon = true → (AsValue (.nilPtr elem)).getResolvedValue = none)
    ∧ (AsValue (.nilPtr .string)).getResolvedValue = none
    ∧ (AsValue (.nilPtr .float64)).getResolvedValue = none
    ∧ (AsValue (.nilPtr .bool)).getResolvedValue = none
    ∧ (AsValue (.nilPtr .time)).getResolvedValue = none
    ∧ (AsValue (.nilPtr (.other "User"))).getResolvedValue = some .nil := by
  refine ⟨rfl, ?_, rfl, rfl, rfl, rfl, rfl⟩
  intro elem h
  simp [AsValue, Value.getResolvedValue, h]

/-- C33: float negation is asymmetric. For a Value that resolves to a float of 32 or 64 bits,
`Negate` returns the Value of the `float64` 0.0 when the float is not zero and of the
`float64` 1.1 when it is zero; for a Value that resolves to an integer within the range of its
type, `Negate` returns the Value of the `int` 0 when the integer is not zero and of the `int`
1 when it is zero. The constant is the `float64` nearest to 1.1, which prints as `1.100000`,
and is not the float 1.0. -/
theorem Negate_float_asymmetric (L : ExtLib) (v : Value) (d : GoVal)
    (h : v.getResolvedValue = some d) :
    (∀ b, d = .float32 b →
        v.Negate L = some (AsValue (.float64 (if float32Nonzero b then 0 else float64_1_1))))
    ∧ (∀ b, d = .float64 b →
        v.Negate L = some (AsValue (.float64 (if float64Nonzero b then 0 else float64_1_1))))
    ∧ (∀ k n, d = .int k n → k.inRange n = true →
        v.Negate L = some (AsValue (.int .int (if n ≠ 0 then 0 else 1))))
    ∧ float64_1_1 = 1023 * 2^52 + (roundHalfEven (11 * 2^52) 10 - 2^52)
    ∧ sprintfF64 float64_1_1 = bytesOf "1.100000"
    ∧ float64_1_1 ≠ float64OfNat 1 := by
  refine ⟨?_, ?_, ?_, by decide, by decide, by decide⟩
  · rintro b rfl
    unfold Value.Negate Value.Float
    rw [h]
    simp only [float64Nonzero_float32To64]
    split <;> rfl
  · rintro b rfl
    unfold Value.Negate Value.Float
    rw [h]
    simp only []
    split <;> rfl
  · rintro k n rfl hr
    have hb := inRange_bounds k n hr
    unfold Value.Negate
    rw [h]
    simp only [Integer_of_int L v k n h hr]
    by_cases hn : n = 0
    · subst hn
      simp [toInt64]
    · have := (toInt64_ne_zero n hb.1 hb.2).mpr hn
      simp [this, hn]

/-- Witness for C33: the `float32` zero and the `float64` 2.5. -/
theorem Negate_float_asymmetric_witness :
    (AsValue (.float32 0)).Negate ExtLib.trivial
        = some (AsValue (.float64 (if float32Nonzero 0 then 0 else float64_1_1)))
    ∧ (AsValue (.float64 0x4004000000000000)).Negate ExtLib.trivial
        = some (AsValue (.float64 (if float64Nonzero 0x4004000000000000 then 0
            else float64_1_1))) :=
  ⟨(Negate_float_asymmetric ExtLib.trivial (AsValue (.float32 0)) (.float32 0) rfl).1 0 rfl,
   (Negate_float_asymmetric ExtLib.trivial (AsValue (.float64 0x4004000000000000))
      (.float64 0x4004000000000000) rfl).2.1 0x4004000000000000 rfl⟩

/-- A match of the last group: the tag, which ends the first `>` and holds no newline, and the
bytes behind it. -/
theorem tagClose_spec : ∀ (s t rest : List Nat), tagClose s = some (t, rest) →
    s = t ++ rest ∧ (∀ x ∈ t, x ≠ 10)
  | [], t, rest, h => by simp [tagClose] at h
  | c :: tl, t, rest, h => by
    unfold tagClose at h
    by_cases h1 : c = 62
    · rw [if_pos h1] at h
      simp only [Option.some.injEq, Prod.mk.injEq] at h
      obtain ⟨rfl, rfl⟩ := h
      subst h1
      simp
    · rw [if_neg h1] at h
      by_cases h2 : c = 10
      · rw [if_pos h2] at h
        cases h
      · rw [if_neg h2] at h
        cases hm : tagClose tl with
        | none => rw [hm] at h; cases h
        | some p =>
          obtain ⟨t0, rest0⟩ := p
          rw [hm] at h
          simp only [Option.some.injEq, Prod.mk.injEq] at h
          obtain ⟨rfl, rfl⟩ := h
          obtain ⟨e, hn⟩ := tagClose_spec tl t0 rest0 hm
          refine ⟨by rw [e]; rfl, ?_⟩
          intro x hx
          rcases List.mem_cons.mp hx with rfl | hx
          · exact h2
          · exact hn x hx

/-- A match of the whitespace run and the last group: the parts of the text. -/
theorem gapAndTag_spec (s ws t2 rest : List Nat) (h : gapAndTag s = some (ws, t2, rest)) :
    s = ws ++ (t2 ++ rest) ∧ ws ≠ [] ∧ (∀ x ∈ ws, isTagSpace x = true)
      ∧ ∃ t, t2 = 60 :: t ∧ tagClose (t ++ rest) = some (t, rest) := by
  unfold gapAndTag at h
  by_cases h0 : s.takeWhile isTagSpace = []
  · rw [if_pos h0] at h
    cases h
  · rw [if_neg h0] at h
    have hsplit := List.takeWhile_append_dropWhile isTagSpace s
    cases hd : s.dropWhile isTagSpace with
    | nil => rw [hd] at h; cases h
    | cons c r =>
      rw [hd] at h
      by_cases hc : c = 60
      · subst hc
        simp only [] at h
        cases hm : tagClose r with
        | none => rw [hm] at h; cases h
        | some p =>
          obtain ⟨t, rest0⟩ := p
          rw [hm] at h
          simp only [Option.some.injEq, Prod.mk.injEq] at h
          obtain ⟨rfl, rfl, rfl⟩ := h
          obtain ⟨e, -⟩ := tagClose_spec r t _ hm
          refine ⟨?_, h0, ?_, t, rfl, by rw [← e]; exact hm⟩
          · rw [List.cons_append, ← e, ← hd]
            exact hsplit.symm
          · intro x hx
            exact List.mem_takeWhile_imp hx
      · exfalso
        revert h
        split
        · rename_i heq
          simp only [List.cons.injEq] at heq
          exact absurd heq.1 hc
        · intro h; cases h

/-- A match of the pattern behind its first `<`: the parts of the text. The first group ends
in `>` and holds no newline. -/
theorem matchAfterOpen_spec : ∀ (tl t1 ws t2 rest : List Nat),
    matchAfterOpen tl = some (t1, ws, t2, rest) →
    tl = t1 ++ (ws ++ (t2 ++ rest)) ∧ (∀ x ∈ t1, x ≠ 10) ∧ (∃ t0, t1 = t0 ++ [62])
      ∧ ws ≠ [] ∧ (∀ x ∈ ws, isTagSpace x = true)
      ∧ ∃ t, t2 = 60 :: t ∧ tagClose (t ++ rest) = some (t, rest)
  | [], _, _, _, _, h => by simp [matchAfterOpen] at h
  | c :: tl, t1, ws, t2, rest, h => by
    have hrec : ∀ (hc : c ≠ 10),
        (match matchAfterOpen tl with
          | some (t1, m) => some (c :: t1, m)
          | none => none) = some (t1, ws, t2, rest) →
        c :: tl = t1 ++ (ws ++ (t2 ++ rest)) ∧ (∀ x ∈ t1, x ≠ 10) ∧ (∃ t0, t1 = t0 ++ [62])
          ∧ ws ≠ [] ∧ (∀ x ∈ ws, isTagSpace x = true)
          ∧ ∃ t, t2 = 60 :: t ∧ tagClose (t ++ rest) = some (t, rest) := by
      intro hc h
      cases hm : matchAfterOpen tl with
      | none => rw [hm] at h; cases h
      | some p =>
        obtain ⟨u1, uws, u2, urest⟩ := p
        rw [hm] at h
        simp only [Option.some.injEq, Prod.mk.injEq] at h
        obtain ⟨rfl, rfl, rfl, rfl⟩ := h
        obtain ⟨e, hn, ⟨t0, ht0⟩, hw⟩ := matchAfterOpen_spec tl u1 uws u2 urest hm
        refine ⟨by rw [e]; rfl, ?_, ⟨c :: t0, by rw [ht0]; rfl⟩, hw⟩
        intro x hx
        rcases List.mem_cons.mp hx with rfl | hx
        · exact hc
        · exact hn x hx
    unfold matchAfterOpen at h
    by_cases h1 : c = 10
    · rw [if_pos h1] at h
      cases h
    · rw [if_neg h1] at h
      by_cases h2 : c = 62
      · rw [if_pos h2] at h
        cases hg : gapAndTag tl with
        | none =>
          rw [hg] at h
          exact hrec h1 h
        | some p =>
          obtain ⟨gws, g2, grest⟩ := p
          rw [hg] at h
          simp only [Option.some.injEq, Prod.mk.injEq] at h
          obtain ⟨rfl, rfl, rfl, rfl⟩ := h
          obtain ⟨e, hw⟩ := gapAndTag_spec tl gws g2 grest hg
          refine ⟨by rw [e]; rfl, ?_, ⟨[], by rw [h2]; rfl⟩, hw⟩
          intro x hx
          simp only [List.mem_singleton] at hx
          rw [hx]
          exact h1
      · rw [if_neg h2] at h
        exact hrec h1 h

/-- A replacement pass does not lengthen the text, and a pass that keeps the length keeps the
text. -/
theorem replacePass_length : ∀ (fuel : Nat) (s : List Nat), s.length ≤ fuel →
    (replacePass fuel s).length ≤ s.length
    ∧ ((replacePass fuel s).length = s.length → replacePass fuel s = s)
  | 0, s, _ => ⟨le_refl _, fun _ => rfl⟩
  | _ + 1, [], _ => ⟨le_refl _, fun _ => rfl⟩
  | fuel + 1, c :: tl, hf => by
    have hkeep : (c :: replacePass fuel tl).length ≤ (c :: tl).length
        ∧ ((c :: replacePass fuel tl).length = (c :: tl).length →
            c :: replacePass fuel tl = c :: tl) := by
      obtain ⟨h1, h2⟩ := replacePass_length fuel tl (by simp at hf; omega)
      refine ⟨by simp only [List.length_cons]; omega, fun h => ?_⟩
      rw [h2 (by simp only [List.length_cons] at h; omega)]
    unfold replacePass
    by_cases hc : c = 60
    · rw [if_pos hc]
      cases hm : matchAfterOpen tl with
      | none => exact hkeep
      | some p =>
        obtain ⟨t1, ws, t2, rest⟩ := p
        obtain ⟨e, -, -, hws, -, -⟩ := matchAfterOpen_spec tl t1 ws t2 rest hm
        have hl : tl.length = t1.length + (ws.length + (t2.length + rest.length)) := by
          rw [e]; simp only [List.length_append]
        have hw : 0 < ws.length := List.length_pos.mpr hws
        obtain ⟨h1, -⟩ := replacePass_length fuel rest (by simp at hf; omega)
        simp only [List.length_cons, List.length_append]
        exact ⟨by omega, fun h => by omega⟩
    · rw [if_neg hc]
      exact hkeep

/-- Every changing pass strictly shortens the text. -/
theorem replaceTagGaps_shortens (s : GoString) :
    (replaceTagGaps s).length ≤ s.length
    ∧ (replaceTagGaps s ≠ s → (replaceTagGaps s).length < s.length) := by
  obtain ⟨h1, h2⟩ := replacePass_length s.length s (le_refl _)
  refine ⟨h1, fun hne => ?_⟩
  by_contra hc
  exact hne (h2 (by unfold replaceTagGaps at hc; omega))

/-- The loop returns when the fuel exceeds the length of the text; its result is not longer
than the text and is left unchanged by a pass. -/
theorem spacelessLoop_returns : ∀ (fuel : Nat) (s : GoString), s.length < fuel →
    ∃ r, spacelessLoop fuel s = some r ∧ replaceTagGaps r = r ∧ r.length ≤ s.length
  | 0, _, h => by omega
  | fuel + 1, s, h => by
    unfold spacelessLoop
    by_cases hs : s = replaceTagGaps s
    · rw [if_pos hs]
      exact ⟨replaceTagGaps s, rfl, by rw [← hs, ← hs], by rw [← hs]⟩
    · rw [if_neg hs]
      have hlt := (replaceTagGaps_shortens s).2 (fun h => hs h.symm)
      obtain ⟨r, h1, h2, h3⟩ := spacelessLoop_returns fuel (replaceTagGaps s) (by omega)
      exact ⟨r, h1, h2, by omega⟩

/-- On a text that a pass leaves unchanged the loop returns that text after one pass. -/
theorem spacelessLoop_fixed (fuel : Nat) (r : GoString) (h : replaceTagGaps r = r) :
    spacelessLoop (fuel + 1) r = some r := by
  unfold spacelessLoop
  rw [h, if_pos rfl]

/-- C34: spaceless collapsing reaches a fixed point. For every body text `s` the loop of
replacement passes returns, given fuel for more passes than `s` has bytes: every pass that
changes a text strictly shortens it. A further pass leaves the result `r` unchanged, and the
loop run on `r`, as the node run on a body that writes `r`, returns `r`. -/
theorem spaceless_fixed_point (fuel : Nat) (s : GoString) (h : s.length < fuel) :
    ∃ r, spacelessLoop fuel s = some r
      ∧ replaceTagGaps r = r
      ∧ spacelessLoop fuel r = some r
      ∧ (∀ w, tagSpacelessExecute fuel (s, none) w = some (w ++ r, none)
            ∧ tagSpacelessExecute fuel (r, none) w = some (w ++ r, none))
      ∧ (∀ t : GoString, (replaceTagGaps t).length ≤ t.length
            ∧ (replaceTagGaps t ≠ t → (replaceTagGaps t).length < t.length)) := by
  obtain ⟨r, h1, h2, -⟩ := spacelessLoop_returns fuel s h
  have h3 : spacelessLoop fuel r = some r := by
    cases fuel with
    | zero => omega
    | succ f => exact spacelessLoop_fixed f r h2
  refine ⟨r, h1, h2, h3, fun w => ⟨?_, ?_⟩, replaceTagGaps_shortens⟩
  · simp [tagSpacelessExecute, h1]
  · simp [tagSpacelessExecute, h3]

/-- Witness for C34: the text `<a>\n<b> <c>`, which takes two changing passes. -/
theorem spaceless_fixed_point_witness :
    ∃ r, spacelessLoop 12 (bytesOf "<a>\n<b> <c>") = some r
      ∧ replaceTagGaps r = r
      ∧ spacelessLoop 12 r = some r
      ∧ (∀ w, tagSpacelessExecute 12 (bytesOf "<a>\n<b> <c>", none) w = some (w ++ r, none)
            ∧ tagSpacelessExecute 12 (r, none) w = some (w ++ r, none))
      ∧ (∀ t : GoString, (replaceTagGaps t).length ≤ t.length
            ∧ (replaceTagGaps t ≠ t → (replaceTagGaps t).length < t.length)) :=
  spaceless_fixed_point 12 (bytesOf "<a>\n<b> <c>") (by decide)

/-- The two changing passes on the text `<a>\n<b> <c>`. -/
theorem spaceless_passes_example :
    replaceTagGaps (bytesOf "<a>\n<b> <c>") = bytesOf "<a><b> <c>"
    ∧ replaceTagGaps (bytesOf "<a><b> <c>") = bytesOf "<a><b><c>"
    ∧ replaceTagGaps (bytesOf "<a><b><c>") = bytesOf "<a><b><c>"
    ∧ spacelessLoop 12 (bytesOf "<a>\n<b> <c>") = some (bytesOf "<a><b><c>") := by
  refine ⟨by decide, by decide, by decide, by decide⟩

/-- Bytes kept at the head of both texts. -/
theorem GapsDeleted_keep_all : ∀ (pre : List Nat) (o : Bool) (x y : List Nat),
    (∀ o1, GapsDeleted o1 x y) → GapsDeleted o (pre ++ x) (pre ++ y)
  | [], o, _, _, h => h o
  | c :: pre, o, x, y, h => GapsDeleted.keep o c _ _ (GapsDeleted_keep_all pre _ x y h)

/-- Bytes of one line kept at the head of both texts, behind a `<` on that line. -/
theorem GapsDeleted_keep_line : ∀ (pre : List Nat) (x y : List Nat),
    (∀ c ∈ pre, c ≠ 10) → GapsDeleted true x y → GapsDeleted true (pre ++ x) (pre ++ y)
  | [], _, _, _, h => h
  | c :: pre, x, y, hn, h => by
    have hc : c ≠ 10 := hn c (List.mem_cons_self _ _)
    have ht : tagOpenAfter true c = true := by
      unfold tagOpenAfter
      split_ifs <;> rfl
    refine GapsDeleted.keep true c _ _ ?_
    rw [ht]
    exact GapsDeleted_keep_line pre x y (fun c hc => hn c (List.mem_cons_of_mem _ hc)) h

/-- A text is itself with no gap deleted. -/
theorem GapsDeleted_refl (s : List Nat) (o : Bool) : GapsDeleted o s s := by
  have := GapsDeleted_keep_all s o [] [] GapsDeleted.done
  simpa using this

/-- One replacement pass deletes only runs of whitespace that stand directly between the `>`
that closes a tag and the `<` that opens the next one. -/
theorem replacePass_gaps : ∀ (fuel : Nat) (s : List Nat), s.length ≤ fuel →
    ∀ o, GapsDeleted o s (replacePass fuel s)
  | 0, s, _, o => GapsDeleted_refl s o
  | _ + 1, [], _, o => GapsDeleted.done o
  | fuel + 1, c :: tl, hf, o => by
    have hkeep : GapsDeleted o (c :: tl) (c :: replacePass fuel tl) :=
      GapsDeleted.keep o c _ _ (replacePass_gaps fuel tl (by simp at hf; omega) _)
    unfold replacePass
    by_cases hc : c = 60
    · rw [if_pos hc]
      cases hm : matchAfterOpen tl with
      | none => exact hkeep
      | some p =>
        obtain ⟨t1, ws, t2, rest⟩ := p
        obtain ⟨e, hn, ⟨t0, rfl⟩, hws, hall, t, rfl, hclose⟩ :=
          matchAfterOpen_spec tl t1 ws t2 rest hm
        have hl : rest.length ≤ fuel := by
          have : tl.length = (t0 ++ [62]).length + (ws.length + ((60 :: t).length + rest.length)) := by
            rw [e]; simp only [List.length_append]
          simp only [List.length_cons] at hf
          omega
        have ih := replacePass_gaps fuel rest hl
        subst hc
        refine GapsDeleted.keep o 60 _ _ ?_
        have ht : tagOpenAfter o 60 = true := rfl
        rw [ht, e]
        simp only [List.append_assoc, List.singleton_append, List.cons_append]
        apply GapsDeleted_keep_line t0 _ _
          (fun c hc => hn c (List.mem_append_left _ hc))
        refine GapsDeleted.delete ws (t ++ rest) _ hws hall (by rw [hclose]; rfl) ?_
        refine GapsDeleted.keep true 60 _ _ ?_
        exact GapsDeleted_keep_all t _ rest _ ih
    · rw [if_neg hc]
      exact hkeep

/-- A byte other than `>` at the head of the shorter text is at the head of the longer one. -/
theorem GapsDeleted_head_kept (o : Bool) (a : List Nat) (w : Nat) (rest : List Nat)
    (h : GapsDeleted o a (w :: rest)) (hw : w ≠ 62) :
    ∃ a1, a = w :: a1 ∧ GapsDeleted (tagOpenAfter o w) a1 rest := by
  cases h with
  | keep _ _ s _ h1 => exact ⟨s, rfl, h1⟩
  | delete ws s _ _ _ _ _ => exact absurd rfl hw

/-- A text that starts with `<` stays a text that starts with `<`. -/
theorem GapsDeleted_open_kept (o : Bool) (a b : List Nat) (h : GapsDeleted o (60 :: a) b) :
    ∃ b1, b = 60 :: b1 ∧ GapsDeleted true a b1 := by
  cases h with
  | keep _ _ _ r h1 => exact ⟨r, rfl, h1⟩

/-- A run of whitespace and the `<` behind it at the head of the shorter text are at the head
of the longer one. -/
theorem GapsDeleted_run_kept : ∀ (ws : List Nat) (o : Bool) (a b : List Nat),
    (∀ x ∈ ws, isTagSpace x = true) → GapsDeleted o a (ws ++ 60 :: b) →
    ∃ a1, a = ws ++ 60 :: a1 ∧ GapsDeleted true a1 b
  | [], o, a, b, _, h => by
    obtain ⟨a1, rfl, h1⟩ := GapsDeleted_head_kept o a 60 b h (by decide)
    exact ⟨a1, rfl, h1⟩
  | w :: ws, o, a, b, hall, h => by
    have hw : w ≠ 62 := by
      intro hw
      have := hall w (List.mem_cons_self _ _)
      rw [hw] at this
      exact absurd this (by decide)
    obtain ⟨a1, rfl, h1⟩ := GapsDeleted_head_kept o a w (ws ++ 60 :: b) h hw
    obtain ⟨a2, rfl, h2⟩ := GapsDeleted_run_kept ws _ a1 b
      (fun x hx => hall x (List.mem_cons_of_mem _ hx)) h1
    exact ⟨a2, rfl, h2⟩

/-- A tag that closes in the shorter text closes in the longer one. -/
theorem GapsDeleted_close_kept (o : Bool) (a b : List Nat) (h : GapsDeleted o a b) :
    (tagClose b).isSome = true → (tagClose a).isSome = true := by
  induction h with
  | done _ => exact id
  | keep o c s r _ ih =>
    intro hb
    unfold tagClose at hb ⊢
    by_cases h1 : c = 62
    · rw [if_pos h1]; rfl
    · rw [if_neg h1] at hb ⊢
      by_cases h2 : c = 10
      · rw [if_pos h2] at hb; cases hb
      · rw [if_neg h2] at hb ⊢
        cases hr : tagClose r with
        | none => rw [hr] at hb; cases hb
        | some p =>
          have := ih (by rw [hr]; rfl)
          obtain ⟨q, hq⟩ := Option.isSome_iff_exists.mp this
          rw [hq]
          rfl
  | delete ws s r _ _ _ _ _ =>
    intro _
    unfold tagClose
    rw [if_pos rfl]
    rfl

/-- Deleting gaps from a text from which gaps were deleted is deleting gaps from the first
text: a run that is deleted later stood between the same `>` and `<` before. -/
theorem GapsDeleted_trans_aux : ∀ (n : Nat) (o : Bool) (a b c : List Nat), a.length ≤ n →
    GapsDeleted o a b → GapsDeleted o b c → GapsDeleted o a c
  | 0, o, a, b, c, hn, h1, h2 => by
    have : a = [] := List.length_eq_zero.mp (by omega)
    subst this
    cases h1
    exact h2
  | n + 1, o, a, b, c, hn, h1, h2 => by
    cases h1 with
    | done => exact h2
    | keep _ x a1 b1 h1 =>
      cases h2 with
      | keep _ _ _ c1 h2 =>
        exact GapsDeleted.keep o x a1 c1
          (GapsDeleted_trans_aux n _ a1 b1 c1 (by simp at hn; omega) h1 h2)
      | delete ws b2 c1 hws hall hclose h2 =>
        have ht : tagOpenAfter true 62 = true := rfl
        rw [ht] at h1
        obtain ⟨a2, rfl, h3⟩ := GapsDeleted_run_kept ws true a1 b2 hall h1
        have h4 : GapsDeleted true (60 :: a2) (60 :: b2) := GapsDeleted.keep true 60 a2 b2 h3
        have hlen : (60 :: a2).length ≤ n := by
          simp only [List.length_cons, List.length_append] at hn ⊢
          omega
        exact GapsDeleted.delete ws a2 c1 hws hall (GapsDeleted_close_kept true a2 b2 h3 hclose)
          (GapsDeleted_trans_aux n true (60 :: a2) (60 :: b2) c1 hlen h4 h2)
    | delete ws a1 b1 hws hall hclose h1 =>
      have hlen : (60 :: a1).length ≤ n := by
        simp only [List.length_cons, List.length_append] at hn ⊢
        omega
      cases h2 with
      | keep _ _ _ c1 h2 =>
        exact GapsDeleted.delete ws a1 c1 hws hall hclose
          (GapsDeleted_trans_aux n true (60 :: a1) b1 c1 hlen h1 h2)
      | delete ws2 b2 c1 hws2 hall2 _ _ =>
        exfalso
        obtain ⟨b3, hb3, -⟩ := GapsDeleted_open_kept true a1 _ h1
        cases ws2 with
        | nil => exact hws2 rfl
        | cons w ws3 =>
          simp only [List.cons_append, List.cons.injEq] at hb3
          have := hall2 w (List.mem_cons_self _ _)
          rw [hb3.1] at this
          exact absurd this (by decide)

/-- Deleting gaps twice is deleting gaps. -/
theorem GapsDeleted_trans (o : Bool) (a b c : List Nat) (h1 : GapsDeleted o a b)
    (h2 : GapsDeleted o b c) : GapsDeleted o a c :=
  GapsDeleted_trans_aux a.length o a b c (le_refl _) h1 h2

/-- The result of the loop is the text with gaps deleted. -/
theorem spacelessLoop_gaps : ∀ (fuel : Nat) (s r : GoString), spacelessLoop fuel s = some r →
    ∀ o, GapsDeleted o s r
  | 0, _, _, h, _ => by simp [spacelessLoop] at h
  | fuel + 1, s, r, h, o => by
    have hpass : GapsDeleted o s (replaceTagGaps s) := replacePass_gaps s.length s (le_refl _) o
    unfold spacelessLoop at h
    by_cases hs : s = replaceTagGaps s
    · rw [if_pos hs] at h
      simp only [Option.some.injEq] at h
      rw [← h]
      exact hpass
    · rw [if_neg hs] at h
      exact GapsDeleted_trans o s _ r hpass (spacelessLoop_gaps fuel _ r h o)

/-- A text with gaps deleted keeps every byte that is not whitespace, in order. -/
theorem GapsDeleted_filter_eq (o : Bool) (a b : List Nat) (h : GapsDeleted o a b) :
    b.filter (fun c => !isTagSpace c) = a.filter (fun c => !isTagSpace c) := by
  induction h with
  | done _ => rfl
  | keep o c s r _ ih => simp only [List.filter_cons, ih]
  | delete ws s r _ hall _ _ ih =>
    have hw : ws.filter (fun c => !isTagSpace c) = [] := by
      rw [List.filter_eq_nil_iff]
      intro x hx
      simp [hall x hx]
    simp only [List.filter_cons, List.filter_append, hw, List.nil_append] at ih ⊢
    rw [ih]

set_option maxRecDepth 100000 in
/-- C35 (as stated, refuted): in `<p>a > <b>c</b></p>` the text between the tags `<p>` and
`<b>` is `a > `; the node deletes the space at its end and writes `<p>a ><b>c</b></p>`, since
`<p>a >` is a match of the group `<.*>`. The text between the tags is not untouched. -/
theorem spaceless_text_gap_counterexample :
    tagSpacelessExecute 40 (bytesOf "<p>a > <b>c</b></p>", none) []
        = some (bytesOf "<p>a ><b>c</b></p>", none)
    ∧ bytesOf "<p>a > <b>c</b></p>" = bytesOf "<p>" ++ bytesOf "a > " ++ bytesOf "<b>c</b></p>"
    ∧ bytesOf "<p>a ><b>c</b></p>" = bytesOf "<p>" ++ bytesOf "a >" ++ bytesOf "<b>c</b></p>"
    ∧ bytesOf "a > " ≠ bytesOf "a >" := by
  refine ⟨by decide, by decide, by decide, by decide⟩

set_option maxRecDepth 100000 in
/-- C35 (amended): spaceless removes only whitespace between matches of `<.*>`. For every body
text `s` the node writes `s` with some runs of whitespace deleted, each deleted run standing
directly behind a `>` that has a `<` before it on the same line and directly before a `<`
that has a `>` behind it on the same line; every other byte is kept, so the bytes that are
not whitespace are those of `s` in order. For `<p>  \n  </p>  <span> text </span>` the output
is `<p></p><span> text </span>`. -/
theorem spaceless_inter_tag_only (fuel : Nat) (s w : GoString) (h : s.length < fuel) :
    (∃ r, tagSpacelessExecute fuel (s, none) w = some (w ++ r, none)
      ∧ GapsDeleted false s r
      ∧ r.filter (fun c => !isTagSpace c) = s.filter (fun c => !isTagSpace c))
    ∧ tagSpacelessExecute 40 (bytesOf "<p>  \n  </p>  <span> text </span>", none) []
        = some (bytesOf "<p></p><span> text </span>", none) := by
  refine ⟨?_, by decide⟩
  obtain ⟨r, h1, -, -⟩ := spacelessLoop_returns fuel s h
  have hg := spacelessLoop_gaps fuel s r h1 false
  exact ⟨r, by simp [tagSpacelessExecute, h1], hg, GapsDeleted_filter_eq false s r hg⟩

/-- Witness for C35: the text `<p> </p>`. -/
theorem spaceless_inter_tag_only_witness :
    ∃ r, tagSpacelessExecute 9 (bytesOf "<p> </p>", none) [] = some ([] ++ r, none)
      ∧ GapsDeleted false (bytesOf "<p> </p>") r
      ∧ r.filter (fun c => !isTagSpace c)
          = (bytesOf "<p> </p>").filter (fun c => !isTagSpace c) :=
  (spaceless_inter_tag_only 9 (bytesOf "<p> </p>") [] (by decide)).1

/-- The loop of the filter node computes the value of the chain in the words of the claim. -/
theorem filterLoop_eq_chainValue (E : FilterEnv) (ctx : ExecutionContext) :
    ∀ (chain : List nodeFilterCall) (value : Value),
      filterLoop E ctx chain value
        = chain.foldl
            (fun acc call =>
              acc.bind (fun value =>
                (match call.paramExpr with
                  | some expr => expr ctx
                  | none => .ok (AsValue .nil)).bind
                  (fun p => (E.ApplyFilter call.name value p).mapError E.ctxError)))
            (.ok value)
  | [], _ => rfl
  | call :: rest, value => by
    have hfail : ∀ (err : ExecError) (l : List nodeFilterCall),
        l.foldl
            (fun acc call =>
              acc.bind (fun value =>
                (match call.paramExpr with
                  | some expr => expr ctx
                  | none => .ok (AsValue .nil)).bind
                  (fun p => (E.ApplyFilter call.name value p).mapError E.ctxError)))
            (Except.error err : Except ExecError Value) = .error err := by
      intro err l
      induction l with
      | nil => rfl
      | cons c l ih => exact ih
    unfold filterLoop
    simp only [List.foldl_cons]
    cases hp : (match call.paramExpr with
        | some expr => expr ctx
        | none => Except.ok (AsValue .nil)) with
    | error err =>
      simp only [Except.bind, hp]
      exact (hfail err rest).symm
    | ok p =>
      cases ha : E.ApplyFilter call.name value p with
      | error err =>
        simp only [Except.bind, hp, ha, Except.mapError]
        exact (hfail _ rest).symm
      | ok value1 =>
        simp only [Except.bind, hp, ha, Except.mapError]
        exact filterLoop_eq_chainValue E ctx rest value1

/-- C36: a filter-chain node writes all or nothing, in chain order. For every body, chain and
outer writer, either the body or the chain fails, and then the node returns that error and
the outer writer receives nothing; or the body and the chain succeed, and then the node
returns no error and the outer writer receives exactly one value, the value of the chain on
the text that the body wrote. With an empty chain that value is the text of the body. -/
theorem tagFilterExecute_all_or_nothing (E : FilterEnv) (ctx : ExecutionContext)
    (chain : List nodeFilterCall) (body : GoString × Option ExecError) (writer : List Value) :
    ((∃ err, tagFilterExecute E ctx chain body writer = (writer, some err)
        ∧ (body.2 = some err ∨ (body.2 = none ∧ chainValue E ctx chain body.1 = .error err)))
      ∨ (∃ value, tagFilterExecute E ctx chain body writer = (writer ++ [value], none)
        ∧ body.2 = none ∧ chainValue E ctx chain body.1 = .ok value))
    ∧ (body.2 = none →
        tagFilterExecute E ctx [] body writer = (writer ++ [AsValue (.str body.1)], none)) := by
  refine ⟨?_, ?_⟩
  · unfold tagFilterExecute chainValue
    rw [filterLoop_eq_chainValue]
    cases hb : body.2 with
    | some err => exact Or.inl ⟨err, rfl, Or.inl rfl⟩
    | none =>
      simp only []
      split
      · rename_i err he
        exact Or.inl ⟨err, rfl, Or.inr ⟨trivial, he⟩⟩
      · rename_i value he
        exact Or.inr ⟨value, rfl, trivial, he⟩
  · intro hb
    unfold tagFilterExecute
    rw [hb]
    rfl

/-- The chain `upper` on the body text `abc` writes the one value `ABC`; an unknown filter, and
a failing body, write nothing. -/
theorem tagFilterExecute_examples :
    ((tagFilterExecute FilterEnv.small ⟨0, []⟩ [⟨bytesOf "upper", none⟩]
        (bytesOf "abc", none) []).1.map (fun v => v.String ExtLib.trivial)
      = [some (bytesOf "ABC")])
    ∧ (tagFilterExecute FilterEnv.small ⟨0, []⟩ [⟨bytesOf "upper", none⟩]
        (bytesOf "abc", none) []).2 = none
    ∧ (tagFilterExecute FilterEnv.small ⟨0, []⟩ [⟨bytesOf "upper", none⟩, ⟨bytesOf "x", none⟩]
        (bytesOf "abc", none) []).1.length = 0
    ∧ (tagFilterExecute FilterEnv.small ⟨0, []⟩ [⟨bytesOf "upper", none⟩, ⟨bytesOf "x", none⟩]
        (bytesOf "abc", none) []).2 = some (.node "filter not found")
    ∧ (tagFilterExecute FilterEnv.small ⟨0, []⟩ [⟨bytesOf "upper", none⟩]
        (bytesOf "abc", some (.node "body")) []).1.length = 0 := by
  refine ⟨by decide, by decide, by decide, by decide, by decide⟩

/-- An item is determined by the argument tokens. -/
theorem FilterItem_unique (E : FilterEnv) (args : List Token) (c1 c2 : nodeFilterCall)
    (r1 r2 : List Token) (h1 : FilterItem E args c1 r1) (h2 : FilterItem E args c2 r2) :
    c1 = c2 ∧ r1 = r2 := by
  cases h1 with
  | plain name rest hn hc =>
    cases h2 with
    | plain _ _ _ _ => exact ⟨rfl, rfl⟩
    | withArgument _ colon rest2 expr n _ ht hv _ => exact absurd ⟨ht, hv⟩ (hc colon _ rfl)
  | withArgument name colon rest expr n hn ht hv hp =>
    cases h2 with
    | plain _ _ _ hc => exact absurd ⟨ht, hv⟩ (hc colon _ rfl)
    | withArgument _ _ _ expr2 n2 _ _ _ hp2 =>
      rw [hp] at hp2
      simp only [Except.ok.injEq, Prod.mk.injEq] at hp2
      obtain ⟨rfl, rfl⟩ := hp2
      exact ⟨rfl, rfl⟩

/-- An item takes at least its name, and starts with an identifier. -/
theorem FilterItem_shorter (E : FilterEnv) (args : List Token) (c : nodeFilterCall)
    (r : List Token) (h : FilterItem E args c r) :
    r.length < args.length ∧ ∃ t rest, args = t :: rest ∧ t.Typ = .TokenIdentifier := by
  cases h with
  | plain name rest hn _ => exact ⟨by simp, name, _, rfl, hn⟩
  | withArgument name colon rest expr n hn _ _ _ =>
    refine ⟨?_, name, _, rfl, hn⟩
    simp only [List.length_drop, List.length_cons]
    omega

/-- The chain that the parser accepts for given argument tokens is determined by them. -/
theorem LooseChain_unique (E : FilterEnv) : ∀ (args : List Token) (c1 c2 : List nodeFilterCall),
    LooseChain E args c1 → LooseChain E args c2 → c1 = c2 := by
  intro args c1 c2 h1
  induction h1 generalizing c2 with
  | empty =>
    intro h2
    cases h2 with
    | empty => rfl
    | last _ _ hi => obtain ⟨-, t, rest, e, -⟩ := FilterItem_shorter E _ _ _ hi; cases e
    | more _ _ _ _ _ hi _ _ _ => obtain ⟨-, t, rest, e, -⟩ := FilterItem_shorter E _ _ _ hi; cases e
  | last args call hi =>
    intro h2
    cases h2 with
    | empty => obtain ⟨-, t, rest, e, -⟩ := FilterItem_shorter E _ _ _ hi; cases e
    | last _ _ hi2 => rw [(FilterItem_unique E _ _ _ _ _ hi hi2).1]
    | more _ _ _ _ _ hi2 _ _ _ => exact absurd (FilterItem_unique E _ _ _ _ _ hi hi2).2 (by simp)
  | more args rest pipe call chain hi ht hv _ ih =>
    intro h2
    cases h2 with
    | empty => obtain ⟨-, t, rest, e, -⟩ := FilterItem_shorter E _ _ _ hi; cases e
    | last _ _ hi2 => exact absurd (FilterItem_unique E _ _ _ _ _ hi hi2).2 (by simp)
    | more _ rest2 pipe2 call2 chain2 hi2 _ _ hc2 =>
      obtain ⟨e1, e2⟩ := FilterItem_unique E _ _ _ _ _ hi hi2
      simp only [List.cons.injEq] at e2
      obtain ⟨-, rfl⟩ := e2
      rw [e1, ih chain2 hc2]

/-- The next token has the type and the text asked for: it is consumed. -/
theorem MatchOne_some (typ : TokenType) (val : GoString) (t : Token) (rest : List Token)
    (h1 : t.Typ = typ) (h2 : t.Val = val) : MatchOne typ val (t :: rest) = (some t, rest) := by
  simp [MatchOne, h1, h2]

/-- The next token is not the one asked for: nothing is consumed. -/
theorem MatchOne_none (typ : TokenType) (val : GoString) (l : List Token)
    (h : ∀ t r, l = t :: r → ¬ (t.Typ = typ ∧ t.Val = val)) : MatchOne typ val l = (none, l) := by
  cases l with
  | nil => rfl
  | cons t r => simp [MatchOne, h t r rfl]

/-- One iteration of the loop of the parser on argument tokens that start with an identifier:
when the tokens start with an item, the loop goes on behind the item; when they do not, the
loop returns an error. -/
theorem filterChainLoop_step (E : FilterEnv) (fuel : Nat) (t : Token) (rest : List Token)
    (acc : List nodeFilterCall) (ht : t.Typ = .TokenIdentifier) :
    (∀ call args3, FilterItem E (t :: rest) call args3 →
      filterChainLoop E (fuel + 1) (t :: rest) acc
        = (match MatchOne .TokenSymbol (bytesOf "|") args3 with
            | (none, args4) => some (.ok (acc ++ [call], args4))
            | (some _, args4) => filterChainLoop E fuel args4 (acc ++ [call])))
    ∧ ((¬ ∃ call args3, FilterItem E (t :: rest) call args3) →
        ∃ err, filterChainLoop E (fuel + 1) (t :: rest) acc = some (.error err)) := by
  have hbody : filterChainLoop E (fuel + 1) (t :: rest) acc =
      (match
          (match MatchOne .TokenSymbol (bytesOf ":") rest with
            | (some _, args2) =>
              match E.parseVariableOrLiteral args2 with
              | .error err => Except.error err
              | .ok (expr, n) =>
                Except.ok (({ name := t.Val, paramExpr := some expr } : nodeFilterCall),
                  List.drop n args2)
            | (none, args2) =>
              Except.ok (({ name := t.Val, paramExpr := none } : nodeFilterCall), args2)) with
        | .error err => some (.error err)
        | .ok (filterCall, args3) =>
          match MatchOne .TokenSymbol (bytesOf "|") args3 with
          | (none, args4) => some (.ok (acc ++ [filterCall], args4))
          | (some _, args4) => filterChainLoop E fuel args4 (acc ++ [filterCall])) := by
    conv => lhs; unfold filterChainLoop
    simp only [List.length_cons, gt_iff_lt, Nat.zero_lt_succ, if_true, MatchType, ht]
  refine ⟨?_, ?_⟩
  · intro call args3 hi
    rw [hbody]
    cases hi with
    | plain _ _ _ hc => rw [MatchOne_none _ _ rest hc]
    | withArgument _ colon rest2 expr n _ hct hcv hp =>
      rw [MatchOne_some _ _ colon rest2 hct hcv]
      simp only [hp]
  · intro hno
    rw [hbody]
    by_cases hc : ∀ c r, rest = c :: r → ¬ (c.Typ = .TokenSymbol ∧ c.Val = bytesOf ":")
    · exact absurd ⟨_, _, FilterItem.plain t rest ht hc⟩ hno
    · push_neg at hc
      obtain ⟨c, r, rfl, hct, hcv⟩ := hc
      rw [MatchOne_some _ _ c r hct hcv]
      cases hp : E.parseVariableOrLiteral r with
      | error err => exact ⟨err, by simp only [hp]⟩
      | ok p =>
        obtain ⟨expr, n⟩ := p
        exact absurd ⟨_, _, FilterItem.withArgument t c r expr n ht hct hcv hp⟩ hno

/-- The loop of the parser returns when the fuel exceeds the number of argument tokens. It
returns the chain and no tokens when the tokens form a chain in the loose sense; otherwise it
returns an error or leaves tokens over. -/
theorem filterChainLoop_spec (E : FilterEnv) : ∀ (fuel : Nat) (args : List Token)
    (acc : List nodeFilterCall), args.length < fuel →
    ∃ res, filterChainLoop E fuel args acc = some res
      ∧ ((∃ chain, LooseChain E args chain ∧ res = .ok (acc ++ chain, []))
        ∨ ((¬ ∃ chain, LooseChain E args chain)
            ∧ ((∃ err, res = .error err) ∨ ∃ out rest, res = .ok (out, rest) ∧ rest ≠ [])))
  | 0, _, _, h => by omega
  | fuel + 1, [], acc, _ =>
    ⟨_, rfl, Or.inl ⟨[], LooseChain.empty, by rw [List.append_nil]⟩⟩
  | fuel + 1, t :: rest, acc, hf => by
    by_cases ht : t.Typ = .TokenIdentifier
    · obtain ⟨hstep, hfail⟩ := filterChainLoop_step E fuel t rest acc ht
      by_cases hitem : ∃ call args3, FilterItem E (t :: rest) call args3
      · obtain ⟨call, args3, hi⟩ := hitem
        have hlen := (FilterItem_shorter E _ _ _ hi).1
        rw [hstep call args3 hi]
        by_cases hp : ∀ c r, args3 = c :: r → ¬ (c.Typ = .TokenSymbol ∧ c.Val = bytesOf "|")
        · rw [MatchOne_none _ _ args3 hp]
          refine ⟨_, rfl, ?_⟩
          cases hargs : args3 with
          | nil =>
            subst hargs
            exact Or.inl ⟨[call], LooseChain.last _ call hi, rfl⟩
          | cons c r =>
            refine Or.inr ⟨?_, Or.inr ⟨_, _, rfl, by simp⟩⟩
            rintro ⟨chain, hch⟩
            cases hch with
            | last _ _ hi2 =>
              have := (FilterItem_unique E _ _ _ _ _ hi hi2).2
              rw [hargs] at this
              cases this
            | more _ rest2 pipe _ _ hi2 hpt hpv _ =>
              have := (FilterItem_unique E _ _ _ _ _ hi hi2).2
              exact hp pipe rest2 this ⟨hpt, hpv⟩
        · push_neg at hp
          obtain ⟨c, r, rfl, hct, hcv⟩ := hp
          rw [MatchOne_some _ _ c r hct hcv]
          simp only [List.length_cons] at hf hlen
          obtain ⟨res, hres, hcase⟩ := filterChainLoop_spec E fuel r (acc ++ [call]) (by omega)
          refine ⟨res, hres, ?_⟩
          rcases hcase with ⟨chain, hch, rfl⟩ | ⟨hno, hrej⟩
          · exact Or.inl ⟨call :: chain, LooseChain.more _ r c call chain hi hct hcv hch,
              by simp⟩
          · refine Or.inr ⟨?_, hrej⟩
            rintro ⟨chain, hch⟩
            cases hch with
            | last _ _ hi2 =>
              have := (FilterItem_unique E _ _ _ _ _ hi hi2).2
              cases this
            | more _ rest2 pipe _ chain2 hi2 _ _ hc2 =>
              have := (FilterItem_unique E _ _ _ _ _ hi hi2).2
              simp only [List.cons.injEq] at this
              obtain ⟨-, rfl⟩ := this
              exact hno ⟨chain2, hc2⟩
      · obtain ⟨err, herr⟩ := hfail hitem
        refine ⟨_, herr, Or.inr ⟨?_, Or.inl ⟨err, rfl⟩⟩⟩
        rintro ⟨chain, hch⟩
        cases hch with
        | last _ call hi2 => exact hitem ⟨_, _, hi2⟩
        | more _ _ _ call _ hi2 _ _ _ => exact hitem ⟨_, _, hi2⟩
    · refine ⟨.error (.node "Expected a filter name (identifier)."), ?_, Or.inr ⟨?_, Or.inl ⟨_, rfl⟩⟩⟩
      · unfold filterChainLoop
        simp [MatchType, ht]
      · rintro ⟨chain, hch⟩
        cases hch with
        | last _ _ hi2 =>
          obtain ⟨-, t2, r2, e, ht2⟩ := FilterItem_shorter E _ _ _ hi2
          simp only [List.cons.injEq] at e
          rw [← e.1] at ht2
          exact ht ht2
        | more _ _ _ _ _ hi2 _ _ _ =>
          obtain ⟨-, t2, r2, e, ht2⟩ := FilterItem_shorter E _ _ _ hi2
          simp only [List.cons.injEq] at e
          rw [← e.1] at ht2
          exact ht ht2

/-- A chain in the words of the claim is a chain that the parser accepts. -/
theorem StrictChain_loose (E : FilterEnv) (args : List Token) (chain : List nodeFilterCall)
    (h : StrictChain E args chain) : LooseChain E args chain := by
  induction h with
  | last args call hi => exact LooseChain.last args call hi
  | more args rest pipe call chain hi ht hv _ ih =>
    exact LooseChain.more args rest pipe call chain hi ht hv ih

/-- An item whose name is followed by a token other than `:` is the name alone. -/
theorem FilterItem_plain_of_next (E : FilterEnv) (args : List Token) (call : nodeFilterCall)
    (r : List Token) (h : FilterItem E args call r) (name tok : Token) (rest : List Token)
    (ha : args = name :: tok :: rest) (hv : tok.Val ≠ bytesOf ":") : r = tok :: rest := by
  cases h with
  | plain n r0 _ _ =>
    simp only [List.cons.injEq] at ha
    exact ha.2
  | withArgument n colon r0 expr k _ _ hc _ =>
    simp only [List.cons.injEq] at ha
    rw [ha.2.1] at hc
    exact absurd hc hv

/-- A chain in the words of the claim has at least one item and does not end in `|`. -/
theorem StrictChain_not_dangling (E : FilterEnv) (name pipe : Token) (chain : List nodeFilterCall)
    (hv : pipe.Val = bytesOf "|") :
    ¬ StrictChain E [] chain ∧ ¬ StrictChain E [name, pipe] chain := by
  have hnil : ∀ chain, ¬ StrictChain E [] chain := by
    intro chain h
    cases h with
    | last _ _ hi => obtain ⟨-, t, rest, e, -⟩ := FilterItem_shorter E _ _ _ hi; cases e
    | more _ _ _ _ _ hi _ _ _ => obtain ⟨-, t, rest, e, -⟩ := FilterItem_shorter E _ _ _ hi; cases e
  have hne : pipe.Val ≠ bytesOf ":" := by
    rw [hv]
    decide
  refine ⟨hnil chain, ?_⟩
  intro h
  cases h with
  | last _ _ hi =>
    have := FilterItem_plain_of_next E _ _ _ hi name pipe [] rfl hne
    cases this
  | more _ rest pipe2 _ chain2 hi _ _ hc =>
    have := FilterItem_plain_of_next E _ _ _ hi name pipe [] rfl hne
    simp only [List.cons.injEq] at this
    rw [this.2] at hc
    exact hnil _ hc

/-- C37 (as stated, refuted): the parser succeeds, with an empty chain, on no argument
tokens at all, and it succeeds on the tokens `upper |`, a chain that ends in a dangling `|`;
neither stream is one or more items separated by single `|` symbols. -/
theorem tagFilterParser_counterexample :
    tagFilterParser FilterEnv.small 3 (.ok 0) [] = some (.ok (0, []))
    ∧ tagFilterParser FilterEnv.small 3 (.ok 0)
        [⟨.TokenIdentifier, bytesOf "upper"⟩, ⟨.TokenSymbol, bytesOf "|"⟩]
        = some (.ok (0, [⟨bytesOf "upper", none⟩]))
    ∧ (∀ chain, ¬ StrictChain FilterEnv.small [] chain)
    ∧ (∀ chain, ¬ StrictChain FilterEnv.small
        [⟨.TokenIdentifier, bytesOf "upper"⟩, ⟨.TokenSymbol, bytesOf "|"⟩] chain) :=
  ⟨rfl, rfl,
    fun chain => (StrictChain_not_dangling FilterEnv.small ⟨.TokenIdentifier, bytesOf "upper"⟩
      ⟨.TokenSymbol, bytesOf "|"⟩ chain rfl).1,
    fun chain => (StrictChain_not_dangling FilterEnv.small ⟨.TokenIdentifier, bytesOf "upper"⟩
      ⟨.TokenSymbol, bytesOf "|"⟩ chain rfl).2⟩

/-- C37 (amended): the filter tag accepts exactly a pipe-separated chain in the loose sense.
When the body is wrapped without an error and the fuel exceeds the number of argument tokens,
`tagFilterParser` returns; it succeeds with a chain if and only if the argument tokens are
empty or form items `identifier[':' argument]`, each followed by a `|` symbol that may be
missing behind the last item, with no tokens left over, and the chain has one entry per item
in order; every other argument stream is rejected with an error. Every stream of one or more
items separated by single `|` symbols is accepted. -/
theorem tagFilterParser_accepts (E : FilterEnv) (fuel : Nat) (body : Nat) (args : List Token)
    (h : args.length < fuel) :
    ∃ res, tagFilterParser E fuel (.ok body) args = some res
      ∧ (∀ chain, res = .ok (body, chain) ↔ LooseChain E args chain)
      ∧ ((¬ ∃ chain, LooseChain E args chain) → ∃ err, res = .error err)
      ∧ (∀ chain, StrictChain E args chain → res = .ok (body, chain)) := by
  obtain ⟨lres, hl, hcase⟩ := filterChainLoop_spec E fuel args [] h
  have key : ∃ res, tagFilterParser E fuel (.ok body) args = some res
      ∧ (∀ chain, res = .ok (body, chain) ↔ LooseChain E args chain)
      ∧ ((¬ ∃ chain, LooseChain E args chain) → ∃ err, res = .error err) := by
    unfold tagFilterParser
    simp only [hl]
    rcases hcase with ⟨chain0, hch, rfl⟩ | ⟨hno, ⟨err, rfl⟩ | ⟨out, rest, rfl, hrest⟩⟩
    · refine ⟨.ok (body, chain0), by simp, ?_, fun hno => absurd ⟨chain0, hch⟩ hno⟩
      intro chain
      constructor
      · intro he
        simp only [Except.ok.injEq, Prod.mk.injEq, true_and] at he
        rw [← he]
        exact hch
      · intro hc
        rw [LooseChain_unique E args chain chain0 hc hch]
    · refine ⟨.error err, rfl, ?_, fun _ => ⟨err, rfl⟩⟩
      intro chain
      constructor
      · intro he; cases he
      · intro hc; exact absurd ⟨chain, hc⟩ hno
    · have hpos : rest.length > 0 := List.length_pos.mpr hrest
      refine ⟨.error (.node "Malformed filter-tag arguments."), by simp [hpos], ?_,
        fun _ => ⟨_, rfl⟩⟩
      intro chain
      constructor
      · intro he; cases he
      · intro hc; exact absurd ⟨chain, hc⟩ hno
  obtain ⟨res, h1, h2, h3⟩ := key
  exact ⟨res, h1, h2, h3, fun chain hs => (h2 chain).mpr (StrictChain_loose E args chain hs)⟩

/-- Witness for C37: the argument tokens `upper`. -/
theorem tagFilterParser_accepts_witness :
    ∃ res, tagFilterParser FilterEnv.small 2 (.ok 0) [⟨.TokenIdentifier, bytesOf "upper"⟩]
        = some res
      ∧ (∀ chain, res = .ok (0, chain)
          ↔ LooseChain FilterEnv.small [⟨.TokenIdentifier, bytesOf "upper"⟩] chain)
      ∧ ((¬ ∃ chain, LooseChain FilterEnv.small [⟨.TokenIdentifier, bytesOf "upper"⟩] chain) →
          ∃ err, res = .error err)
      ∧ (∀ chain, StrictChain FilterEnv.small [⟨.TokenIdentifier, bytesOf "upper"⟩] chain →
          res = .ok (0, chain)) :=
  tagFilterParser_accepts FilterEnv.small 2 0 [⟨.TokenIdentifier, bytesOf "upper"⟩] (by decide)

/-- The parser rejects argument tokens that start with a symbol, and tokens left over behind
a chain. -/
theorem tagFilterParser_rejects_examples :
    tagFilterParser FilterEnv.small 3 (.ok 0) [⟨.TokenSymbol, bytesOf "|"⟩]
        = some (.error (.node "Expected a filter name (identifier)."))
    ∧ tagFilterParser FilterEnv.small 3 (.ok 0)
        [⟨.TokenIdentifier, bytesOf "upper"⟩, ⟨.TokenIdentifier, bytesOf "lower"⟩]
        = some (.error (.node "Malformed filter-tag arguments."))
    ∧ tagFilterParser FilterEnv.small 4 (.ok 0)
        [⟨.TokenIdentifier, bytesOf "upper"⟩, ⟨.TokenSymbol, bytesOf "|"⟩,
          ⟨.TokenSymbol, bytesOf "|"⟩]
        = some (.error (.node "Expected a filter name (identifier)."))
    ∧ tagFilterParser FilterEnv.small 3 (.error (.node "no endfilter"))
        [⟨.TokenIdentifier, bytesOf "upper"⟩] = some (.error (.node "no endfilter")) :=
  ⟨rfl, rfl, rfl, rfl⟩

/-- The elements of a list after the exchange of two of them. -/
theorem swapAt_getElem? {α : Type} (l : List α) (i j k : Nat) (hi : i < l.length)
    (hj : j < l.length) :
    (swapAt l i j)[k]? = if k = j then l[i]? else if k = i then l[j]? else l[k]? := by
  unfold swapAt
  simp only [List.get?_eq_getElem?, List.getElem?_eq_getElem hi, List.getElem?_eq_getElem hj]
  rw [List.getElem?_set]
  by_cases h1 : k = j
  · subst h1
    simp [hj]
  · rw [if_neg (fun h => h1 h.symm), if_neg h1, List.getElem?_set]
    by_cases h2 : k = i
    · subst h2
      simp [hi]
    · rw [if_neg (fun h => h2 h.symm), if_neg h2]

/-- The loop that exchanges the runes at `i` and `j` while `i < j` reverses the run of the
runes from `i` to `j` and leaves the others in place. -/
theorem reverseRunesLoop_getElem? : ∀ (fuel : Nat) (rs : List Nat) (i j : Nat),
    j < rs.length → j + 1 ≤ fuel + i → ∀ k,
    (reverseRunesLoop fuel rs i j)[k]? = if i ≤ k ∧ k ≤ j then rs[i + j - k]? else rs[k]?
  | 0, rs, i, j, _, hf, k => by
    simp only [reverseRunesLoop]
    rw [if_neg (by omega)]
  | fuel + 1, rs, i, j, hj, hf, k => by
    simp only [reverseRunesLoop]
    by_cases hij : i < j
    · rw [if_pos hij,
        reverseRunesLoop_getElem? fuel (swapAt rs i j) (i + 1) (j - 1)
          (by rw [swapAt_length]; omega) (by omega) k]
      have hi : i < rs.length := by omega
      by_cases hk : i + 1 ≤ k ∧ k ≤ j - 1
      · rw [if_pos hk, if_pos (by omega), swapAt_getElem? rs i j _ hi hj,
          if_neg (by omega), if_neg (by omega)]
        congr 1
        omega
      · rw [if_neg hk, swapAt_getElem? rs i j k hi hj]
        by_cases h1 : k = j
        · subst h1
          rw [if_pos rfl, if_pos (by omega)]
          congr 1
          omega
        · rw [if_neg h1]
          by_cases h2 : k = i
          · subst h2
            rw [if_pos rfl, if_pos (by omega)]
            congr 1
            omega
          · rw [if_neg h2, if_neg (by omega)]
    · rw [if_neg hij]
      by_cases hk : i ≤ k ∧ k ≤ j
      · rw [if_pos hk]
        congr 1
        omega
      · rw [if_neg hk]

/-- The reversal loop of `IterateOrder` on the runes of a string gives the runes in reverse
order. -/
theorem reverseRunesLoop_eq_reverse (rs : List Nat) :
    reverseRunesLoop rs.length rs 0 (rs.length - 1) = rs.reverse := by
  by_cases h0 : rs.length = 0
  · have : rs = [] := List.length_eq_zero.mp h0
    subst this
    rfl
  apply List.ext_getElem?
  intro k
  rw [reverseRunesLoop_getElem? rs.length rs 0 (rs.length - 1) (by omega) (by omega) k]
  by_cases hk : k < rs.length
  · rw [if_pos (by omega), List.getElem?_reverse hk]
    congr 1
    omega
  · rw [if_neg (by omega), List.getElem?_eq_none (by omega),
      List.getElem?_eq_none (by rw [List.length_reverse]; omega)]

/-- The exchanges of the loop that reverses the items keep the number of items. -/
theorem foldl_swapAt_length {α : Type} (n : Nat) : ∀ (idxs : List Nat) (l : List α),
    (idxs.foldl (fun l i => swapAt l i (n - 1 - i)) l).length = l.length
  | [], _ => rfl
  | a :: rest, l => by
    simp only [List.foldl_cons]
    rw [foldl_swapAt_length n rest, swapAt_length]

/-- The first `m` steps of the loop that reverses the items exchange the first `m` items with
the last `m` items. -/
theorem reverseItems_getElem? {α : Type} (items : List α) : ∀ m : Nat,
    2 * m ≤ items.length → ∀ k,
    ((List.range m).foldl (fun l i => swapAt l i (items.length - 1 - i)) items)[k]?
      = if k < m ∨ (items.length - m ≤ k ∧ k < items.length) then items[items.length - 1 - k]?
        else items[k]?
  | 0, _, k => by
    simp only [List.range_zero, List.foldl_nil]
    rw [if_neg (by omega)]
  | m + 1, hm, k => by
    have hlen := foldl_swapAt_length items.length (List.range m) items
    have ih := reverseItems_getElem? items m (by omega)
    rw [List.range_succ, List.foldl_append]
    simp only [List.foldl_cons, List.foldl_nil]
    rw [swapAt_getElem? _ _ _ _ (by rw [hlen]; omega) (by rw [hlen]; omega)]
    by_cases h1 : k = items.length - 1 - m
    · rw [if_pos h1, ih m, if_neg (by omega), if_pos (by omega)]
      congr 1
      omega
    · rw [if_neg h1]
      by_cases h2 : k = m
      · rw [if_pos h2, ih, if_neg (by omega), if_pos (by omega)]
        congr 1
        omega
      · rw [if_neg h2, ih k]
        by_cases h3 : k < m ∨ (items.length - m ≤ k ∧ k < items.length)
        · rw [if_pos h3, if_pos (by omega)]
        · rw [if_neg h3, if_neg (by omega)]

/-- The reversal loop of `IterateOrder` on the items of a sequence gives the items in reverse
order. -/
theorem reverseItemsLoop_eq_reverse (items : List Value) :
    reverseItemsLoop items items.length = items.reverse := by
  unfold reverseItemsLoop
  apply List.ext_getElem?
  intro k
  rw [reverseItems_getElem? items (items.length / 2) (by omega) k]
  by_cases hk : k < items.length
  · rw [List.getElem?_reverse hk]
    by_cases h : k < items.length / 2 ∨ (items.length - items.length / 2 ≤ k ∧ k < items.length)
    · rw [if_pos h]
    · rw [if_neg h]
      congr 1
      omega
  · rw [if_neg (by omega), List.getElem?_eq_none (by omega),
      List.getElem?_eq_none (by rw [List.length_reverse]; omega)]

/-- The items of a sequence are its elements. -/
theorem elementsInOrder_of_sequence (d : GoVal) (hk : d.kind = .array ∨ d.kind = .slice) :
    elementsInOrder d
      = d.elems.map (fun e => (({ val := e, safe := false } : Value), (none : Option Value)))
    ∧ elementCount d = d.elems.length := by
  rcases hk with hk | hk <;> cases d <;> simp_all [elementsInOrder, elementCount, GoVal.kind]

/-- The body of the unsorted `IterateOrder` for a sequence. -/
theorem IterateOrder_unsorted_sequence {σ : Type} (L : ExtLib) (R : Runtime) (v : Value)
    (d : GoVal) (fn : σ → Nat → Nat → Value → Option Value → Bool × σ) (empty : σ → σ) (s : σ)
    (h : v.getResolvedValue = some d) (hk : d.kind = .array ∨ d.kind = .slice)
    (reverse : Bool) :
    v.IterateOrder L R fn empty reverse false s =
      (if ((if reverse then
              reverseItemsLoop (d.elems.map (fun e => ({ val := e, safe := false } : Value)))
                (d.elems.map (fun e => ({ val := e, safe := false } : Value))).length
            else d.elems.map (fun e => ({ val := e, safe := false } : Value)))).length > 0 then
          some (itemLoop fn (d.elems.map (fun e => ({ val := e, safe := false } : Value))).length
            0 ((if reverse then
              reverseItemsLoop (d.elems.map (fun e => ({ val := e, safe := false } : Value)))
                (d.elems.map (fun e => ({ val := e, safe := false } : Value))).length
            else d.elems.map (fun e => ({ val := e, safe := false } : Value))).map
              (fun it => (it, none))) s)
        else some (empty s)) := by
  unfold Value.IterateOrder
  rw [h]
  rcases hk with hk | hk <;> cases d <;> cases reverse <;> simp_all [GoVal.kind]

/-- C38: reverse iteration is the reversal of forward iteration. For every Value that
resolves to a string or a sequence `d`, the unsorted forward iteration follows the iteration
protocol on the elements of `d` in order, and the unsorted reverse iteration follows it on the
same elements in reverse order, with the same count: the call with index `i` of the reverse
iteration gets the element of the call with index `n - 1 - i` of the forward iteration. -/
theorem IterateOrder_reverse {σ : Type} (L : ExtLib) (R : Runtime) (v : Value) (d : GoVal)
    (fn : σ → Nat → Nat → Value → Option Value → Bool × σ) (empty : σ → σ) (s : σ)
    (h : v.getResolvedValue = some d)
    (hd : (∃ str, d = .str str) ∨ d.kind = .array ∨ d.kind = .slice) :
    (elementsInOrder d).length = elementCount d
    ∧ v.IterateOrder L R fn empty false false s
        = some (iterationProtocol fn empty (elementsInOrder d) s)
    ∧ v.IterateOrder L R fn empty true false s
        = some (iterationProtocol fn empty (elementsInOrder d).reverse s)
    ∧ (∀ i, i < (elementsInOrder d).length →
        (elementsInOrder d).reverse[i]?
          = (elementsInOrder d)[(elementsInOrder d).length - 1 - i]?) := by
  have hrev : ∀ i, i < (elementsInOrder d).length →
      (elementsInOrder d).reverse[i]?
        = (elementsInOrder d)[(elementsInOrder d).length - 1 - i]? :=
    fun i hi => List.getElem?_reverse hi
  rcases hd with ⟨str, rfl⟩ | hk
  · have hlen : (elementsInOrder (.str str)).length = (decodeRunes str).length := by
      simp [elementsInOrder]
    refine ⟨by simp [elementsInOrder, elementCount], ?_, ?_, hrev⟩
    · unfold Value.IterateOrder
      rw [h]
      simp only [Bool.false_eq_true, if_false]
      by_cases hc : (decodeRunes str).length > 0
      · rw [if_pos hc, ← hlen]
        rw [← itemLoop_eq_protocol fn empty _ s (by rw [hlen]; omega)]
        rfl
      · rw [if_neg hc]
        have : decodeRunes str = [] := List.length_eq_zero.mp (by omega)
        simp [iterationProtocol, elementsInOrder, this]
    · unfold Value.IterateOrder
      rw [h]
      simp only [Bool.false_eq_true, if_false, if_true]
      by_cases hc : (decodeRunes str).length > 0
      · rw [if_pos hc, reverseRunesLoop_eq_reverse, List.map_reverse]
        have hl2 : (elementsInOrder (.str str)).reverse.length = (decodeRunes str).length := by
          rw [List.length_reverse, hlen]
        rw [← hl2, ← itemLoop_eq_protocol fn empty _ s (by rw [hl2]; omega)]
        rfl
      · rw [if_neg hc]
        have : decodeRunes str = [] := List.length_eq_zero.mp (by omega)
        simp [iterationProtocol, elementsInOrder, this]
  · obtain ⟨hel, hcount⟩ := elementsInOrder_of_sequence d hk
    have hlen : (elementsInOrder d).length = d.elems.length := by rw [hel, List.length_map]
    have hbody := IterateOrder_unsorted_sequence L R v d fn empty s h hk
    refine ⟨by rw [hlen, hcount], ?_, ?_, hrev⟩
    · rw [hbody false]
      simp only [Bool.false_eq_true, if_false, List.length_map, List.map_map]
      by_cases hc : d.elems.length > 0
      · rw [if_pos hc, ← hlen, ← itemLoop_eq_protocol fn empty _ s (by rw [hlen]; omega), hel]
        rfl
      · rw [if_neg hc]
        have : d.elems = [] := List.length_eq_zero.mp (by omega)
        simp [iterationProtocol, hel, this]
    · rw [hbody true]
      simp only [if_true]
      rw [reverseItemsLoop_eq_reverse]
      simp only [List.length_reverse, List.length_map]
      by_cases hc : d.elems.length > 0
      · have hl2 : (elementsInOrder d).reverse.length = d.elems.length := by
          rw [List.length_reverse, hlen]
        rw [if_pos hc, ← hl2, ← itemLoop_eq_protocol fn empty _ s (by rw [hl2]; omega), hel]
        simp only [List.map_reverse, List.map_map]
        rfl
      · rw [if_neg hc]
        have : d.elems = [] := List.length_eq_zero.mp (by omega)
        simp [iterationProtocol, hel, this]

/-- Witness for C38: the reverse iteration over the string `"abc"` visits `c`, `b`, `a`. -/
theorem IterateOrder_reverse_witness :
    (AsValue (.str (bytesOf "abc"))).IterateOrder ExtLib.trivial Runtime.small
        (recordKeys ExtLib.trivial) id true false []
      = some (iterationProtocol (recordKeys ExtLib.trivial) id
          (elementsInOrder (.str (bytesOf "abc"))).reverse [])
    ∧ iterationProtocol (recordKeys ExtLib.trivial) id
          (elementsInOrder (.str (bytesOf "abc"))).reverse []
        = [some (bytesOf "c"), some (bytesOf "b"), some (bytesOf "a")] :=
  ⟨(IterateOrder_reverse ExtLib.trivial Runtime.small (AsValue (.str (bytesOf "abc")))
      (.str (bytesOf "abc")) (recordKeys ExtLib.trivial) id [] rfl
      (Or.inl ⟨_, rfl⟩)).2.2.1, by decide⟩

/-- The reverse iteration over the slice `[1, 2, 3]` visits 3, 2, 1, and the forward iteration
over the same Value visits 1, 2, 3. -/
theorem IterateOrder_reverse_examples :
    (AsValue (.slice [.int .int 1, .int .int 2, .int .int 3])).IterateOrder ExtLib.trivial
        Runtime.small (recordKeys ExtLib.trivial) id true false []
      = some [some (bytesOf "3"), some (bytesOf "2"), some (bytesOf "1")]
    ∧ (AsValue (.slice [.int .int 1, .int .int 2, .int .int 3])).IterateOrder ExtLib.trivial
        Runtime.small (recordKeys ExtLib.trivial) id false false []
      = some [some (bytesOf "1"), some (bytesOf "2"), some (bytesOf "3")] := by
  refine ⟨by decide, by decide⟩

/-- The text emitted for the remaining input has the non-whitespace runes of the input, and is
longer than the input by at most the one space that is pending. -/
theorem emit_keeps_nonspace (s : List Char) : ∀ (q c : Char) (p : Bool),
    (emit s q c p).filter (fun r => !isSpace r) = s.filter (fun r => !isSpace r)
    ∧ (emit s q c p).length ≤ s.length + (if p then 1 else 0) := by
  induction s with
  | nil =>
    intro q c p
    unfold emit
    split_ifs <;> simp [isSpace_space]
  | cons r rs ih =>
    intro q c p
    by_cases hq : q ≠ NUL
    · rw [emit_inQuote rs q c p r hq]
      obtain ⟨h1, h2⟩ := ih (if r = q then NUL else q) r p
      refine ⟨?_, ?_⟩
      · simp only [List.filter_cons, h1]
      · simp only [List.length_cons]
        omega
    · have hq0 : q = NUL := by simpa using hq
      subst hq0
      by_cases hr : r = dquote ∨ r = squote
      · rw [emit_quote rs c p r hr]
        obtain ⟨h1, h2⟩ := ih r r false
        simp only [Bool.false_eq_true, if_false, Nat.add_zero] at h2
        refine ⟨?_, ?_⟩
        · simp only [List.filter_append, List.filter_cons, h1]
          split_ifs <;> simp_all [isSpace_space]
        · simp only [List.length_append, List.length_cons]
          split_ifs <;> simp <;> omega
      · by_cases hs : isSpace r = true
        · rw [emit_space rs c p r hr hs]
          obtain ⟨h1, h2⟩ := ih NUL c true
          simp only [if_true] at h2
          refine ⟨?_, ?_⟩
          · rw [h1]
            simp [List.filter_cons, hs]
          · simp only [List.length_cons]
            omega
        · rw [emit_other rs c p r hr hs]
          obtain ⟨h1, h2⟩ := ih NUL r false
          simp only [Bool.false_eq_true, if_false, Nat.add_zero] at h2
          refine ⟨?_, ?_⟩
          · simp only [List.filter_append, List.filter_cons, h1]
            split_ifs <;> simp_all [isSpace_space]
          · simp only [List.length_append, List.length_cons]
            split_ifs <;> simp <;> omega

/-- The loop of `stripWhitespace` on a list of runes `s`, from every starting state: the
runes written that are not whitespace are those of `s`, in the same order, and at most as
many runes are written as `s` has. -/
theorem stripWhitespace_nonspace_runes (s : List Char) (inQuote lastChar : Char) :
    (stripWhitespace s inQuote lastChar).1.filter (fun r => !isSpace r)
        = s.filter (fun r => !isSpace r)
    ∧ (stripWhitespace s inQuote lastChar).1.length ≤ s.length := by
  rw [stripWhitespace_fst]
  have h := emit_keeps_nonspace s inQuote lastChar false
  simpa using h

/-- `EqualValueTo` gives the same answer in both directions when both Values resolve and the
interface comparison of the run time is symmetric. -/
theorem EqualValueTo_symm (L : ExtLib) (X : Reflection) (a b : Value) (da db : GoVal)
    (ha : a.getResolvedValue = some da) (hb : b.getResolvedValue = some db)
    (hsym : ∀ x y, X.ifaceEq x y = X.ifaceEq y x) :
    a.EqualValueTo L X b = b.EqualValueTo L X a := by
  obtain ⟨m, hm⟩ := Option.isSome_iff_exists.mp (Integer_isSome_of_resolved L a da ha)
  obtain ⟨n, hn⟩ := Option.isSome_iff_exists.mp (Integer_isSome_of_resolved L b db hb)
  have hrest :
      (if a.IsTime && b.IsTime then decide (a.Time.unixNano = b.Time.unixNano)
        else if a.IsNil || b.IsNil then a.IsNil && b.IsNil
        else X.ifaceEq a.val b.val)
      = (if b.IsTime && a.IsTime then decide (b.Time.unixNano = a.Time.unixNano)
        else if b.IsNil || a.IsNil then b.IsNil && a.IsNil
        else X.ifaceEq b.val a.val) := by
    rw [Bool.and_comm b.IsTime, Bool.or_comm b.IsNil, Bool.and_comm b.IsNil, hsym b.val]
    congr 1
    exact decide_eq_decide.mpr eq_comm
  unfold Value.EqualValueTo Value.IsInteger
  rw [ha, hb, hm, hn]
  simp only [hrest]
  have hdec : decide (m = n) = decide (n = m) := decide_eq_decide.mpr eq_comm
  cases da <;> cases db <;> simp only [hdec]

/-- When either datum is nil, `EqualValueTo` is true if and only if both are nil, provided the
other Value resolves. -/
theorem EqualValueTo_nil (L : ExtLib) (X : Reflection) (a b : Value) (da db : GoVal)
    (ha : a.getResolvedValue = some da) (hb : b.getResolvedValue = some db)
    (hnil : a.IsNil = true ∨ b.IsNil = true) :
    a.EqualValueTo L X b = some (a.IsNil && b.IsNil) := by
  have hta : a.IsNil = true → a.IsTime = false ∧ da = .nil := by
    intro h
    obtain ⟨av, asafe⟩ := a
    cases av <;> simp_all [Value.IsNil, Value.IsTime, Value.getResolvedValue]
  have htb : b.IsNil = true → b.IsTime = false ∧ db = .nil := by
    intro h
    obtain ⟨bv, bsafe⟩ := b
    cases bv <;> simp_all [Value.IsNil, Value.IsTime, Value.getResolvedValue]
  unfold Value.EqualValueTo Value.IsInteger
  rw [ha, hb]
  rcases hnil with h | h
  · obtain ⟨h1, rfl⟩ := hta h
    simp [h, h1]
  · obtain ⟨h1, rfl⟩ := htb h
    simp only [h, h1, Bool.and_false, Bool.or_true, Bool.and_true, if_true]
    cases da <;> simp

/-- For a datum of kind slice or map on the left, `EqualValueTo` is false, when the interface
comparison of the run time is false for such a datum: it is false for two datums of
different types, and for two datums of the same uncomparable type it panics, which
`EqualValueTo` recovers from. -/
theorem EqualValueTo_uncomparable (L : ExtLib) (X : Reflection) (a b : Value)
    (hk : a.val.kind = .slice ∨ a.val.kind = .map)
    (hunc : ∀ x y, (x.kind = .slice ∨ x.kind = .map) → X.ifaceEq x y = false) :
    a.EqualValueTo L X b = some false := by
  obtain ⟨av, asafe⟩ := a
  have h1 := hunc av b.val hk
  unfold Value.EqualValueTo Value.IsInteger
  rcases hk with hk | hk <;>
    cases av <;>
      simp_all [GoVal.kind, Value.getResolvedValue, Value.IsTime, Value.IsNil,
        GoVal.reflectDeref]

/-- C40 (the code at the failing input): `EqualValueTo` panics when the receiver holds a nil
`*int`, and when the receiver is an integer and the argument holds a nil `*int`: the calls
of `IsInteger` dereference the nil pointer before the deferred `recover()` is registered. With
the string `"x"` as the receiver and the nil `*int` as the argument it returns, so the two
directions differ. -/
theorem EqualValueTo_nil_pointer_panics (L : ExtLib) (X : Reflection) :
    (AsValue (.nilPtr (.int .int))).EqualValueTo L X (AsValue (.str (bytesOf "x"))) = none
    ∧ ((AsValue (.str (bytesOf "x"))).EqualValueTo L X
        (AsValue (.nilPtr (.int .int)))).isSome = true
    ∧ (AsValue (.int .int 1)).EqualValueTo L X (AsValue (.nilPtr (.int .int))) = none
    ∧ (AsValue (.nilPtr (.int .int))).EqualValueTo L X (AsValue (.int .int 1)) = none :=
  ⟨rfl, rfl, rfl, rfl⟩

/-- `EqualValueTo` on nil, on integers of different widths, on timestamps and on slices. -/
theorem EqualValueTo_examples :
    (AsValue .nil).EqualValueTo ExtLib.trivial Reflection.scalars (AsValue .nil) = some true
    ∧ (AsValue .nil).EqualValueTo ExtLib.trivial Reflection.scalars (AsValue (.int .int 0))
        = some false
    ∧ (AsValue (.int .int 0)).EqualValueTo ExtLib.trivial Reflection.scalars (AsValue .nil)
        = some false
    ∧ (AsValue (.int .uint8 5)).EqualValueTo ExtLib.trivial Reflection.scalars
        (AsValue (.int .int64 5)) = some true
    ∧ (AsValue (.time ⟨5, "UTC"⟩)).EqualValueTo ExtLib.trivial Reflection.scalars
        (AsValue (.time ⟨5, "Local"⟩)) = some true
    ∧ (AsValue (.slice [.int .int 1])).EqualValueTo ExtLib.trivial Reflection.scalars
        (AsValue (.slice [.int .int 1])) = some false := by
  refine ⟨by decide, by decide, by decide, by decide, by decide, by decide⟩

/-- Every rune of a text is a code point outside the surrogate range. -/
theorem validRune_toNat (c : Char) : validRune c.toNat = true := by
  have h := c.valid
  unfold validRune
  simp only [Bool.or_eq_true, Bool.and_eq_true, decide_eq_true_eq]
  rcases h with h | h
  · left
    exact h
  · right
    have h1 := h.1
    have h2 := h.2
    change 57343 < c.toNat at h1
    change c.toNat < 1114112 at h2
    omega

/-- The code point of the rune made from a valid code point. -/
theorem toNat_ofNat_of_valid (n : Nat) (h : validRune n = true) : (Char.ofNat n).toNat = n := by
  unfold validRune at h
  simp only [Bool.or_eq_true, Bool.and_eq_true, decide_eq_true_eq] at h
  have hv : n.isValidChar := by
    rcases h with h | h
    · exact Or.inl h
    · exact Or.inr ⟨by omega, h.2⟩
  simp [Char.ofNat, hv, Char.ofNatAux, Char.toNat, UInt32.toNat]

/-- Decoding the bytes written for a list of runes gives the runes back. -/
theorem runesOf_bytesOfRunes (rs : List Char) : runesOf (bytesOfRunes rs) = rs := by
  unfold runesOf bytesOfRunes
  rw [decodeRunes_encodeRunes _ (by
    intro r hr
    obtain ⟨c, -, rfl⟩ := List.mem_map.mp hr
    exact validRune_toNat c)]
  rw [List.map_map]
  conv => rhs; rw [← List.map_id rs]
  apply List.map_congr_left
  intro c _
  exact Char.ofNat_toNat c

/-- A text is valid UTF-8 exactly when it is the encoding of a list of runes. -/
theorem validUTF8_iff (s : GoString) : validUTF8 s = true ↔ ∃ rs, s = bytesOfRunes rs := by
  unfold validUTF8
  rw [beq_iff_eq]
  constructor
  · intro h
    exact ⟨runesOf s, h.symm⟩
  · rintro ⟨rs, rfl⟩
    rw [runesOf_bytesOfRunes]

theorem bytesOfRunes_cons (c : Char) (rs : List Char) :
    bytesOfRunes (c :: rs) = encodeRune c.toNat ++ bytesOfRunes rs := by
  simp [bytesOfRunes, encodeRunes]

theorem bytesOfRunes_append (a b : List Char) :
    bytesOfRunes (a ++ b) = bytesOfRunes a ++ bytesOfRunes b := by
  simp [bytesOfRunes, encodeRunes]

/-- An ASCII rune is written as its one byte. -/
theorem encodeRune_ascii (n : Nat) (h : n < 128) : encodeRune n = [n] := by
  unfold encodeRune
  rw [if_pos h]

/-- The encoding of a rune has at least one byte. -/
theorem encodeRune_length_pos (n : Nat) : 1 ≤ (encodeRune n).length := by
  unfold encodeRune
  split_ifs <;> simp

/-- A text that holds an ASCII rune holds its byte. -/
theorem mem_bytesOfRunes_of_mem (q : Char) (hq : q.toNat < 128) :
    ∀ rs : List Char, q ∈ rs → q.toNat ∈ bytesOfRunes rs
  | [], h => by simp at h
  | c :: rs, h => by
    rw [bytesOfRunes_cons]
    rcases List.mem_cons.mp h with rfl | h
    · rw [encodeRune_ascii _ hq]
      simp
    · exact List.mem_append_right _ (mem_bytesOfRunes_of_mem q hq rs h)

/-- The bytes written for the remaining input are more than the bytes of the input by at most
the one space that is pending. -/
theorem emit_bytes_length (s : List Char) : ∀ (q c : Char) (p : Bool),
    (bytesOfRunes (emit s q c p)).length ≤ (bytesOfRunes s).length + (if p then 1 else 0) := by
  have hsp : (bytesOfRunes [' ']).length = 1 := by decide
  have hnil : (bytesOfRunes []).length = 0 := by decide
  induction s with
  | nil =>
    intro q c p
    unfold emit
    split_ifs <;> simp [hsp, hnil]
  | cons r rs ih =>
    intro q c p
    have hr1 := encodeRune_length_pos r.toNat
    by_cases hq : q ≠ NUL
    · rw [emit_inQuote rs q c p r hq]
      have h2 := ih (if r = q then NUL else q) r p
      simp only [bytesOfRunes_cons, List.length_append]
      omega
    · have hq0 : q = NUL := by simpa using hq
      subst hq0
      by_cases hr : r = dquote ∨ r = squote
      · rw [emit_quote rs c p r hr]
        have h2 := ih r r false
        simp only [Bool.false_eq_true, if_false, Nat.add_zero] at h2
        simp only [bytesOfRunes_append, bytesOfRunes_cons, List.length_append]
        split_ifs <;> simp only [hsp, hnil] <;> omega
      · by_cases hs : isSpace r = true
        · rw [emit_space rs c p r hr hs]
          have h2 := ih NUL c true
          simp only [if_true] at h2
          simp only [bytesOfRunes_cons, List.length_append]
          omega
        · rw [emit_other rs c p r hr hs]
          have h2 := ih NUL r false
          simp only [Bool.false_eq_true, if_false, Nat.add_zero] at h2
          simp only [bytesOfRunes_append, bytesOfRunes_cons, List.length_append]
          split_ifs <;> simp only [hsp, hnil] <;> omega

/-- C10 (as stated, refuted): the body that holds the one byte `0xFF` holds no quote, and
`stripWhitespace` on the quoted body returns the quote, the three bytes of U+FFFD and the
quote, not the text unchanged; started inside the open quote it returns the three bytes for
the one. -/
theorem stripWhitespace_quoted_counterexample :
    stripWhitespaceBytes [34, 255, 34] NUL NUL = ([34, 0xEF, 0xBF, 0xBD, 34], NUL, dquote)
    ∧ (stripWhitespaceBytes [255] dquote NUL).1 = [0xEF, 0xBF, 0xBD]
    ∧ dquote.toNat = 34 ∧ (34 : Nat) ∉ [255] := by
  refine ⟨by decide, by decide, by decide, by decide⟩

set_option maxRecDepth 100000 in
/-- C10 (amended): quoted text that is valid UTF-8 is copied verbatim. For a quote character
`q` and a body that is valid UTF-8 and holds no `q`, `stripWhitespace(q + body + q, 0, 0)`
returns `q + body + q` unchanged, and `stripWhitespace(body, q, c)`, started inside an open
`q`-quote, returns `body` unchanged with the quote still open;
`<div class="  foo  bar  "></div>` is returned unchanged. -/
theorem stripWhitespaceBytes_quoted_verbatim (q : Char) (body : GoString)
    (hq : q = dquote ∨ q = squote) (hv : validUTF8 body = true) (hn : q.toNat ∉ body) :
    stripWhitespaceBytes (q.toNat :: (body ++ [q.toNat])) NUL NUL
      = (q.toNat :: (body ++ [q.toNat]), NUL, q)
    ∧ (∀ c : Char, stripWhitespaceBytes body q c = (body, q, lastRune c (runesOf body)))
    ∧ stripWhitespaceBytes (bytesOf "<div class=\"  foo  bar  \"></div>") NUL NUL
        = (bytesOf "<div class=\"  foo  bar  \"></div>", NUL, '>') := by
  have hq128 : q.toNat < 128 := by
    rcases hq with h | h <;> subst h <;> decide
  obtain ⟨rs, rfl⟩ := (validUTF8_iff body).mp hv
  have hrs : q ∉ rs := fun h => hn (mem_bytesOfRunes_of_mem q hq128 rs h)
  have hrune := stripWhitespace_quoted_runes q rs hq hrs
  have henc : q.toNat :: (bytesOfRunes rs ++ [q.toNat]) = bytesOfRunes (q :: (rs ++ [q])) := by
    rw [bytesOfRunes_cons, bytesOfRunes_append, bytesOfRunes_cons, encodeRune_ascii _ hq128]
    simp [bytesOfRunes, encodeRunes]
  refine ⟨?_, ?_, by decide⟩
  · rw [henc]
    unfold stripWhitespaceBytes
    rw [runesOf_bytesOfRunes, hrune.1]
  · intro c
    unfold stripWhitespaceBytes
    rw [runesOf_bytesOfRunes, hrune.2.1 c]

/-- Witness for C10: the attribute value `"  föö  bar  "`. -/
theorem stripWhitespaceBytes_quoted_verbatim_witness :
    stripWhitespaceBytes (dquote.toNat :: (bytesOf "  föö  bar  " ++ [dquote.toNat])) NUL NUL
      = (dquote.toNat :: (bytesOf "  föö  bar  " ++ [dquote.toNat]), NUL, dquote) :=
  (stripWhitespaceBytes_quoted_verbatim dquote (bytesOf "  föö  bar  ") (Or.inl rfl)
    (by decide) (by decide)).1

/-- C39 (as stated, refuted): for the text that holds the one byte `0xFF`, which is not
whitespace, `stripWhitespace` returns the three bytes of U+FFFD: the output is longer than
the text and a byte that is not whitespace has changed. -/
theorem stripWhitespace_longer_counterexample :
    (stripWhitespaceBytes [255] NUL NUL).1 = [0xEF, 0xBF, 0xBD]
    ∧ (stripWhitespaceBytes [255] NUL NUL).1.length = 3
    ∧ ([255] : GoString).length = 1
    ∧ validUTF8 [255] = false := by
  refine ⟨by decide, by decide, by decide, by decide⟩

/-- C39 (amended): `stripWhitespace` only ever changes whitespace, on the runes of the text.
For every text `s` and every starting state, the non-whitespace runes of the output are the
non-whitespace runes that `range s` yields, in the same order, and the output has at most as
many runes as `s`; when `s` is valid UTF-8 the output is valid UTF-8 and has at most as many
bytes as `s`. -/
theorem stripWhitespaceBytes_only_whitespace (s : GoString) (inQuote lastChar : Char) :
    (runesOf (stripWhitespaceBytes s inQuote lastChar).1).filter (fun r => !isSpace r)
        = (runesOf s).filter (fun r => !isSpace r)
    ∧ (runesOf (stripWhitespaceBytes s inQuote lastChar).1).length ≤ (runesOf s).length
    ∧ validUTF8 (stripWhitespaceBytes s inQuote lastChar).1 = true
    ∧ (validUTF8 s = true →
        (stripWhitespaceBytes s inQuote lastChar).1.length ≤ s.length) := by
  have hrune := stripWhitespace_nonspace_runes (runesOf s) inQuote lastChar
  have hout : (stripWhitespaceBytes s inQuote lastChar).1
      = bytesOfRunes (stripWhitespace (runesOf s) inQuote lastChar).1 := rfl
  rw [hout, runesOf_bytesOfRunes]
  refine ⟨hrune.1, hrune.2, (validUTF8_iff _).mpr ⟨_, rfl⟩, ?_⟩
  intro hv
  have hs : bytesOfRunes (runesOf s) = s := by
    unfold validUTF8 at hv
    exact beq_iff_eq.mp hv
  have hlen := emit_bytes_length (runesOf s) inQuote lastChar false
  rw [stripWhitespace_fst]
  simp only [Bool.false_eq_true, if_false, Nat.add_zero, hs] at hlen
  exact hlen

/-- Witness for C39: the text `a  b` is valid UTF-8, and the output is not longer. -/
theorem stripWhitespaceBytes_only_whitespace_witness :
    (stripWhitespaceBytes (bytesOf "a  b") NUL NUL).1.length ≤ (bytesOf "a  b").length :=
  (stripWhitespaceBytes_only_whitespace (bytesOf "a  b") NUL NUL).2.2.2 (by decide)

theorem bubbleLeft_perm {α : Type} (less : α → α → Bool) (x : α) (rp : List α) :
    (bubbleLeft less x rp).Perm (x :: rp) := by
  induction rp with
  | nil => exact List.Perm.refl _
  | cons y rest ih =>
    simp only [bubbleLeft]
    split
    · exact (List.Perm.cons y ih).trans (List.Perm.swap x y rest)
    · exact List.Perm.refl _

/-- The insertion sort of Go rearranges its slice. -/
theorem goInsertionSort_perm (α : Type) (less : α → α → Bool) (l : List α) :
    (goInsertionSort less l).Perm l := by
  unfold goInsertionSort
  have key : ∀ (l rp : List α),
      (l.foldl (fun rp x => bubbleLeft less x rp) rp).Perm (l ++ rp) := by
    intro l
    induction l with
    | nil => intro rp; exact List.Perm.refl _
    | cons a t ih =>
      intro rp
      simp only [List.foldl_cons]
      refine (ih _).trans ?_
      refine (List.Perm.append_left t (bubbleLeft_perm less a rp)).trans ?_
      exact List.perm_middle
  refine (List.reverse_perm _).trans ?_
  simpa using key l []

/-- A sort of values that resolve does not panic and gives the slice that `sort.Sort`
leaves. -/
theorem sortWith_valuesList_eq (L : ExtLib) (R : Runtime) (reverse : Bool) (items : List Value)
    (hres : ∀ it ∈ items, it.getResolvedValue ≠ none) :
    sortWith R (valuesListLess L) reverse items
      = some (R.sort
          (fun a b =>
            if reverse then (valuesListLess L b a).getD false
            else (valuesListLess L a b).getD false) items) := by
  unfold sortWith
  have hno : ¬ (2 ≤ items.length ∧
      items.any (fun a => items.any (fun b => (valuesListLess L a b).isNone)) = true) := by
    rintro ⟨-, hany⟩
    simp only [List.any_eq_true] at hany
    obtain ⟨a, ha, b, hb, hab⟩ := hany
    obtain ⟨da, hda⟩ := Option.ne_none_iff_exists'.mp (hres a ha)
    obtain ⟨db, hdb⟩ := Option.ne_none_iff_exists'.mp (hres b hb)
    have := lessSwitch_isSome L a b da db hda hdb
    unfold valuesListLess at hab
    rw [Option.isNone_iff_eq_none] at hab
    rw [hab] at this
    cases this
  rw [if_neg hno]

/-- A sort of the keys of a map does not panic and gives the slice that `sort.Sort` leaves. -/
theorem sortWith_sortedKeys_eq (L : ExtLib) (R : Runtime) (reverse : Bool)
    (keys : List (GoVal × GoVal)) :
    sortWith R (fun a b => sortedKeysLess L R a.1 b.1) reverse keys
      = some (R.sort
          (fun a b =>
            if reverse then (sortedKeysLess L R b.1 a.1).getD false
            else (sortedKeysLess L R a.1 b.1).getD false) keys) := by
  unfold sortWith
  have hno : ¬ (2 ≤ keys.length ∧
      keys.any (fun a => keys.any (fun b => (sortedKeysLess L R a.1 b.1).isNone)) = true) := by
    rintro ⟨-, hany⟩
    simp only [List.any_eq_true] at hany
    obtain ⟨a, -, b, -, hab⟩ := hany
    have := lessSwitch_isSome L { val := reflectValueDatum R a.1, safe := false }
      { val := reflectValueDatum R b.1, safe := false } _ _ rfl rfl
    unfold sortedKeysLess at hab
    rw [Option.isNone_iff_eq_none] at hab
    rw [hab] at this
    cases this
  rw [if_neg hno]

/-- The loop over the items, or the call of `empty` for no items, is the protocol. -/
theorem itemLoop_or_empty_eq_protocol {σ : Type}
    (fn : σ → Nat → Nat → Value → Option Value → Bool × σ) (empty : σ → σ)
    (items : List (Value × Option Value)) (s : σ) :
    (if items.length > 0 then itemLoop fn items.length 0 items s else empty s)
      = iterationProtocol fn empty items s := by
  by_cases hc : items.length > 0
  · rw [if_pos hc, itemLoop_eq_protocol fn empty items s (by omega)]
  · rw [if_neg hc]
    have : items = [] := by
      cases items with
      | nil => rfl
      | cons a t => simp at hc
    subst this
    simp [iterationProtocol]

/-- The iteration over a string visits its runes. -/
theorem IterateOrder_string_items {σ : Type} (L : ExtLib) (R : Runtime) (v : Value)
    (str : GoString) (fn : σ → Nat → Nat → Value → Option Value → Bool × σ) (empty : σ → σ)
    (reverse sorted : Bool) (s : σ) (h : v.getResolvedValue = some (.str str)) :
    ∃ items : List (Value × Option Value),
      v.IterateOrder L R fn empty reverse sorted s = some (iterationProtocol fn empty items s)
      ∧ items.length = elementCount (.str str)
      ∧ items.Perm (elementItems (.str str))
      ∧ (sorted = false → items =
          if reverse = true ∧ (GoVal.str str).kind ≠ .map then (elementItems (.str str)).reverse
          else elementItems (.str str))
      ∧ (sorted = true → items = sortedItems L R reverse (.str str)) := by
  have hE : elementItems (.str str)
      = (decodeRunes str).map
          (fun r => (({ val := .str (encodeRune r), safe := false } : Value),
            (none : Option Value))) := by
    simp [elementItems, elementsInOrder, GoVal.kind]
  have hrev : ∀ rs1 : List Nat, rs1.length = (decodeRunes str).length →
      reverseRunesLoop (decodeRunes str).length rs1 0 ((decodeRunes str).length - 1)
        = rs1.reverse := by
    intro rs1 h1
    rw [← h1]
    exact reverseRunesLoop_eq_reverse rs1
  have hbody : v.IterateOrder L R fn empty reverse sorted s
      = some (iterationProtocol fn empty
          ((if reverse then
              (if sorted then sortRunes (decodeRunes str) else decodeRunes str).reverse
            else (if sorted then sortRunes (decodeRunes str) else decodeRunes str)).map
            (fun r => (({ val := .str (encodeRune r), safe := false } : Value),
              (none : Option Value)))) s) := by
    unfold Value.IterateOrder
    rw [h]
    simp only []
    rw [← itemLoop_or_empty_eq_protocol]
    have hl : ((if reverse then
              (if sorted then sortRunes (decodeRunes str) else decodeRunes str).reverse
            else (if sorted then sortRunes (decodeRunes str) else decodeRunes str)).map
            (fun r => (({ val := .str (encodeRune r), safe := false } : Value),
              (none : Option Value)))).length = (decodeRunes str).length := by
      cases reverse <;> cases sorted <;> simp [sortRunes_length]
    rw [hl]
    rw [hrev _ (by cases sorted <;> simp [sortRunes_length])]
    split_ifs <;> rfl
  refine ⟨_, hbody, ?_, ?_, ?_, ?_⟩
  · cases reverse <;> cases sorted <;> simp [elementCount, sortRunes_length]
  · rw [hE]
    refine List.Perm.map _ ?_
    have hs : (sortRunes (decodeRunes str)).Perm (decodeRunes str) :=
      List.perm_insertionSort _ _
    cases reverse <;> cases sorted <;> simp only [if_true, if_false, Bool.false_eq_true]
    · exact List.Perm.refl _
    · exact hs
    · exact List.reverse_perm _
    · exact (List.reverse_perm _).trans hs
  · intro hs
    subst hs
    rw [hE]
    cases reverse <;> simp [GoVal.kind, List.map_reverse]
  · intro hs
    subst hs
    cases reverse <;> simp [sortedItems]

/-- The body of `IterateOrder` for a datum of kind array or slice. -/
theorem IterateOrder_sequence_body {σ : Type} (L : ExtLib) (R : Runtime) (v : Value)
    (d : GoVal) (fn : σ → Nat → Nat → Value → Option Value → Bool × σ) (empty : σ → σ)
    (reverse sorted : Bool) (s : σ)
    (h : v.getResolvedValue = some d) (hk : d.kind = .array ∨ d.kind = .slice) :
    v.IterateOrder L R fn empty reverse sorted s =
      (match (if sorted then
                sortWith R (valuesListLess L) reverse
                  (d.elems.map (fun e => ({ val := e, safe := false } : Value)))
              else if reverse then
                some (reverseItemsLoop (d.elems.map (fun e => ({ val := e, safe := false } : Value)))
                  (d.elems.map (fun e => ({ val := e, safe := false } : Value))).length)
              else some (d.elems.map (fun e => ({ val := e, safe := false } : Value)))) with
        | none => none
        | some items2 =>
          if items2.length > 0 then
            some (itemLoop fn (d.elems.map (fun e => ({ val := e, safe := false } : Value))).length
              0 (items2.map (fun it => (it, none))) s)
          else some (empty s)) := by
  unfold Value.IterateOrder
  rw [h]
  rcases hk with hk | hk <;> cases d <;> simp_all [GoVal.kind]

/-- The iteration over a datum of kind array or slice visits its elements. -/
theorem IterateOrder_sequence_items {σ : Type} (L : ExtLib) (R : Runtime) (v : Value)
    (d : GoVal) (fn : σ → Nat → Nat → Value → Option Value → Bool × σ) (empty : σ → σ)
    (reverse sorted : Bool) (s : σ)
    (hsort : ∀ (α : Type) (less : α → α → Bool) (l : List α), (R.sort less l).Perm l)
    (h : v.getResolvedValue = some d) (hk : d.kind = .array ∨ d.kind = .slice)
    (hres : sorted = true → ∀ e ∈ d.elems, (AsValue e).getResolvedValue ≠ none) :
    ∃ items : List (Value × Option Value),
      v.IterateOrder L R fn empty reverse sorted s = some (iterationProtocol fn empty items s)
      ∧ items.length = elementCount d
      ∧ items.Perm (elementItems d)
      ∧ (sorted = false → items =
          if reverse = true ∧ d.kind ≠ .map then (elementItems d).reverse else elementItems d)
      ∧ (sorted = true → items = sortedItems L R reverse d) := by
  have hbody := IterateOrder_sequence_body L R v d fn empty reverse sorted s h hk
  have hnm : d.kind ≠ .map := by
    rcases hk with hk | hk <;> rw [hk] <;> decide
  have hE : elementItems d
      = (d.elems.map (fun e => ({ val := e, safe := false } : Value))).map
          (fun it => (it, (none : Option Value))) := by
    unfold elementItems
    rw [if_neg hnm, (elementsInOrder_of_sequence d hk).1, List.map_map]
    rfl
  have hS : sortedItems L R reverse d
      = (R.sort
          (fun a b =>
            if reverse then (valuesListLess L b a).getD false
            else (valuesListLess L a b).getD false)
          (d.elems.map (fun e => ({ val := e, safe := false } : Value)))).map
          (fun it => (it, (none : Option Value))) := by
    rcases hk with hk | hk <;> cases d <;> simp_all [sortedItems, GoVal.kind]
  have hcount : elementCount d = d.elems.length := (elementsInOrder_of_sequence d hk).2
  generalize hvals : d.elems.map (fun e => ({ val := e, safe := false } : Value)) = vals
    at hE hS hbody
  have hvl : vals.length = d.elems.length := by rw [← hvals, List.length_map]
  have hitems : ∃ items2 : List Value,
      (if sorted then sortWith R (valuesListLess L) reverse vals
        else if reverse then some (reverseItemsLoop vals vals.length)
        else some vals) = some items2
      ∧ items2.Perm vals
      ∧ (sorted = false → items2 = if reverse = true then vals.reverse else vals)
      ∧ (sorted = true → items2 = R.sort
          (fun a b =>
            if reverse then (valuesListLess L b a).getD false
            else (valuesListLess L a b).getD false) vals) := by
    cases sorted
    · cases reverse
      · exact ⟨_, rfl, List.Perm.refl _, fun _ => rfl, fun hc => by cases hc⟩
      · refine ⟨_, rfl, ?_, fun _ => ?_, fun hc => by cases hc⟩
        · rw [reverseItemsLoop_eq_reverse]
          exact List.reverse_perm _
        · rw [reverseItemsLoop_eq_reverse]
          rfl
    · refine ⟨R.sort
          (fun a b =>
            if reverse then (valuesListLess L b a).getD false
            else (valuesListLess L a b).getD false) vals, ?_, hsort _ _ _,
          (fun hc => by cases hc), fun _ => rfl⟩
      rw [if_pos rfl]
      refine sortWith_valuesList_eq L R reverse vals ?_
      intro it hit
      rw [← hvals] at hit
      obtain ⟨e, he, rfl⟩ := List.mem_map.mp hit
      exact hres rfl e he
  obtain ⟨items2, h1, h2, h3, h4⟩ := hitems
  rw [h1] at hbody
  simp only [] at hbody
  have hl2 : items2.length = vals.length := h2.length_eq
  refine ⟨items2.map (fun it => (it, none)), ?_, ?_, ?_, ?_, ?_⟩
  · rw [hbody, ← itemLoop_or_empty_eq_protocol, List.length_map, hl2]
    split_ifs <;> rfl
  · rw [List.length_map, hl2, hvl, hcount]
  · rw [hE]
    exact List.Perm.map _ h2
  · intro hs
    rw [h3 hs, hE]
    cases reverse <;> simp [hnm, List.map_reverse]
  · intro hs
    rw [h4 hs, hS]

/-- The body of `IterateOrder` for a datum of kind map. -/
theorem IterateOrder_mapping_body {σ : Type} (L : ExtLib) (R : Runtime) (v : Value)
    (d : GoVal) (fn : σ → Nat → Nat → Value → Option Value → Bool × σ) (empty : σ → σ)
    (reverse sorted : Bool) (s : σ)
    (h : v.getResolvedValue = some d) (hk : d.kind = .map) :
    v.IterateOrder L R fn empty reverse sorted s =
      (match (if sorted then sortWith R (fun a b => sortedKeysLess L R a.1 b.1) reverse d.entries
              else some d.entries) with
        | none => none
        | some keys1 =>
          if keys1.length = 0 then
            some (empty (itemLoop fn keys1.length 0
              (keys1.map (fun kv => (({ val := kv.1, safe := false } : Value),
                some ({ val := kv.2, safe := false } : Value)))) s))
          else
            some (itemLoop fn keys1.length 0
              (keys1.map (fun kv => (({ val := kv.1, safe := false } : Value),
                some ({ val := kv.2, safe := false } : Value)))) s)) := by
  unfold Value.IterateOrder
  rw [h]
  cases d <;> simp_all [GoVal.kind]

/-- The iteration over a datum of kind map visits its entries. -/
theorem IterateOrder_mapping_items {σ : Type} (L : ExtLib) (R : Runtime) (v : Value)
    (d : GoVal) (fn : σ → Nat → Nat → Value → Option Value → Bool × σ) (empty : σ → σ)
    (reverse sorted : Bool) (s : σ)
    (hsort : ∀ (α : Type) (less : α → α → Bool) (l : List α), (R.sort less l).Perm l)
    (h : v.getResolvedValue = some d) (hk : d.kind = .map) :
    ∃ items : List (Value × Option Value),
      v.IterateOrder L R fn empty reverse sorted s = some (iterationProtocol fn empty items s)
      ∧ items.length = elementCount d
      ∧ items.Perm (elementItems d)
      ∧ (sorted = false → items =
          if reverse = true ∧ d.kind ≠ .map then (elementItems d).reverse else elementItems d)
      ∧ (sorted = true → items = sortedItems L R reverse d) := by
  have hbody := IterateOrder_mapping_body L R v d fn empty reverse sorted s h hk
  have hE : elementItems d
      = d.entries.map (fun kv => (({ val := kv.1, safe := false } : Value),
                some ({ val := kv.2, safe := false } : Value))) := by
    unfold elementItems
    rw [if_pos hk]
  have hS : sortedItems L R reverse d
      = (R.sort
          (fun a b =>
            if reverse then (sortedKeysLess L R b.1 a.1).getD false
            else (sortedKeysLess L R a.1 b.1).getD false) d.entries).map
          (fun kv => (({ val := kv.1, safe := false } : Value),
                some ({ val := kv.2, safe := false } : Value))) := by
    cases d <;> simp_all [sortedItems, GoVal.kind]
  have hcount : elementCount d = d.entries.length := by
    cases d <;> simp_all [elementCount, GoVal.kind]
  have hkeys : ∃ keys1 : List (GoVal × GoVal),
      (if sorted then sortWith R (fun a b => sortedKeysLess L R a.1 b.1) reverse d.entries
       else some d.entries) = some keys1
      ∧ keys1.Perm d.entries
      ∧ (sorted = false → keys1 = d.entries)
      ∧ (sorted = true → keys1 = R.sort
          (fun a b =>
            if reverse then (sortedKeysLess L R b.1 a.1).getD false
            else (sortedKeysLess L R a.1 b.1).getD false) d.entries) := by
    cases sorted
    · exact ⟨_, rfl, List.Perm.refl _, fun _ => rfl, fun hc => by cases hc⟩
    · refine ⟨R.sort
          (fun a b =>
            if reverse then (sortedKeysLess L R b.1 a.1).getD false
            else (sortedKeysLess L R a.1 b.1).getD false) d.entries, ?_, hsort _ _ _,
          (fun hc => by cases hc), fun _ => rfl⟩
      rw [if_pos rfl]
      exact sortWith_sortedKeys_eq L R reverse d.entries
  obtain ⟨keys1, h1, h2, h3, h4⟩ := hkeys
  rw [h1] at hbody
  simp only [] at hbody
  refine ⟨keys1.map (fun kv => (({ val := kv.1, safe := false } : Value),
                some ({ val := kv.2, safe := false } : Value))), ?_, ?_, ?_, ?_, ?_⟩
  · rw [hbody]
    by_cases hc : keys1.length = 0
    · rw [if_pos hc]
      have : keys1 = [] := List.length_eq_zero.mp hc
      subst this
      simp [iterationProtocol, itemLoop]
    · rw [if_neg hc, ← itemLoop_eq_protocol fn empty _ s (by simpa using hc)]
      simp
  · rw [List.length_map, h2.length_eq, hcount]
  · rw [hE]
    exact List.Perm.map _ h2
  · intro hs
    rw [h3 hs, hE]
    simp [hk]
  · intro hs
    rw [h4 hs, hS]

/-- C19: the iteration protocol. For every Value that resolves to a string, a sequence or a
mapping `d` with `n` elements, `IterateOrder` calls `onEmpty` once and `onItem` never when
`n = 0`; when `n > 0` it never calls `onEmpty` and calls `onItem` with the indices 0, 1, 2, ...
and the count `n`, one call per element in order, stopping after the first call that returns
`false`. The calls receive the items of `d`, each element once: in the order of `d` for a
plain iteration, a string or a sequence in the reverse order with `reverse`, and in the order
that the sort leaves with `sorted`. The sort of the run time only rearranges its slice; for a
sorted iteration the elements of a sequence resolve. -/
theorem IterateOrder_protocol {σ : Type} (L : ExtLib) (R : Runtime) (v : Value) (d : GoVal)
    (fn : σ → Nat → Nat → Value → Option Value → Bool × σ) (empty : σ → σ)
    (reverse sorted : Bool) (s : σ)
    (hsort : ∀ (α : Type) (less : α → α → Bool) (l : List α), (R.sort less l).Perm l)
    (h : v.getResolvedValue = some d)
    (hd : (∃ str, d = .str str) ∨ d.kind = .array ∨ d.kind = .slice ∨ d.kind = .map)
    (hres : sorted = true → ∀ e ∈ d.elems, (AsValue e).getResolvedValue ≠ none) :
    ∃ items : List (Value × Option Value),
      v.IterateOrder L R fn empty reverse sorted s = some (iterationProtocol fn empty items s)
      ∧ items.length = elementCount d
      ∧ items.Perm (elementItems d)
      ∧ (sorted = false → items =
          if reverse = true ∧ d.kind ≠ .map then (elementItems d).reverse else elementItems d)
      ∧ (sorted = true → items = sortedItems L R reverse d) := by
  rcases hd with ⟨str, rfl⟩ | hk | hk | hk
  · exact IterateOrder_string_items L R v str fn empty reverse sorted s h
  · exact IterateOrder_sequence_items L R v d fn empty reverse sorted s hsort h (Or.inl hk) hres
  · exact IterateOrder_sequence_items L R v d fn empty reverse sorted s hsort h (Or.inr hk) hres
  · exact IterateOrder_mapping_items L R v d fn empty reverse sorted s hsort h hk

/-- Witness for C19: the sorted iteration over the slice `[2, 1]`. -/
theorem IterateOrder_protocol_witness :
    ∃ items : List (Value × Option Value),
      (AsValue (.slice [.int .int 2, .int .int 1])).IterateOrder ExtLib.numeric Runtime.small
            (recordKeys ExtLib.numeric) id false true []
          = some (iterationProtocol (recordKeys ExtLib.numeric) id items [])
      ∧ items.length = elementCount (.slice [.int .int 2, .int .int 1])
      ∧ items.Perm (elementItems (.slice [.int .int 2, .int .int 1]))
      ∧ (true = false → items =
          if false = true ∧ (GoVal.slice [.int .int 2, .int .int 1]).kind ≠ .map then
            (elementItems (.slice [.int .int 2, .int .int 1])).reverse
          else elementItems (.slice [.int .int 2, .int .int 1]))
      ∧ (true = true → items
          = sortedItems ExtLib.numeric Runtime.small false (.slice [.int .int 2, .int .int 1])) :=
  IterateOrder_protocol ExtLib.numeric Runtime.small
    (AsValue (.slice [.int .int 2, .int .int 1])) (.slice [.int .int 2, .int .int 1])
    (recordKeys ExtLib.numeric) id false true [] goInsertionSort_perm rfl
    (Or.inr (Or.inr (Or.inl rfl)))
    (fun _ e he => by
      simp only [GoVal.elems, List.mem_cons, List.mem_singleton, List.not_mem_nil, or_false] at he
      rcases he with rfl | rfl <;> simp [AsValue, Value.getResolvedValue])

end Pongo2
